import Mathlib

/-!
# jyf: tokenizer, parser and scoped contexts

A shallow embedding of `src/jyf.js` and of the host facilities it calls
(regular-expression matching of the eight token patterns, strict-mode `eval`
of a literal, `JSON.stringify` of a string).

Conventions of the embedding
* a host string is the list of its UTF-16 code units (`Str`); none of the
  patterns carries the `u` flag, so the host matches them unit by unit;
* a thrown exception is the `error` outcome of a `Result`; an exception the
  host raises itself (not built by the `error` factory, hence without the
  `_jyftype` marker) has kind `Host`;
* loops and recursion of the source run on a step budget; `Result.fuel` is
  the outcome of an exhausted budget.
-/

set_option autoImplicit false

namespace Jyf

/-! ## Host strings -/

/-- A host string, as the list of its UTF-16 code units. -/
abbrev Str := List Nat

/-- UTF-16 code units of one character. -/
def unitsOfChar (c : Char) : Str :=
  if c.toNat < 65536 then [c.toNat]
  else [55296 + (c.toNat - 65536) / 1024, 56320 + (c.toNat - 65536) % 1024]

/-- UTF-16 code units of a list of characters. -/
def unitsOfChars : List Char → Str
  | [] => []
  | c :: cs => unitsOfChar c ++ unitsOfChars cs

/-- The host string denoted by a literal of this file. -/
def units (s : String) : Str := unitsOfChars s.toList

/-! ## Data model -/

/-- Source coordinates: `{file, line, column}`; the native origin `{file: 'native'}`
has neither line nor column, and the coordinates built by the tokenizer's error
branch have no file (`coords.file` is never assigned there). -/
structure Coords where
  file : Option Str
  line : Option Nat
  column : Option Nat
deriving DecidableEq, Repr

/-- The origin `{file: 'native'}` of host-synthesized tokens and nodes. -/
def Coords.native : Coords := ⟨some (units "native"), none, none⟩

/-- Token kinds: the seven pattern names of `patterns` and the synthetic `eof`. -/
inductive TokKind
  | whitespace | string | parenleft | parenright | number | atom | binding | eof
deriving DecidableEq, Repr

/-- The name of a token kind as the source spells it. -/
def TokKind.name : TokKind → Str
  | .whitespace => units "whitespace"
  | .string => units "string"
  | .parenleft => units "parenleft"
  | .parenright => units "parenright"
  | .number => units "number"
  | .atom => units "atom"
  | .binding => units "binding"
  | .eof => units "eof"

/-- A token `{type, text, coords}` as built by the `token` factory. -/
structure Token where
  type : TokKind
  text : Str
  coords : Coords
deriving DecidableEq, Repr

/-- The call `token('eof')`: empty text, native origin. -/
def Token.eof : Token := ⟨.eof, [], Coords.native⟩

/-- A call-stack frame `{coords, type, funname}`. -/
structure Frame where
  coords : Coords
  type : Str
  funname : Str
deriving DecidableEq, Repr

/-- The three error factories of the source, and `Host` for an exception raised
by the host itself (it lacks the `_jyftype` marker the CLI tests for). -/
inductive ErrorKind
  | Tokenize | Parse | Runtime | Host
deriving DecidableEq, Repr

/-- A thrown error: the factory name, the message handed to the factory, and
the `_jyfcoords` and `_jyfcallstack` fields (absent when `undefined`). -/
structure Error where
  kind : ErrorKind
  msg : Str
  coords : Option Coords
  callstack : Option (List Frame)
deriving DecidableEq, Repr

/-- The outcome of running a piece of the source: a returned value, a thrown
error, or an exhausted step budget. -/
inductive Result (α : Type)
  | ok (a : α)
  | error (e : Error)
  | fuel
deriving DecidableEq, Repr

/-- Sequencing of outcomes: a thrown error or an exhausted budget propagates. -/
def Result.bind {α β : Type} (r : Result α) (f : α → Result β) : Result β :=
  match r with
  | .ok a => f a
  | .error e => .error e
  | .fuel => .fuel

/-- The call `tokenize_error(msg, coords)`. -/
def tokenize_error (msg : Str) (coords : Coords) : Error :=
  ⟨.Tokenize, msg, some coords, none⟩

/-- The call `parse_error(msg, coords)`. -/
def parse_error (msg : Str) (coords : Coords) : Error :=
  ⟨.Parse, msg, some coords, none⟩

/-- The call `runtime_error(msg, coords, callstack)`; `coords` is absent when the
name handed in is a plain host string. -/
def runtime_error (msg : Str) (coords : Option Coords) (callstack : List Frame) : Error :=
  ⟨.Runtime, msg, coords, some callstack⟩

/-- A `SyntaxError` raised by the host's `eval`. -/
def host_syntax_error : Error :=
  ⟨.Host, units "SyntaxError", none, none⟩

/-! ## Character classes of the patterns -/

/-- Line terminators, the code units `.` does not match: LF, CR, LS, PS. -/
def isLineTerminator (c : Nat) : Bool :=
  c == 10 || c == 13 || c == 8232 || c == 8233

/-- The class `[\f\n\r\t\v ]`. -/
def isSpace (c : Nat) : Bool :=
  c == 12 || c == 10 || c == 13 || c == 9 || c == 11 || c == 32

/-- The class `[^()\f\n\r\t\v ]`. -/
def isWord (c : Nat) : Bool :=
  !(c == 40 || c == 41 || isSpace c)

/-- The class `\d`. -/
def isDigit (c : Nat) : Bool :=
  decide (48 ≤ c) && decide (c ≤ 57)

/-- Length of the longest prefix made of units of class `p`: what a greedy
`[...]*` consumes when nothing after it can fail. -/
def spanLen (p : Nat → Bool) : Str → Nat
  | [] => 0
  | c :: cs => if p c then spanLen p cs + 1 else 0

/-! ## The eight patterns

Each matcher returns the length of `res[0]` for `reg.exec(text)`, or `none`
when the pattern does not match at the start of `text`. -/

/-- Pattern `/^#.*(?=\n??)/`: a `#`, then every unit up to the next line
terminator; the lookahead holds a lazy optional newline and always succeeds. -/
def match_comment : Str → Option Nat
  | [] => none
  | c :: cs => if c = 35 then some (1 + spanLen (fun d => !isLineTerminator d) cs) else none

/-- Pattern `/^[\f\n\r\t\v ]+/`. -/
def match_space (text : Str) : Option Nat :=
  if spanLen isSpace text = 0 then none else some (spanLen isSpace text)

/-- The part `([^']|\\.)*?"` of the string pattern, by backtracking in the
host's order: first the closing quote, then one more item, `[^']` before `\\.`. -/
def string_body : Str → Option Nat
  | [] => none
  | [c] => if c = 34 then some 1 else none
  | c :: d :: rest =>
    if c = 34 then some 1
    else
      match (if c = 39 then none else string_body (d :: rest)) with
      | some n => some (n + 1)
      | none =>
        if c = 92 ∧ isLineTerminator d = false then
          match string_body rest with
          | some n => some (n + 2)
          | none => none
        else none

/-- Pattern `/^"([^']|\\.)*?"/`. -/
def match_string : Str → Option Nat
  | [] => none
  | c :: cs =>
    if c = 34 then
      match string_body cs with
      | some n => some (n + 1)
      | none => none
    else none

/-- Pattern `/^\(/`. -/
def match_parenleft : Str → Option Nat
  | [] => none
  | c :: _ => if c = 40 then some 1 else none

/-- Pattern `/^\)/`. -/
def match_parenright : Str → Option Nat
  | [] => none
  | c :: _ => if c = 41 then some 1 else none

/-- Length of the optional sign `[-+]?`. -/
def signLen : Str → Nat
  | [] => 0
  | c :: _ => if c = 45 ∨ c = 43 then 1 else 0

/-- Length of the optional group `(\.\d+)?`. -/
def fractionLen : Str → Nat
  | [] => 0
  | c :: cs => if c = 46 ∧ spanLen isDigit cs ≠ 0 then 1 + spanLen isDigit cs else 0

/-- Pattern `/^[-+]?\d+(\.\d+)?/`. Dropping a sign that was taken cannot help
(the digits would have to start at the sign), and the greedy digit runs are
followed by parts that can match nothing, so no backtracking changes the result. -/
def match_number (text : Str) : Option Nat :=
  let digits := spanLen isDigit (text.drop (signLen text))
  if digits = 0 then none
  else some (signLen text + digits + fractionLen (text.drop (signLen text + digits)))

/-- Pattern `/^'[^()\f\n\r\t\v ]+/`. -/
def match_atom : Str → Option Nat
  | [] => none
  | c :: cs => if c = 39 ∧ spanLen isWord cs ≠ 0 then some (1 + spanLen isWord cs) else none

/-- Pattern `/^[^()\f\n\r\t\v ]+/`. -/
def match_binding (text : Str) : Option Nat :=
  if spanLen isWord text = 0 then none else some (spanLen isWord text)

/-- The table `patterns`, in the source's order. -/
def patterns : List ((Str → Option Nat) × TokKind) :=
  [ (match_comment, .whitespace),
    (match_space, .whitespace),
    (match_string, .string),
    (match_parenleft, .parenleft),
    (match_parenright, .parenright),
    (match_number, .number),
    (match_atom, .atom),
    (match_binding, .binding) ]

/-- The first pattern of `ps` that matches `text`, with the length it matched:
what `patterns.some` finds. -/
def first_match (ps : List ((Str → Option Nat) × TokKind)) (text : Str) :
    Option (Nat × TokKind) :=
  match ps with
  | [] => none
  | p :: rest =>
    match p.1 text with
    | some n => some (n, p.2)
    | none => first_match rest text

/-! ## Host `JSON.stringify` on a string -/

/-- A lower-case hexadecimal digit. -/
def hex_digit (n : Nat) : Nat := if n < 10 then 48 + n else 87 + n

/-- The escape `\uXXXX` of a code unit. -/
def unicode_escape (c : Nat) : Str :=
  [92, 117, hex_digit (c / 4096 % 16), hex_digit (c / 256 % 16),
    hex_digit (c / 16 % 16), hex_digit (c % 16)]

/-- The quoted form of one code unit that is not part of a surrogate pair. -/
def json_unit (c : Nat) : Str :=
  if c = 34 then [92, 34]
  else if c = 92 then [92, 92]
  else if c = 8 then [92, 98]
  else if c = 12 then [92, 102]
  else if c = 10 then [92, 110]
  else if c = 13 then [92, 114]
  else if c = 9 then [92, 116]
  else if c < 32 then unicode_escape c
  else if 55296 ≤ c ∧ c ≤ 57343 then unicode_escape c
  else [c]

/-- The body of `JSON.stringify(text)`: a well-formed surrogate pair is kept,
every other unit goes through `json_unit`. -/
def json_body : Str → Str
  | [] => []
  | [c] => json_unit c
  | c :: d :: rest =>
    if 55296 ≤ c ∧ c ≤ 56319 ∧ 56320 ≤ d ∧ d ≤ 57343 then c :: d :: json_body rest
    else json_unit c ++ json_body (d :: rest)

/-- Host `JSON.stringify` applied to a string. -/
def json_stringify (text : Str) : Str := [34] ++ json_body text ++ [34]

/-! ## tokenize -/

/-- The coordinate update after a match: every newline of the matched text
increments the line and resets the column to 1, and the column then grows by
the length of what follows the last newline (`pending` counts those units). -/
def advance (line column pending : Nat) : Str → Nat × Nat
  | [] => (line, column + pending)
  | c :: cs => if c = 10 then advance (line + 1) 1 0 cs else advance line column (pending + 1) cs

/-- The loop `while (text.length > 0)` of `tokenize`. -/
def tokenize_loop (filename : Str) : Nat → Str → Nat → Nat → List Token → Result (List Token)
  | _, [], _, _, tokens => .ok tokens
  | 0, _ :: _, _, _, _ => .fuel
  | fuel + 1, c :: cs, line, column, tokens =>
    match first_match patterns (c :: cs) with
    | none =>
      .error (tokenize_error (units "Cannot match " ++ json_stringify (c :: cs))
        ⟨none, some line, some column⟩)
    | some (n, name) =>
      let matched_text := (c :: cs).take n
      let tok : Token := ⟨name, matched_text, ⟨some filename, some line, some column⟩⟩
      let next := advance line column 0 matched_text
      tokenize_loop filename fuel ((c :: cs).drop matched_text.length) next.1 next.2
        (tokens ++ [tok])

/-- The function `tokenize(text, filename)`. Every iteration removes at least one
unit of `text`, so `text.length` iterations are enough (`tokenize_loop_spec`). -/
def tokenize (text : Str) (filename : Str) : Result (List Token) :=
  tokenize_loop filename text.length text 1 1 []

/-! ## Host `eval` of a literal (strict-mode code)

`parse_value` decodes `string` and `number` tokens with a direct `eval` inside a
`'use strict'` file. The two functions below give the value of that call on a
text of the shape the tokenizer's patterns produce; on any other text they answer
with a `SyntaxError`, which the host need not do. -/

/-- A host number, as the exact decimal `mant / 10 ^ scale` the literal denotes,
with no trailing zero in the fraction. The host rounds that decimal to a double
and tells `-0` from `0`; neither is modelled. -/
structure Num where
  mant : Int
  scale : Nat
deriving DecidableEq, Repr

/-- Drop the trailing zeros of the fraction. -/
def Num.normalize : Int → Nat → Num
  | m, 0 => ⟨m, 0⟩
  | m, s + 1 => if m % 10 = 0 then Num.normalize (m / 10) s else ⟨m, s + 1⟩

/-- The host number of an integer. -/
def Num.ofInt (i : Int) : Num := ⟨i, 0⟩

/-- Value of a run of decimal digits. -/
def digits_value (ds : Str) : Nat :=
  ds.foldl (fun acc d => acc * 10 + (d - 48)) 0

/-- Host `eval` on the text of a `number` token, `[-+]?\d+(\.\d+)?`. An integer
part of two or more digits that starts with `0` is a legacy octal (or
octal-like decimal) literal, which strict-mode code rejects. -/
def eval_number (text : Str) : Result Num :=
  let body := text.drop (signLen text)
  let int := body.take (spanLen isDigit body)
  let rest := body.drop (spanLen isDigit body)
  let frac := rest.drop 1
  if int = [] then .error host_syntax_error
  else if ¬ (rest = [] ∨ (rest.head? = some 46 ∧ frac ≠ [] ∧ spanLen isDigit frac = frac.length)) then
    .error host_syntax_error
  else if int.head? = some 48 ∧ 2 ≤ int.length then .error host_syntax_error
  else
    let magnitude : Int := ((digits_value int * 10 ^ frac.length + digits_value frac : Nat) : Int)
    .ok (Num.normalize (if text.head? = some 45 then - magnitude else magnitude) frac.length)

/-- Value of a hexadecimal digit. -/
def hex_value (c : Nat) : Option Nat :=
  if 48 ≤ c ∧ c ≤ 57 then some (c - 48)
  else if 97 ≤ c ∧ c ≤ 102 then some (c - 87)
  else if 65 ≤ c ∧ c ≤ 70 then some (c - 55)
  else none

/-- Whether a code unit is a hexadecimal digit. -/
def isHex (c : Nat) : Bool := (hex_value c).isSome

/-- Value of a run of hexadecimal digits. -/
def hex_number (ds : Str) : Nat :=
  ds.foldl (fun acc d => acc * 16 + (hex_value d).getD 0) 0

/-- UTF-16 code units of a code point. -/
def utf16 (cp : Nat) : Str :=
  if cp < 65536 then [cp]
  else [55296 + (cp - 65536) / 1024, 56320 + (cp - 65536) % 1024]

/-- The value of a single-character escape `\b \f \n \r \t \v`, if `e` is one. -/
def single_escape (e : Nat) : Option Nat :=
  if e = 98 then some 8
  else if e = 102 then some 12
  else if e = 110 then some 10
  else if e = 114 then some 13
  else if e = 116 then some 9
  else if e = 118 then some 11
  else none

/-- The characters of a double-quoted string literal after its opening quote:
`value` is the string value built so far. A raw LF or CR, an unterminated
literal, a malformed `\x` or `\u` escape and, in strict-mode code, the escapes
`\1` to `\9` and `\0` before a digit are `SyntaxError`s; a backslash before a line
terminator is a line continuation; any other escaped unit stands for itself. -/
def string_chars : Nat → Str → Str → Result Str
  | 0, _, _ => .fuel
  | _ + 1, [], _ => .error host_syntax_error
  | fuel + 1, c :: cs, value =>
    if c = 34 then (if cs = [] then .ok value else .error host_syntax_error)
    else if c = 10 ∨ c = 13 then .error host_syntax_error
    else if c = 92 then
      match cs with
      | [] => .error host_syntax_error
      | e :: rest =>
        if e = 10 ∨ e = 8232 ∨ e = 8233 then string_chars fuel rest value
        else if e = 13 then
          match rest with
          | [] => string_chars fuel rest value
          | d :: rest2 =>
            if d = 10 then string_chars fuel rest2 value else string_chars fuel rest value
        else if e = 48 then
          match rest with
          | [] => string_chars fuel rest (value ++ [0])
          | d :: _ =>
            if isDigit d then .error host_syntax_error
            else string_chars fuel rest (value ++ [0])
        else if isDigit e then .error host_syntax_error
        else if e = 120 then
          match rest with
          | h1 :: h2 :: rest2 =>
            match hex_value h1, hex_value h2 with
            | some a, some b => string_chars fuel rest2 (value ++ [16 * a + b])
            | _, _ => .error host_syntax_error
          | _ => .error host_syntax_error
        else if e = 117 then
          match rest with
          | [] => .error host_syntax_error
          | h :: rest2 =>
            if h = 123 then
              match rest2.dropWhile isHex with
              | [] => .error host_syntax_error
              | close :: rest3 =>
                if close = 125 ∧ rest2.takeWhile isHex ≠ [] ∧
                    hex_number (rest2.takeWhile isHex) ≤ 1114111 then
                  string_chars fuel rest3 (value ++ utf16 (hex_number (rest2.takeWhile isHex)))
                else .error host_syntax_error
            else if (rest.take 4).length = 4 ∧ (rest.take 4).all isHex = true then
              string_chars fuel (rest.drop 4) (value ++ [hex_number (rest.take 4)])
            else .error host_syntax_error
        else
          match single_escape e with
          | some v => string_chars fuel rest (value ++ [v])
          | none => string_chars fuel rest (value ++ [e])
    else string_chars fuel cs (value ++ [c])

/-- Host `eval` on the text of a `string` token: the string value of the
double-quoted literal the text spells, or a `SyntaxError`. -/
def eval_string (text : Str) : Result Str :=
  match text with
  | [] => .error host_syntax_error
  | c :: cs => if c = 34 then string_chars (cs.length + 1) cs [] else .error host_syntax_error

/-! ## AST -/

/-- A node of the AST. String and number literals are plain host values and
carry no coordinates; a `funcall` holds its target (`fun` in the source), its
argument list (a `list` node) and its own coordinates. -/
inductive Node
  | str (value : Str)
  | num (value : Num)
  | atom (name : Str) (coords : Coords)
  | binding (name : Str) (coords : Coords)
  | list (elems : List Node) (coords : Coords)
  | funcall (fn : Node) (args : Node) (coords : Option Coords)
deriving Repr

/-- The field `_jyfcoords` of a node (`undefined` on a host primitive). -/
def Node.coords : Node → Option Coords
  | .str _ => none
  | .num _ => none
  | .atom _ c => some c
  | .binding _ c => some c
  | .list _ c => some c
  | .funcall _ _ c => c

/-! ## parse -/

/-- The parser's state: the lookahead `next` and the tokens not yet shifted. -/
structure PState where
  next : Token
  tokens : List Token
deriving DecidableEq, Repr

/-- The token `tokens.shift() || token('eof')` and the tokens left after it. -/
def next_token (tokens : List Token) : PState :=
  match tokens with
  | [] => ⟨Token.eof, []⟩
  | t :: ts => ⟨t, ts⟩

/-- The helper `shift`: returns the current lookahead and loads the next token. -/
def shift (st : PState) : Token × PState :=
  (st.next, next_token st.tokens)

/-- The helper `consume(type)`. After the first `shift` the lookahead is always
set, so `!has()` is false. -/
def consume (type : TokKind) (st : PState) : Result (Token × PState) :=
  if type ≠ .eof ∧ st.next.type = .eof then
    .error (parse_error (units "unexpected end of file") st.next.coords)
  else if st.next.type = type then .ok (shift st)
  else
    .error (parse_error
      (units "expected token <" ++ type.name ++ units ">, found <" ++ st.next.type.name ++
        units ">")
      st.next.coords)

/-- The function `parse_value`. -/
def parse_value (st : PState) : Result (Node × PState) :=
  match st.next.type with
  | .string =>
    (consume .string st).bind fun r =>
      (eval_string r.1.text).bind fun v => .ok (.str v, r.2)
  | .number =>
    (consume .number st).bind fun r =>
      (eval_number r.1.text).bind fun v => .ok (.num v, r.2)
  | .atom =>
    (consume .atom st).bind fun r => .ok (.atom (r.1.text.drop 1) r.1.coords, r.2)
  | _ =>
    .error (parse_error
      (units "expected <string | number | atom>, found <" ++ st.next.type.name ++ units ">")
      st.next.coords)

/-- The function `parse_binding`. -/
def parse_binding (st : PState) : Result (Node × PState) :=
  (consume .binding st).bind fun r => .ok (.binding r.1.text r.1.coords, r.2)

/-- The error of a missing separator, raised by `parse_list` and `parse_program`. -/
def expected_whitespace (st : PState) : Error :=
  parse_error (units "expected <whitespace>, found <" ++ st.next.type.name ++ units ">")
    st.next.coords

mutual

/-- The function `parse_expr`. -/
def parse_expr : Nat → PState → Result (Node × PState)
  | 0, _ => .fuel
  | fuel + 1, st =>
    match st.next.type with
    | .string => parse_value st
    | .number => parse_value st
    | .atom => parse_value st
    | .binding => parse_binding st
    | .parenleft => parse_list fuel st
    | _ =>
      .error (parse_error
        (units "expected <string | number | atom | binding | parenleft>, found <" ++
          st.next.type.name ++ units ">")
        st.next.coords)

/-- The function `parse_list`: consumes the opening parenthesis, then loops. -/
def parse_list : Nat → PState → Result (Node × PState)
  | 0, _ => .fuel
  | fuel + 1, st =>
    (consume .parenleft st).bind fun r => parse_list_loop fuel r.1.coords [] false r.2

/-- The loop `while (true)` of `parse_list`; `l` is the list built so far and
`coords` its `_jyfcoords`. -/
def parse_list_loop : Nat → Coords → List Node → Bool → PState → Result (Node × PState)
  | 0, _, _, _, _ => .fuel
  | fuel + 1, coords, l, needs_whitespace, st =>
    match st.next.type with
    | .parenright => (consume .parenright st).bind fun r => .ok (.list l coords, r.2)
    | .whitespace =>
      (consume .whitespace st).bind fun r => parse_list_loop fuel coords l false r.2
    | _ =>
      if needs_whitespace then .error (expected_whitespace st)
      else
        (parse_expr_or_funcall fuel st).bind fun r =>
          parse_list_loop fuel coords (l ++ [r.1]) true r.2

/-- The function `parse_expr_or_funcall`. -/
def parse_expr_or_funcall : Nat → PState → Result (Node × PState)
  | 0, _ => .fuel
  | fuel + 1, st =>
    (parse_expr fuel st).bind fun r =>
      if r.2.next.type ≠ .parenleft then .ok r else funcall_loop fuel r.1 r.2

/-- The loop `while (next.type === 'parenleft')` of `parse_expr_or_funcall`. -/
def funcall_loop : Nat → Node → PState → Result (Node × PState)
  | 0, _, _ => .fuel
  | fuel + 1, funcall, st =>
    if st.next.type = .parenleft then
      (parse_list fuel st).bind fun r => funcall_loop fuel (.funcall funcall r.1 r.1.coords) r.2
    else .ok (funcall, st)

end

/-- The node `funcall` that `parse_program` builds: a call of the binding `do`,
every coordinate being the one native origin. -/
def program_funcall (args : List Node) : Node :=
  .funcall (.binding (units "do") Coords.native) (.list args Coords.native) (some Coords.native)

/-- The loop `while (true)` of `parse_program`; `args` is `funcall.args` so far. -/
def parse_program_loop : Nat → List Node → Bool → PState → Result Node
  | 0, _, _, _ => .fuel
  | fuel + 1, args, needs_whitespace, st =>
    match st.next.type with
    | .eof => (consume .eof st).bind fun _ => .ok (program_funcall args)
    | .whitespace =>
      (consume .whitespace st).bind fun r => parse_program_loop fuel args false r.2
    | _ =>
      if needs_whitespace then .error (expected_whitespace st)
      else
        (parse_expr_or_funcall fuel st).bind fun r =>
          parse_program_loop fuel (args ++ [r.1]) true r.2

/-- The function `parse_program`. -/
def parse_program (fuel : Nat) (st : PState) : Result Node :=
  parse_program_loop fuel [] false st

/-- The function `parse(tokens)`: the first `shift()`, then `parse_program`. Every
fourth step at the latest consumes a token, hence the budget (`parse_ne_fuel`). -/
def parse (tokens : List Token) : Result Node :=
  parse_program (4 * tokens.length + 4) (next_token tokens)

/-- The composition `parse(tokenize(text, filename))` of the CLI. -/
def parse_source (text filename : Str) : Result Node :=
  (tokenize text filename).bind parse

/-! ## Contexts

Context objects are shared and mutated in place, so they live in a heap: a
context is named by its address, and its `parents` are addresses of contexts
built before it. -/

/-- A context object: its `dict` (`none` for a name that is not a key, `some none`
for the `null` that `declare` stores), its ordered `parents`, and whether it is the
object returned by `immutable_context`, whose `declare`, `undeclare` and `set` are
replaced. -/
structure Context (V : Type) where
  dict : Str → Option (Option V)
  parents : List Nat
  immutable : Bool

/-- The heap of context objects; an address is an index. -/
abbrev Heap (V : Type) := List (Context V)

/-- The argument `atom` of the context operations: an atom or binding node, or a
plain host string. Only `String(atom)` and `atom._jyfcoords` are read. -/
structure Key where
  text : Str
  coords : Option Coords
deriving DecidableEq, Repr

/-- A context with an empty `dict`. -/
def Context.fresh {V : Type} (parents : List Nat) (immutable : Bool) : Context V :=
  ⟨fun _ => none, parents, immutable⟩

/-- The object at an address. A reference of the program always names an object
of the heap; an address outside the heap reads as an empty context. -/
def Heap.at {V : Type} (h : Heap V) (c : Nat) : Context V :=
  h.getD c (Context.fresh [] false)

/-- The call `context(parents)`: the new heap and the address of the new object. -/
def context {V : Type} (h : Heap V) (parents : List Nat) : Heap V × Nat :=
  (h ++ [Context.fresh parents false], h.length)

/-- The call `immutable_context(parents)`. -/
def immutable_context {V : Type} (h : Heap V) (parents : List Nat) : Heap V × Nat :=
  (h ++ [Context.fresh parents true], h.length)

/-- The assignment `dict[String(atom)] = value` (or `delete`, for `none`) in the
object at `c`. -/
def Heap.write {V : Type} (h : Heap V) (c : Nat) (name : Str) (value : Option (Option V)) :
    Heap V :=
  List.set h c { h.at c with dict := fun k => if k = name then value else (h.at c).dict k }

/-- The method `has`. -/
def has {V : Type} (h : Heap V) (c : Nat) (name : Str) : Bool :=
  ((h.at c).dict name).isSome

/-- The call `parents.some(test)`: the tests run in order up to the first success. -/
def some_parent (test : Nat → Result Bool) : List Nat → Result Bool
  | [] => .ok false
  | p :: ps => (test p).bind fun b => if b then .ok true else some_parent test ps

/-- The method `contains`. -/
def contains {V : Type} : Nat → Heap V → Nat → Str → Result Bool
  | 0, _, _, _ => .fuel
  | fuel + 1, h, c, name =>
    if has h c name then .ok true
    else some_parent (fun p => contains fuel h p name) (h.at c).parents

/-- The variable `containing` after the `parents.some` of `find`: the first parent
whose test succeeds, if any. -/
def first_parent (test : Nat → Result Bool) : List Nat → Result (Option Nat)
  | [] => .ok none
  | p :: ps => (test p).bind fun b => if b then .ok (some p) else first_parent test ps

/-- The helper `find`. -/
def find {V : Type} (fuel : Nat) (h : Heap V) (c : Nat) (callstack : List Frame) (atom : Key) :
    Result Nat :=
  (first_parent (fun p => contains fuel h p atom.text) (h.at c).parents).bind fun r =>
    match r with
    | some p => .ok p
    | none => .error (runtime_error (atom.text ++ units " is not declared") atom.coords callstack)

/-- The method `get`; the result is the content of the `dict` entry. -/
def get {V : Type} : Nat → Heap V → Nat → List Frame → Key → Result (Option V)
  | 0, _, _, _, _ => .fuel
  | fuel + 1, h, c, callstack, atom =>
    match (h.at c).dict atom.text with
    | some v => .ok v
    | none => (find fuel h c callstack atom).bind fun p => get fuel h p callstack atom

/-- The method `declare`, with the heap it leaves. -/
def declare {V : Type} (h : Heap V) (c : Nat) (callstack : List Frame) (atom : Key) :
    Heap V × Result Unit :=
  if (h.at c).immutable then
    (h, .error (runtime_error (units "cannot declare binding in an immutable context")
      atom.coords callstack))
  else if has h c atom.text then
    (h, .error (runtime_error (atom.text ++ units " is already declared") atom.coords callstack))
  else (h.write c atom.text (some none), .ok ())

/-- The method `undeclare`, with the heap it leaves. -/
def undeclare {V : Type} : Nat → Heap V → Nat → List Frame → Key → Heap V × Result Unit
  | 0, h, _, _, _ => (h, .fuel)
  | fuel + 1, h, c, callstack, atom =>
    if (h.at c).immutable then
      (h, .error (runtime_error (units "cannot undeclare binding in an immutable context")
        atom.coords callstack))
    else if has h c atom.text then (h.write c atom.text none, .ok ())
    else
      match find fuel h c callstack atom with
      | .ok p => undeclare fuel h p callstack atom
      | .error e => (h, .error e)
      | .fuel => (h, .fuel)

/-- The method `set`, with the heap it leaves. -/
def set {V : Type} : Nat → Heap V → Nat → List Frame → Key → V → Heap V × Result Unit
  | 0, h, _, _, _, _ => (h, .fuel)
  | fuel + 1, h, c, callstack, atom, value =>
    if (h.at c).immutable then
      (h, .error (runtime_error (units "cannot set binding in an immutable context")
        atom.coords callstack))
    else if has h c atom.text then (h.write c atom.text (some (some value)), .ok ())
    else
      match find fuel h c callstack atom with
      | .ok p => set fuel h p callstack atom value
      | .error e => (h, .error e)
      | .fuel => (h, .fuel)

/-- Parents are older than their children: what building contexts with
`context(parents)` and `immutable_context(parents)` guarantees, and what makes the
parent graph finite and acyclic. -/
def Heap.wellFormed {V : Type} (h : Heap V) : Bool :=
  (List.range h.length).all fun c => (h.at c).parents.all fun p => decide (p < c)

/-- The contexts met by a depth-first walk from `c` through the ordered parent
lists, in pre-order (a context reachable along several paths is listed once per
path). -/
def preorder {V : Type} : Nat → Heap V → Nat → List Nat
  | 0, _, _ => []
  | fuel + 1, h, c => c :: (h.at c).parents.flatMap fun p => preorder fuel h p

/-- The call `c.contains(atom)`. A delegation goes to an older context, so a
budget of `c + 1` steps is enough at address `c`; the same holds for the other
calls below. -/
def ctx_contains {V : Type} (h : Heap V) (c : Nat) (name : Str) : Result Bool :=
  contains (c + 1) h c name

/-- The call `c.get(callstack, atom)`. -/
def ctx_get {V : Type} (h : Heap V) (c : Nat) (callstack : List Frame) (atom : Key) :
    Result (Option V) :=
  get (c + 1) h c callstack atom

/-- The call `c.undeclare(callstack, atom)`. -/
def ctx_undeclare {V : Type} (h : Heap V) (c : Nat) (callstack : List Frame) (atom : Key) :
    Heap V × Result Unit :=
  undeclare (c + 1) h c callstack atom

/-- The call `c.set(callstack, atom, value)`. -/
def ctx_set {V : Type} (h : Heap V) (c : Nat) (callstack : List Frame) (atom : Key)
    (value : V) : Heap V × Result Unit :=
  set (c + 1) h c callstack atom value

/-- The contexts reachable from `c`, in depth-first pre-order. -/
def ctx_preorder {V : Type} (h : Heap V) (c : Nat) : List Nat :=
  preorder (c + 1) h c

/-! ## Values

In the source the nodes of the AST are ordinary host values, and the evaluator
is applied to both; `Value` is the one universe that holds them. Callables are
named by an index into a `World`, which gives what each of them does. -/

/-- A host value: `undefined`, `null`, a boolean, a number, a string, a value
tagged with one of the `_jyftype` sentinels `atom`, `binding`, `list`, `funcall`,
`macro` (here `mac`), `fun` (here `fn`), or a host function without a tag (`native`). -/
inductive Value
  | undefined
  | null
  | bool (b : Bool)
  | num (n : Num)
  | str (s : Str)
  | atom (name : Str) (coords : Coords)
  | binding (name : Str) (coords : Coords)
  | list (elems : List Value) (coords : Coords)
  | funcall (fn : Value) (args : Value) (coords : Option Coords)
  | mac (id : Nat)
  | fn (id : Nat)
  | native (id : Nat)
deriving Repr

mutual

/-- A node of the AST as the host value it is. -/
def Node.toValue : Node → Value
  | .str s => .str s
  | .num n => .num n
  | .atom name coords => .atom name coords
  | .binding name coords => .binding name coords
  | .list elems coords => .list (Node.toValues elems) coords
  | .funcall fn args coords => .funcall fn.toValue args.toValue coords

/-- The nodes of a list as host values. -/
def Node.toValues : List Node → List Value
  | [] => []
  | n :: ns => n.toValue :: Node.toValues ns

end

/-- The sentinels of the table `type`. -/
inductive TypeTag
  | error | atom | binding | list | funcall | fn | mac
deriving DecidableEq, Repr

/-- The field `_jyftype` of a value that can have fields. -/
def Value.jyftype : Value → Option TypeTag
  | .atom _ _ => some .atom
  | .binding _ _ => some .binding
  | .list _ _ => some .list
  | .funcall _ _ _ => some .funcall
  | .mac _ => some .mac
  | .fn _ => some .fn
  | _ => none

/-- The field `_jyfcoords` of a value that can have fields; the library gives its
macros the native origin. -/
def Value.coords : Value → Option Coords
  | .atom _ c => some c
  | .binding _ c => some c
  | .list _ c => some c
  | .funcall _ _ c => c
  | .mac _ => some Coords.native
  | .fn _ => some Coords.native
  | _ => none

/-- Host `typeof`. -/
def typeof : Value → Str
  | .undefined => units "undefined"
  | .null => units "object"
  | .bool _ => units "boolean"
  | .num _ => units "number"
  | .str _ => units "string"
  | .atom _ _ => units "object"
  | .binding _ _ => units "object"
  | .list _ _ => units "object"
  | .funcall _ _ _ => units "object"
  | .mac _ => units "function"
  | .fn _ => units "function"
  | .native _ => units "function"

/-- A `TypeError` raised by the host, as when a field of `null` or `undefined` is
read or a value that is not a function is called. -/
def host_type_error : Error :=
  ⟨.Host, units "TypeError", none, none⟩

/-- The call `typecheck(v, t)` with a sentinel `t`: reading `v._jyftype` throws on
`null` and `undefined`, and `typeof v` is never a sentinel. -/
def typecheck (v : Value) (t : TypeTag) : Result Bool :=
  match v with
  | .undefined => .error host_type_error
  | .null => .error host_type_error
  | _ => .ok (decide (v.jyftype = some t))

/-- The call `typecheck(v, t)` with a string `t`, as in `typecheck(fun, 'function')`:
a `_jyftype` is never a string. -/
def typecheck_typeof (v : Value) (t : Str) : Result Bool :=
  match v with
  | .undefined => .error host_type_error
  | .null => .error host_type_error
  | _ => .ok (decide (typeof v = t))

/-- The elements of an array value (none for a value that is not an array). -/
def Value.elems : Value → List Value
  | .list es _ => es
  | _ => []

/-- The element `v[i]` of an array value, `undefined` past its end. -/
def Value.index (v : Value) (i : Nat) : Value :=
  (v.elems.get? i).getD .undefined

/-- Whether the host takes a value for true in a condition. -/
def truthy : Value → Bool
  | .undefined => false
  | .null => false
  | .bool b => b
  | .num n => decide (n.mant ≠ 0)
  | .str s => decide (s ≠ [])
  | _ => true

/-! ## Pretty printing -/

/-- Decimal digits of a natural number, as code units. -/
def nat_digits (n : Nat) : Str :=
  (Nat.toDigits 10 n).map Char.toNat

/-- The digits of `m` without its trailing zeros, and how many were dropped;
`budget` bounds the number of zeros looked at. -/
def strip_zeros : Nat → Nat → Nat → Nat × Nat
  | 0, m, z => (m, z)
  | budget + 1, m, z =>
    if m ≠ 0 ∧ m % 10 = 0 then strip_zeros budget (m / 10) (z + 1) else (m, z)

/-- The exponent part `e+N` or `e-N` of a number in exponent form. -/
def exponent_text (e : Int) : Str :=
  if e < 0 then units "e-" ++ nat_digits e.natAbs else units "e+" ++ nat_digits e.natAbs

/-- Host conversion of a positive number to a string, from its digits `s` (no
trailing zero) and the position `n` of the decimal point. -/
def positive_to_string (s : Str) (n : Int) : Str :=
  let k : Int := s.length
  if k ≤ n ∧ n ≤ 21 then s ++ List.replicate (n - k).toNat 48
  else if 0 < n ∧ n ≤ 21 then s.take n.toNat ++ [46] ++ s.drop n.toNat
  else if -6 < n ∧ n ≤ 0 then [48, 46] ++ List.replicate (-n).toNat 48 ++ s
  else if s.length = 1 then s ++ exponent_text (n - 1)
  else s.take 1 ++ [46] ++ s.drop 1 ++ exponent_text (n - 1)

/-- Host conversion of a number to a string (`JSON.stringify` of a number). -/
def number_to_string (x : Num) : Str :=
  if x.mant = 0 then [48]
  else
    let digits := strip_zeros x.mant.natAbs x.mant.natAbs 0
    let s := nat_digits digits.1
    let n : Int := (s.length : Int) + digits.2 - x.scale
    (if x.mant < 0 then [45] else []) ++ positive_to_string s n

mutual

/-- The function `pretty_elem`; reading `e._jyftype` throws on `null` and
`undefined`. -/
def pretty_elem : Value → Result Str
  | .undefined => .error host_type_error
  | .null => .error host_type_error
  | .atom name _ => .ok ([39] ++ name)
  | .binding name _ => .ok name
  | .list es _ => pretty_items es true
  | .funcall fn args _ =>
    match pretty_elem fn with
    | .ok f =>
      match pretty_list args with
      | .ok a => .ok (f ++ a)
      | .error e => .error e
      | .fuel => .fuel
    | .error e => .error e
    | .fuel => .fuel
  | .fn _ => .ok (units "<fun>")
  | .mac _ => .ok (units "<macro>")
  | .native _ => .ok (units "<js-function>")
  | .bool b => .ok (if b then units "true" else units "false")
  | .num n => .ok (number_to_string n)
  | .str s => .ok (json_stringify s)

/-- The function `pretty_list`; `l.map` throws on a value that is no array. -/
def pretty_list : Value → Result Str
  | .list es _ => pretty_items es true
  | _ => .error host_type_error

/-- The text of `pretty_list` from the elements on: `first` tells whether the
opening parenthesis is still to be written. -/
def pretty_items : List Value → Bool → Result Str
  | [], first => .ok ((if first then [40] else []) ++ [41])
  | e :: es, first =>
    match pretty_elem e with
    | .ok t =>
      match pretty_items es false with
      | .ok rest => .ok ((if first then [40] else [32]) ++ t ++ rest)
      | .error err => .error err
      | .fuel => .fuel
    | .error err => .error err
    | .fuel => .fuel

end

/-! ## The evaluator -/

/-- What a run acts on: the heap of contexts, the `callstack` array that every
function of the evaluator is handed, and the lines written with `console.log`. -/
structure State where
  heap : Heap Value
  callstack : List Frame
  console : List (List Value)

/-- The outcome of a stateful piece of the source: the state it leaves, and its
result. -/
abbrev Run (α : Type) := State × Result α

/-- Sequencing of stateful outcomes: a thrown error or an exhausted budget
propagates with the state reached. -/
def Run.bind {α β : Type} (r : Run α) (f : State → α → Run β) : Run β :=
  match r with
  | (st, .ok a) => f st a
  | (st, .error e) => (st, .error e)
  | (st, .fuel) => (st, .fuel)

/-- An evaluator of expressions: `(callstack, ctx, expr)` in a state. -/
abbrev Eval := State → Nat → Value → Run Value

/-- What the callables do. A macro is called with `(callstack, ctx, args)`, a
function with `(callstack, ...values)`, a native host function with `(...values)`;
macros and functions reach the evaluator through `jyf.evaluate`, here the `Eval`
they are given, and run their own loops on the budget they are given. -/
structure World where
  mac : Nat → Nat → Eval → State → Nat → Value → Run Value
  fn : Nat → Nat → Eval → State → List Value → Run Value
  native : Nat → State → List Value → Run Value

/-- The loop of `list.map` in `eval_list`: the elements are evaluated in order
against the context `local`. -/
def eval_elems (ev : Eval) (local_ctx : Nat) : State → List Value → Run (List Value)
  | st, [] => (st, .ok [])
  | st, e :: es =>
    Run.bind (ev st local_ctx e) fun st1 v =>
      Run.bind (eval_elems ev local_ctx st1 es) fun st2 vs => (st2, .ok (v :: vs))

/-- The function `eval_list`, given the evaluator of the elements. The child
context is built first; `list.map` then throws on a value that is no array. -/
def eval_list_with (ev : Eval) (st : State) (ctx : Nat) (list : Value) : Run Value :=
  match list with
  | .list es coords =>
    Run.bind (eval_elems ev (context st.heap [ctx]).2
        { st with heap := (context st.heap [ctx]).1 } es)
      fun st1 vs => (st1, .ok (.list vs coords))
  | _ => ({ st with heap := (context st.heap [ctx]).1 }, .error host_type_error)

/-- The field `type` of a frame, `fun._jyftype || ('js-' + typeof fun)`; a sentinel
is written as its name. Reading the field throws on `null` and `undefined`. -/
def frame_type (f : Value) : Result Str :=
  match f with
  | .undefined => .error host_type_error
  | .null => .error host_type_error
  | .atom _ _ => .ok (units "atom")
  | .binding _ _ => .ok (units "binding")
  | .list _ _ => .ok (units "list")
  | .funcall _ _ _ => .ok (units "funcall")
  | .mac _ => .ok (units "macro")
  | .fn _ => .ok (units "fun")
  | v => .ok (units "js-" ++ typeof v)

/-- The frame `eval_funcall` pushes for a call. -/
def call_frame (coords : Option Coords) (type funname : Str) : Frame :=
  ⟨coords.getD Coords.native, type, funname⟩

/-- The part of `eval_funcall` between `callstack.push` and `callstack.pop`: the
dispatch on the callable. -/
def dispatch (w : World) (budget : Nat) (ev : Eval) (st : State) (ctx : Nat) (f args : Value)
    (coords : Option Coords) : Run Value :=
  match f with
  | .mac id => w.mac id budget ev st ctx args
  | .fn id =>
    Run.bind (eval_list_with ev st ctx args) fun st1 vs => w.fn id budget ev st1 vs.elems
  | .native id =>
    Run.bind (eval_list_with ev st ctx args) fun st1 vs => w.native id st1 vs.elems
  | _ => (st, .error (runtime_error (units "cannot call non-function") coords st.callstack))

/-- The function `eval_funcall`, given the evaluator of the sub-expressions: the
target is evaluated, the frame is built and pushed, the callable is called, and
after it returned the last frame is popped. -/
def eval_funcall_with (w : World) (budget : Nat) (ev : Eval) (st : State) (ctx : Nat)
    (fn args : Value) (coords : Option Coords) : Run Value :=
  Run.bind (ev st ctx fn) fun st1 f =>
    match frame_type f with
    | .error e => (st1, .error e)
    | .fuel => (st1, .fuel)
    | .ok type =>
      match pretty_elem fn with
      | .error e => (st1, .error e)
      | .fuel => (st1, .fuel)
      | .ok funname =>
        Run.bind
          (dispatch w budget ev
            { st1 with callstack := st1.callstack ++ [call_frame coords type funname] }
            ctx f args coords)
          fun st2 ret => ({ st2 with callstack := st2.callstack.dropLast }, .ok ret)

/-- The function `eval_binding`: `ctx.get(callstack, binding)`; an entry without
value reads as `null`. -/
def eval_binding (st : State) (ctx : Nat) (name : Str) (coords : Coords) : Run Value :=
  match ctx_get st.heap ctx st.callstack ⟨name, some coords⟩ with
  | .ok v => (st, .ok (v.getD .null))
  | .error e => (st, .error e)
  | .fuel => (st, .fuel)

/-- The function `eval_expr`. Its first `typecheck` reads `expr._jyftype`, which
throws on `null` and `undefined`. -/
def eval_expr (w : World) : Nat → Eval
  | 0 => fun st _ _ => (st, .fuel)
  | fuel + 1 => fun st ctx expr =>
    match expr with
    | .undefined => (st, .error host_type_error)
    | .null => (st, .error host_type_error)
    | .list es coords => eval_list_with (eval_expr w fuel) st ctx (.list es coords)
    | .funcall fn args coords =>
      eval_funcall_with w fuel (eval_expr w fuel) st ctx fn args coords
    | .binding name coords => eval_binding st ctx name coords
    | v => (st, .ok v)

/-- The function `eval_list`. -/
def eval_list (w : World) (fuel : Nat) (st : State) (ctx : Nat) (list : Value) : Run Value :=
  eval_list_with (eval_expr w fuel) st ctx list

/-- The function `eval_funcall`. -/
def eval_funcall (w : World) (fuel : Nat) (st : State) (ctx : Nat) (fn args : Value)
    (coords : Option Coords) : Run Value :=
  eval_funcall_with w fuel (eval_expr w fuel) st ctx fn args coords

/-- The function `run(ctx, program)`: the program is evaluated with an empty call
stack against an immutable context whose parent is `ctx`. -/
def run (w : World) (fuel : Nat) (heap : Heap Value) (ctx : Nat) (program : Value) : Run Value :=
  eval_expr w fuel ⟨(immutable_context heap [ctx]).1, [], []⟩ (immutable_context heap [ctx]).2
    program

/-! ## The library `libjyf.js`

The entries embedded are the constants `true` and `false`, the native functions
`do` and `print` and the macros `if`, `while`, `for`, `dec`, `def` and `inc`. The
arithmetic, comparison and indexing functions and the constructors `function` and
`variadic` are not embedded; a program that names them finds them undeclared in
`lib_heap`. -/

/-- The calls `ctx.declare(callstack, atom)`, `ctx.set(callstack, atom, value)` and
`ctx.get(callstack, atom)` on the state of a run. -/
def state_declare (st : State) (ctx : Nat) (atom : Key) : Run Unit :=
  ({ st with heap := (declare st.heap ctx st.callstack atom).1 },
    (declare st.heap ctx st.callstack atom).2)

/-- The call `ctx.set(callstack, atom, value)` on the state of a run. -/
def state_set (st : State) (ctx : Nat) (atom : Key) (value : Value) : Run Unit :=
  ({ st with heap := (ctx_set st.heap ctx st.callstack atom value).1 },
    (ctx_set st.heap ctx st.callstack atom value).2)

/-- The call `ctx.get(callstack, atom)` on the state of a run. -/
def state_get (st : State) (ctx : Nat) (atom : Key) : Run Value :=
  match ctx_get st.heap ctx st.callstack atom with
  | .ok v => (st, .ok (v.getD .null))
  | .error e => (st, .error e)
  | .fuel => (st, .fuel)

/-- The name and coordinates the context operations read from an atom. -/
def Value.key : Value → Key
  | .atom name coords => ⟨name, some coords⟩
  | .binding name coords => ⟨name, some coords⟩
  | _ => ⟨[], none⟩

/-- The coordinates `callstack[callstack.length - 1].coords`; reading them throws
on an empty call stack. -/
def last_coords (st : State) : Result Coords :=
  match st.callstack.getLast? with
  | some f => .ok f.coords
  | none => .error host_type_error

/-- The call `args.every((a) => typecheck(a, t))`: it stops at the first element
that fails the check. -/
def every_typecheck (t : TypeTag) : List Value → Result Bool
  | [] => .ok true
  | a :: rest =>
    match typecheck a t with
    | .ok true => every_typecheck t rest
    | .ok false => .ok false
    | .error e => .error e
    | .fuel => .fuel

/-- The call `args.forEach(f)`. -/
def for_each (f : State → Value → Run Unit) : State → List Value → Run Unit
  | st, [] => (st, .ok ())
  | st, a :: rest => Run.bind (f st a) fun st1 _ => for_each f st1 rest

/-- The error `msg` raised by a library macro at the coordinates of the last
frame. -/
def raise_at_last_frame (st : State) (msg : Str) : Run Unit :=
  match last_coords st with
  | .ok c => (st, .error (runtime_error msg (some c) st.callstack))
  | .error e => (st, .error e)
  | .fuel => (st, .fuel)

/-- What `dec` does with one entry `a` (an evaluated list, or the evaluated
argument list itself): `a[0]` must be an atom; it is declared, and set to `a[1]`
when `a` has a second element. -/
def dec_entry (ctx : Nat) (st : State) (a : Value) : Run Unit :=
  match typecheck (a.index 0) .atom with
  | .error e => (st, .error e)
  | .fuel => (st, .fuel)
  | .ok false => raise_at_last_frame st (units "cannot declare non-atom")
  | .ok true =>
    Run.bind (state_declare st ctx (a.index 0).key) fun st1 _ =>
      if 1 < a.elems.length then state_set st1 ctx (a.index 0).key (a.index 1)
      else (st1, .ok ())

/-- The macro `dec`. -/
def lib_dec (ev : Eval) (st : State) (ctx : Nat) (args : Value) : Run Value :=
  Run.bind (eval_list_with ev st ctx args) fun st1 vs =>
    match every_typecheck .list vs.elems with
    | .error e => (st1, .error e)
    | .fuel => (st1, .fuel)
    | .ok true =>
      Run.bind (for_each (dec_entry ctx) st1 vs.elems) fun st2 _ => (st2, .ok .undefined)
    | .ok false => Run.bind (dec_entry ctx st1 vs) fun st2 _ => (st2, .ok .undefined)

/-- What `def` does with one entry `a`: `a[0]` must be an atom; it is set to `a[1]`. -/
def def_entry (ctx : Nat) (st : State) (a : Value) : Run Unit :=
  match typecheck (a.index 0) .atom with
  | .error e => (st, .error e)
  | .fuel => (st, .fuel)
  | .ok false => raise_at_last_frame st (units "cannot define non-atom")
  | .ok true => state_set st ctx (a.index 0).key (a.index 1)

/-- The macro `def`. -/
def lib_def (ev : Eval) (st : State) (ctx : Nat) (args : Value) : Run Value :=
  Run.bind (eval_list_with ev st ctx args) fun st1 vs =>
    match every_typecheck .list vs.elems with
    | .error e => (st1, .error e)
    | .fuel => (st1, .fuel)
    | .ok true =>
      Run.bind (for_each (def_entry ctx) st1 vs.elems) fun st2 _ => (st2, .ok .undefined)
    | .ok false => Run.bind (def_entry ctx st1 vs) fun st2 _ => (st2, .ok .undefined)

/-- Host `v + 1`. A number grows by one (as an exact decimal), `null` and the
booleans count as 0 and 1, a string and a String object get the character `1`
appended; what the host does on the other operands, which involves its
conversion of objects to strings, is the parameter `host`. -/
def add_one (host : Value → Value) : Value → Value
  | .num n => .num (Num.normalize (n.mant + 10 ^ n.scale) n.scale)
  | .null => .num (Num.ofInt 1)
  | .bool b => .num (Num.ofInt (if b then 2 else 1))
  | .str s => .str (s ++ [49])
  | .atom name _ => .str (name ++ [49])
  | .binding name _ => .str (name ++ [49])
  | v => host v

/-- What `inc` does with one atom: `ctx.set(callstack, a, ctx.get(callstack, a) + 1)`. -/
def inc_entry (host : Value → Value) (ctx : Nat) (st : State) (a : Value) : Run Unit :=
  Run.bind (state_get st ctx a.key) fun st1 v => state_set st1 ctx a.key (add_one host v)

/-- The macro `inc`. -/
def lib_inc (host : Value → Value) (ev : Eval) (st : State) (ctx : Nat) (args : Value) :
    Run Value :=
  Run.bind (eval_list_with ev st ctx args) fun st1 vs =>
    match every_typecheck .atom vs.elems with
    | .error e => (st1, .error e)
    | .fuel => (st1, .fuel)
    | .ok false =>
      Run.bind (raise_at_last_frame st1 (units "cannot define non-atom")) fun st2 _ =>
        (st2, .ok .undefined)
    | .ok true =>
      Run.bind (for_each (inc_entry host ctx) st1 vs.elems) fun st2 _ => (st2, .ok .undefined)

/-- The macro `if`. -/
def lib_if (ev : Eval) (st : State) (ctx : Nat) (args : Value) : Run Value :=
  Run.bind (ev st ctx (args.index 0)) fun st1 cond =>
    if truthy cond then ev st1 ctx (args.index 1)
    else if 2 < args.elems.length then ev st1 ctx (args.index 2)
    else (st1, .ok .undefined)

/-- The loop `while (cond) { ret = ...(args[1]) }` of the macro `while`, entered
with a true `cond`: the condition is a local that the loop never assigns. -/
def while_loop (ev : Eval) (ctx : Nat) (body : Value) : Nat → State → Run Value
  | 0, st => (st, .fuel)
  | budget + 1, st => Run.bind (ev st ctx body) fun st1 _ => while_loop ev ctx body budget st1

/-- The macro `while`. -/
def lib_while (budget : Nat) (ev : Eval) (st : State) (ctx : Nat) (args : Value) : Run Value :=
  Run.bind (ev st ctx (args.index 0)) fun st1 cond =>
    if truthy cond then while_loop ev ctx (args.index 1) budget st1
    else (st1, .ok .undefined)

/-- The loop of the macro `for`; `ret` is the value of the last body evaluation. -/
def for_loop (ev : Eval) (forctx : Nat) (cond body step : Value) : Nat → State → Value → Run Value
  | 0, st, _ => (st, .fuel)
  | budget + 1, st, ret =>
    Run.bind (ev st forctx cond) fun st1 c =>
      if truthy c then
        Run.bind (ev st1 forctx body) fun st2 r =>
          Run.bind (ev st2 forctx step) fun st3 _ => for_loop ev forctx cond body step budget st3 r
      else (st1, .ok ret)

/-- The macro `for`. -/
def lib_for (budget : Nat) (ev : Eval) (st : State) (ctx : Nat) (args : Value) : Run Value :=
  match typecheck (args.index 0) .list with
  | .error e => (st, .error e)
  | .fuel => (st, .fuel)
  | .ok false =>
    (st, .error (runtime_error (units "missing iteration list") (args.index 0).coords
      st.callstack))
  | .ok true =>
    Run.bind
      (ev { st with heap := (context st.heap [ctx]).1 } (context st.heap [ctx]).2
        ((args.index 0).index 0))
      fun st1 _ =>
        for_loop ev (context st.heap [ctx]).2 ((args.index 0).index 1) (args.index 1)
          ((args.index 0).index 2) budget st1 .undefined

/-- The native function `do`: its last argument, or `undefined`. -/
def lib_do (st : State) (args : List Value) : Run Value :=
  (st, .ok (args.getLast?.getD .undefined))

/-- The native function `print`: `console.log(...args)`. -/
def lib_print (st : State) (args : List Value) : Run Value :=
  ({ st with console := st.console ++ [args] }, .ok .undefined)

/-- The callables of the library: the macros `if`, `while`, `for`, `dec`, `def`, `inc`
are numbered 0 to 5 and the native functions `do`, `print` 0 and 1. The library
holds no other callable; an index that names none does nothing. -/
def libjyf (host : Value → Value) : World where
  mac := fun id budget ev st ctx args =>
    match id with
    | 0 => lib_if ev st ctx args
    | 1 => lib_while budget ev st ctx args
    | 2 => lib_for budget ev st ctx args
    | 3 => lib_dec ev st ctx args
    | 4 => lib_def ev st ctx args
    | 5 => lib_inc host ev st ctx args
    | _ => (st, .ok .undefined)
  fn := fun _ _ _ st _ => (st, .ok .undefined)
  native := fun id st args =>
    match id with
    | 0 => lib_do st args
    | 1 => lib_print st args
    | _ => (st, .ok .undefined)

/-- The `dict` of the library context after the module was loaded. -/
def lib_dict (name : Str) : Option (Option Value) :=
  if name = units "true" then some (some (.bool true))
  else if name = units "false" then some (some (.bool false))
  else if name = units "do" then some (some (.native 0))
  else if name = units "print" then some (some (.native 1))
  else if name = units "if" then some (some (.mac 0))
  else if name = units "while" then some (some (.mac 1))
  else if name = units "for" then some (some (.mac 2))
  else if name = units "dec" then some (some (.mac 3))
  else if name = units "def" then some (some (.mac 4))
  else if name = units "inc" then some (some (.mac 5))
  else none

/-- The heap that holds the library context `lib`, at address 0. -/
def lib_heap : Heap Value := [⟨lib_dict, [], false⟩]

/-! ## The command line -/

/-- The call `jyf.interpreter.run(libjyf, parse(tokenize(text, filename)))` of
`cli.js`. -/
def run_source (host : Value → Value) (fuel : Nat) (text filename : Str) : Run Value :=
  match parse_source text filename with
  | .ok ast => run (libjyf host) fuel lib_heap 0 ast.toValue
  | .error e => (⟨lib_heap, [], []⟩, .error e)
  | .fuel => (⟨lib_heap, [], []⟩, .fuel)

/-- The text `file[:line:column]` the command line prints for coordinates. -/
def coords_text (c : Coords) : Str :=
  c.file.getD (units "undefined") ++
    match c.line with
    | some l => units ":" ++ nat_digits l ++ units ":" ++
        (match c.column with
          | some k => nat_digits k
          | none => units "undefined")
    | none => []

/-- The stack lines the command line prints for an error:
`e._jyfcallstack.reverse().forEach(...)`, one line per frame. -/
def cli_stack_lines (e : Error) : List Str :=
  match e.callstack with
  | some frames =>
    frames.reverse.map fun c => units "  " ++ c.funname ++ units "() at " ++ coords_text c.coords
  | none => []
mutual

/-- Equality of two host values is decidable: the constructors are compared, then
their fields, one after the other. -/
def Value.decEq : (a b : Value) → Decidable (a = b)
  | .undefined, b =>
    match b with
    | .undefined => isTrue rfl
    | .null | .bool _ | .num _ | .str _ | .atom _ _ | .binding _ _
    | .list _ _ | .funcall _ _ _ | .mac _ | .fn _ | .native _ => isFalse nofun
  | .null, b =>
    match b with
    | .null => isTrue rfl
    | .undefined | .bool _ | .num _ | .str _ | .atom _ _ | .binding _ _
    | .list _ _ | .funcall _ _ _ | .mac _ | .fn _ | .native _ => isFalse nofun
  | .bool x1, b =>
    match b with
    | .bool y1 =>
      if h1 : x1 = y1 then isTrue (by rw [h1])
      else isFalse fun e => h1 (Value.bool.inj e)
    | .undefined | .null | .num _ | .str _ | .atom _ _ | .binding _ _
    | .list _ _ | .funcall _ _ _ | .mac _ | .fn _ | .native _ => isFalse nofun
  | .num x1, b =>
    match b with
    | .num y1 =>
      if h1 : x1 = y1 then isTrue (by rw [h1])
      else isFalse fun e => h1 (Value.num.inj e)
    | .undefined | .null | .bool _ | .str _ | .atom _ _ | .binding _ _
    | .list _ _ | .funcall _ _ _ | .mac _ | .fn _ | .native _ => isFalse nofun
  | .str x1, b =>
    match b with
    | .str y1 =>
      if h1 : x1 = y1 then isTrue (by rw [h1])
      else isFalse fun e => h1 (Value.str.inj e)
    | .undefined | .null | .bool _ | .num _ | .atom _ _ | .binding _ _
    | .list _ _ | .funcall _ _ _ | .mac _ | .fn _ | .native _ => isFalse nofun
  | .atom x1 x2, b =>
    match b with
    | .atom y1 y2 =>
      if h1 : x1 = y1 then
        if h2 : x2 = y2 then isTrue (by rw [h1, h2])
        else isFalse fun e => h2 (Value.atom.inj e).2
      else isFalse fun e => h1 (Value.atom.inj e).1
    | .undefined | .null | .bool _ | .num _ | .str _ | .binding _ _
    | .list _ _ | .funcall _ _ _ | .mac _ | .fn _ | .native _ => isFalse nofun
  | .binding x1 x2, b =>
    match b with
    | .binding y1 y2 =>
      if h1 : x1 = y1 then
        if h2 : x2 = y2 then isTrue (by rw [h1, h2])
        else isFalse fun e => h2 (Value.binding.inj e).2
      else isFalse fun e => h1 (Value.binding.inj e).1
    | .undefined | .null | .bool _ | .num _ | .str _ | .atom _ _
    | .list _ _ | .funcall _ _ _ | .mac _ | .fn _ | .native _ => isFalse nofun
  | .list x1 x2, b =>
    match b with
    | .list y1 y2 =>
      match Value.decEqs x1 y1 with
      | isTrue h1 =>
        if h2 : x2 = y2 then isTrue (by rw [h1, h2])
        else isFalse fun e => h2 (Value.list.inj e).2
      | isFalse h1 => isFalse fun e => h1 (Value.list.inj e).1
    | .undefined | .null | .bool _ | .num _ | .str _ | .atom _ _
    | .binding _ _ | .funcall _ _ _ | .mac _ | .fn _ | .native _ => isFalse nofun
  | .funcall x1 x2 x3, b =>
    match b with
    | .funcall y1 y2 y3 =>
      match Value.decEq x1 y1 with
      | isTrue h1 =>
        match Value.decEq x2 y2 with
        | isTrue h2 =>
          if h3 : x3 = y3 then isTrue (by rw [h1, h2, h3])
          else isFalse fun e => h3 (Value.funcall.inj e).2.2
        | isFalse h2 => isFalse fun e => h2 (Value.funcall.inj e).2.1
      | isFalse h1 => isFalse fun e => h1 (Value.funcall.inj e).1
    | .undefined | .null | .bool _ | .num _ | .str _ | .atom _ _
    | .binding _ _ | .list _ _ | .mac _ | .fn _ | .native _ => isFalse nofun
  | .mac x1, b =>
    match b with
    | .mac y1 =>
      if h1 : x1 = y1 then isTrue (by rw [h1])
      else isFalse fun e => h1 (Value.mac.inj e)
    | .undefined | .null | .bool _ | .num _ | .str _ | .atom _ _
    | .binding _ _ | .list _ _ | .funcall _ _ _ | .fn _ | .native _ => isFalse nofun
  | .fn x1, b =>
    match b with
    | .fn y1 =>
      if h1 : x1 = y1 then isTrue (by rw [h1])
      else isFalse fun e => h1 (Value.fn.inj e)
    | .undefined | .null | .bool _ | .num _ | .str _ | .atom _ _
    | .binding _ _ | .list _ _ | .funcall _ _ _ | .mac _ | .native _ => isFalse nofun
  | .native x1, b =>
    match b with
    | .native y1 =>
      if h1 : x1 = y1 then isTrue (by rw [h1])
      else isFalse fun e => h1 (Value.native.inj e)
    | .undefined | .null | .bool _ | .num _ | .str _ | .atom _ _
    | .binding _ _ | .list _ _ | .funcall _ _ _ | .mac _ | .fn _ => isFalse nofun

/-- Equality of two lists of host values is decidable. -/
def Value.decEqs : (xs ys : List Value) → Decidable (xs = ys)
  | [], [] => isTrue rfl
  | [], _ :: _ => isFalse nofun
  | _ :: _, [] => isFalse nofun
  | x :: xs, y :: ys =>
    match Value.decEq x y with
    | isTrue h1 =>
      match Value.decEqs xs ys with
      | isTrue h2 => isTrue (by rw [h1, h2])
      | isFalse h2 => isFalse fun e => h2 (List.cons.inj e).2
    | isFalse h1 => isFalse fun e => h1 (List.cons.inj e).1

end

instance : DecidableEq Value := Value.decEq

/-! ## Vocabulary of the statements -/

/-- The left-associated chain `FunCall(...FunCall(FunCall(e, L1), L2)..., Ln)`; as
in the source, each call takes its coordinates from its argument list. -/
def funcall_chain (e : Node) (lists : List Node) : Node :=
  lists.foldl (fun f l => .funcall f l l.coords) e

/-- From the state `st`, `parse_list` parses the parenthesized lists `lists` one
right after the other and leaves the state `st'`. -/
def parses_lists (fuel : Nat) : PState → List Node → PState → Prop
  | st, [], st' => st' = st
  | st, l :: ls, st' => ∃ st1, parse_list fuel st = .ok (l, st1) ∧ parses_lists fuel st1 ls st'

/-- The top-level expressions of the token sequence held by a parser state, in
source order: the sequence ends at end-of-input, a whitespace (or comment) token
contributes nothing, and any other token starts an expression or call, which is
what `parse_expr_or_funcall` parses there. -/
inductive TopLevel : PState → List Node → Prop
  | eof (st : PState) : st.next.type = .eof → TopLevel st []
  | whitespace (st : PState) (es : List Node) :
      st.next.type = .whitespace → TopLevel (shift st).2 es → TopLevel st es
  | expr (st : PState) (fuel : Nat) (e : Node) (st' : PState) (es : List Node) :
      st.next.type ≠ .eof → st.next.type ≠ .whitespace →
      parse_expr_or_funcall fuel st = .ok (e, st') → TopLevel st' es → TopLevel st (e :: es)

/-- The tokens of the source `f(a)(b)` in a file `src`. -/
def curried_tokens : List Token :=
  [⟨.binding, units "f", ⟨some (units "src"), some 1, some 1⟩⟩,
   ⟨.parenleft, units "(", ⟨some (units "src"), some 1, some 2⟩⟩,
   ⟨.binding, units "a", ⟨some (units "src"), some 1, some 3⟩⟩,
   ⟨.parenright, units ")", ⟨some (units "src"), some 1, some 4⟩⟩,
   ⟨.parenleft, units "(", ⟨some (units "src"), some 1, some 5⟩⟩,
   ⟨.binding, units "b", ⟨some (units "src"), some 1, some 6⟩⟩,
   ⟨.parenright, units ")", ⟨some (units "src"), some 1, some 7⟩⟩]

/-- The content of the entry `dict[name]` of the context at `d` (`none`, the host's
`null`, also when the name is only declared). -/
def stored {V : Type} (h : Heap V) (d : Nat) (name : Str) : Option V :=
  ((h.at d).dict name).getD none

/-- A call for `name` on the context `c` is handed over, parent by parent, to the
context `r`: every context on the way does not declare `name` itself and hands
over to its first parent that contains `name`. -/
inductive Reaches {V : Type} (h : Heap V) (name : Str) : Nat → Nat → Prop
  | here (c : Nat) : Reaches h name c c
  | step (c p r : Nat) :
      has h c name = false →
      first_parent (fun q => ctx_contains h q name) (h.at c).parents = .ok (some p) →
      Reaches h name p r → Reaches h name c r

/-- A heap of four contexts: `0` declares `x` (value 10); `1` declares `x` (value
20) and `y` (declared, no value); `2` has the parent `0`; `3` has the parents `2`
and `1`, in that order. -/
def demo_heap : Heap Nat :=
  [ ⟨fun k => if k = units "x" then some (some 10) else none, [], false⟩,
    ⟨fun k => if k = units "x" then some (some 20) else if k = units "y" then some none else none,
      [], false⟩,
    Context.fresh [0] false,
    Context.fresh [2, 1] false ]

/-- The heap `demo_heap` after `run` wrapped context `0` (the library) in an
immutable root, at address `4`, and a list evaluation built a child of the root,
at address `5`. -/
def demo_rooted : Heap Nat :=
  (context (immutable_context demo_heap [0]).1 [4]).1

/-- The number of tokens a parser state can still consume: none once the
lookahead is the end of input. -/
def PState.size (st : PState) : Nat :=
  if st.next.type = .eof then 0 else st.tokens.length + 1

/-- An outcome that is not an exhausted budget and, when it is a result, leaves
fewer than `bound` tokens to consume. -/
def Result.settled (r : Result (Node × PState)) (bound : Nat) : Prop :=
  r ≠ .fuel ∧ ∀ a, r = .ok a → a.2.size < bound

/-- The number of characters after the last newline of `p` (all of `p` when it
holds no newline). -/
def lastLineLength (p : Str) : Nat :=
  (p.reverse.takeWhile fun c => c != 10).length

/-- A host whose `v + 1` on the operands left open is `undefined`; it stands for
the parameter `host` where a statement is about one run. -/
def no_host : Value → Value := fun _ => .undefined

/-- A run from the state `st` kept the stack discipline: when it returned a
value the call stack is the one of `st`, and when it raised an error the call
stack of `st` is still there, below the frames of the calls that did not finish. -/
def Run.balanced {α : Type} (r : Run α) (st : State) : Prop :=
  (∀ a, r.2 = .ok a → r.1.callstack = st.callstack) ∧
    (∀ e, r.2 = .error e → st.callstack <+: r.1.callstack)

/-- An evaluator all of whose runs keep the stack discipline. -/
def Eval.balanced (ev : Eval) : Prop :=
  ∀ st ctx e, (ev st ctx e).balanced st

/-- Callables that keep the stack discipline when the evaluator they call back
keeps it. -/
def World.balanced (w : World) : Prop :=
  (∀ id budget ev st ctx args, Eval.balanced ev → (w.mac id budget ev st ctx args).balanced st) ∧
    (∀ id budget ev st args, Eval.balanced ev → (w.fn id budget ev st args).balanced st) ∧
    (∀ id st args, (w.native id st args).balanced st)

/-- Whether a value is a Macro, a Function or a native host callable. -/
def Value.callable : Value → Bool
  | .mac _ => true
  | .fn _ => true
  | .native _ => true
  | _ => false

/-- The state in which the library is loaded and nothing has run. -/
def lib_state : State := ⟨lib_heap, [], []⟩

/-- The line the command line prints for one frame. -/
def frame_line (c : Frame) : Str :=
  units "  " ++ c.funname ++ units "() at " ++ coords_text c.coords

/-- The elements `es` are evaluated one after the other, left to right, against
the context `local_ctx`: from the state `st` they return the values `vs`, each
element starting in the state the one before it left, and leave the state `st'`. -/
inductive EvalSeq (ev : Eval) (local_ctx : Nat) : State → List Value → State → List Value → Prop
  | nil (st : State) : EvalSeq ev local_ctx st [] st []
  | cons (st st1 st2 : State) (e : Value) (es : List Value) (v : Value) (vs : List Value) :
      ev st local_ctx e = (st1, .ok v) → EvalSeq ev local_ctx st1 es st2 vs →
      EvalSeq ev local_ctx st (e :: es) st2 (v :: vs)

/-- The elements of the list `(dec('x 5) x)`, as syntax trees without source
position. -/
def scoped_elems : List Value :=
  [.funcall (.binding (units "dec") Coords.native)
    (.list [.atom (units "x") Coords.native, .num ⟨5, 0⟩] Coords.native) none,
   .binding (units "x") Coords.native]

/-- The list `(dec('x 5) x)`. -/
def scoped_list : Value :=
  .list scoped_elems Coords.native

/-- The expression `body` is evaluated `n` times against `ctx`, one evaluation after
the other, and every one of them returns a value: from the state `st` they leave
the state `st'`. -/
inductive BodyRuns (ev : Eval) (ctx : Nat) (body : Value) : Nat → State → State → Prop
  | zero (st : State) : BodyRuns ev ctx body 0 st st
  | succ (n : Nat) (st st1 st2 : State) (v : Value) :
      ev st ctx body = (st1, .ok v) → BodyRuns ev ctx body n st1 st2 →
      BodyRuns ev ctx body (n + 1) st st2

/-- The arguments of the call `while(true 1)`, as syntax trees without source
position. -/
def forever_args : Value :=
  .list [.binding (units "true") Coords.native, .num ⟨1, 0⟩] Coords.native


/-! ## Facts about the tokenizer -/

theorem first_match_mem (ps : List ((Str → Option Nat) × TokKind)) (text : Str) (n : Nat)
    (k : TokKind) (h : first_match ps text = some (n, k)) :
    ∃ p, p ∈ ps ∧ p.1 text = some n ∧ p.2 = k := by
  induction ps with
  | nil => simp [first_match] at h
  | cons p rest ih =>
    unfold first_match at h
    split at h
    · next m hm =>
      simp only [Option.some.injEq, Prod.mk.injEq] at h
      exact ⟨p, List.mem_cons_self _ _, by rw [hm, h.1], h.2⟩
    · obtain ⟨q, hq, hq1, hq2⟩ := ih h
      exact ⟨q, List.mem_cons_of_mem _ hq, hq1, hq2⟩

theorem first_match_of_mem (ps : List ((Str → Option Nat) × TokKind)) (text : Str)
    (p : (Str → Option Nat) × TokKind) (n : Nat) (hp : p ∈ ps) (h : p.1 text = some n) :
    first_match ps text ≠ none := by
  induction ps with
  | nil => simp at hp
  | cons q rest ih =>
    unfold first_match
    split
    · simp
    · next hq =>
      rcases List.mem_cons.1 hp with rfl | hmem
      · rw [h] at hq; cases hq
      · exact ih hmem

theorem match_comment_pos (text : Str) (n : Nat) (h : match_comment text = some n) : 1 ≤ n := by
  cases text with
  | nil => simp [match_comment] at h
  | cons c cs =>
    simp only [match_comment] at h
    split at h
    · simp only [Option.some.injEq] at h; omega
    · cases h

theorem match_space_pos (text : Str) (n : Nat) (h : match_space text = some n) : 1 ≤ n := by
  simp only [match_space] at h
  split at h
  · cases h
  · simp only [Option.some.injEq] at h; omega

theorem match_string_pos (text : Str) (n : Nat) (h : match_string text = some n) : 1 ≤ n := by
  cases text with
  | nil => simp [match_string] at h
  | cons c cs =>
    simp only [match_string] at h
    split at h
    · split at h
      · simp only [Option.some.injEq] at h; omega
      · cases h
    · cases h

theorem match_parenleft_pos (text : Str) (n : Nat) (h : match_parenleft text = some n) :
    1 ≤ n := by
  cases text with
  | nil => simp [match_parenleft] at h
  | cons c cs =>
    simp only [match_parenleft] at h
    split at h
    · simp only [Option.some.injEq] at h; omega
    · cases h

theorem match_parenright_pos (text : Str) (n : Nat) (h : match_parenright text = some n) :
    1 ≤ n := by
  cases text with
  | nil => simp [match_parenright] at h
  | cons c cs =>
    simp only [match_parenright] at h
    split at h
    · simp only [Option.some.injEq] at h; omega
    · cases h

theorem match_number_pos (text : Str) (n : Nat) (h : match_number text = some n) : 1 ≤ n := by
  simp only [match_number] at h
  split at h
  · cases h
  · simp only [Option.some.injEq] at h; omega

theorem match_atom_pos (text : Str) (n : Nat) (h : match_atom text = some n) : 1 ≤ n := by
  cases text with
  | nil => simp [match_atom] at h
  | cons c cs =>
    simp only [match_atom] at h
    split at h
    · simp only [Option.some.injEq] at h; omega
    · cases h

theorem match_binding_pos (text : Str) (n : Nat) (h : match_binding text = some n) : 1 ≤ n := by
  simp only [match_binding] at h
  split at h
  · cases h
  · simp only [Option.some.injEq] at h; omega

/-- Every pattern of the table matches at least one code unit when it matches. -/
theorem patterns_pos (p : (Str → Option Nat) × TokKind) (hp : p ∈ patterns) (text : Str)
    (n : Nat) (h : p.1 text = some n) : 1 ≤ n := by
  simp only [patterns, List.mem_cons, List.mem_singleton, List.not_mem_nil, or_false] at hp
  rcases hp with rfl | rfl | rfl | rfl | rfl | rfl | rfl | rfl
  · exact match_comment_pos text n h
  · exact match_space_pos text n h
  · exact match_string_pos text n h
  · exact match_parenleft_pos text n h
  · exact match_parenright_pos text n h
  · exact match_number_pos text n h
  · exact match_atom_pos text n h
  · exact match_binding_pos text n h

/-- A match of the pattern table is never empty. -/
theorem first_match_pos (text : Str) (n : Nat) (k : TokKind)
    (h : first_match patterns text = some (n, k)) : 1 ≤ n := by
  obtain ⟨p, hp, hn, _⟩ := first_match_mem patterns text n k h
  exact patterns_pos p hp text n hn

/-- On a non-empty text some pattern of the table matches: a parenthesis, a
unit of white space, or else the fallback `binding` pattern. -/
theorem first_match_ne_none (c : Nat) (cs : Str) : first_match patterns (c :: cs) ≠ none := by
  by_cases hw : isWord c = true
  · refine first_match_of_mem patterns (c :: cs) (match_binding, .binding)
      (spanLen isWord cs + 1) (by simp [patterns]) ?_
    simp [match_binding, spanLen, hw]
  · by_cases hl : c = 40
    · exact first_match_of_mem patterns (c :: cs) (match_parenleft, .parenleft) 1
        (by simp [patterns]) (by simp [match_parenleft, hl])
    · by_cases hr : c = 41
      · exact first_match_of_mem patterns (c :: cs) (match_parenright, .parenright) 1
          (by simp [patterns]) (by simp [match_parenright, hr])
      · have hs : isSpace c = true := by
          simp only [isWord, Bool.not_eq_true', Bool.not_eq_false, Bool.or_eq_true,
            beq_iff_eq] at hw
          rcases hw with (h | h) | h
          · exact absurd h hl
          · exact absurd h hr
          · exact h
        refine first_match_of_mem patterns (c :: cs) (match_space, .whitespace)
          (spanLen isSpace cs + 1) (by simp [patterns]) ?_
        simp [match_space, spanLen, hs]

/-- The loop of `tokenize` returns, and the texts of the tokens it appends
spell the text it was started on. -/
theorem tokenize_loop_spec (filename : Str) (fuel : Nat) :
    ∀ (text : Str) (line column : Nat) (tokens : List Token), text.length ≤ fuel →
      ∃ toks, tokenize_loop filename fuel text line column tokens = .ok (tokens ++ toks) ∧
        (toks.map Token.text).flatten = text := by
  induction fuel with
  | zero =>
    intro text line column tokens h
    cases text with
    | nil => exact ⟨[], by simp [tokenize_loop], rfl⟩
    | cons c cs => simp at h
  | succ fuel ih =>
    intro text line column tokens h
    cases text with
    | nil => exact ⟨[], by simp [tokenize_loop], rfl⟩
    | cons c cs =>
      cases hm : first_match patterns (c :: cs) with
      | none => exact absurd hm (first_match_ne_none c cs)
      | some r =>
        obtain ⟨n, name⟩ := r
        have hpos := first_match_pos (c :: cs) n name hm
        have hlen : ((c :: cs).drop ((c :: cs).take n).length).length ≤ fuel := by
          simp only [List.length_drop, List.length_take, List.length_cons] at h ⊢
          omega
        obtain ⟨toks, hrun, hcat⟩ := ih _ (advance line column 0 ((c :: cs).take n)).1
          (advance line column 0 ((c :: cs).take n)).2
          (tokens ++ [⟨name, (c :: cs).take n, ⟨some filename, some line, some column⟩⟩]) hlen
        refine ⟨⟨name, (c :: cs).take n, ⟨some filename, some line, some column⟩⟩ :: toks, ?_, ?_⟩
        · simp only [tokenize_loop, hm]
          rw [hrun]
          simp
        · simp only [List.map_cons, List.flatten_cons, hcat]
          rw [List.length_take]
          by_cases hn : n ≤ (c :: cs).length
          · rw [Nat.min_eq_left hn]; exact List.take_append_drop n (c :: cs)
          · have hn2 : (c :: cs).length ≤ n := by omega
            rw [Nat.min_eq_right hn2, List.take_of_length_le hn2, List.drop_length]
            simp

/-- C1. For every source text `s` and file name `f`, `tokenize(s, f)` returns a
token list, and the texts of its tokens (whitespace and comment tokens
included), concatenated in order, are exactly `s`. -/
theorem tokenize_concat (s f : Str) :
    ∃ toks, tokenize s f = .ok toks ∧ (toks.map Token.text).flatten = s := by
  obtain ⟨toks, h, hcat⟩ := tokenize_loop_spec f s.length s 1 1 [] (Nat.le_refl _)
  exact ⟨toks, by simpa [tokenize] using h, hcat⟩

/-! ## The pipeline on concrete sources -/

/-- The result of `parse(tokenize(text, filename))` from the token list and the
result of parsing it. -/
theorem parse_source_eq (text filename : Str) (toks : List Token) (r : Result Node)
    (htok : tokenize text filename = .ok toks) (hparse : parse toks = r) :
    parse_source text filename = r := by
  rw [parse_source, htok]; exact hparse

/-- C2 (what the code does on the two sources of the claim). On the 6-character
source `"a\"b"` the string pattern stops at the escaped quote: the first token is
the string token `"a\"` (4 characters), followed by the binding token `b"`. The
source `"it's"` is not matched by the string pattern at all and becomes one
binding token. In neither case is the whole literal one string token. -/
theorem string_pattern_stops_early (f : Str) :
    tokenize (units "\"a\\\"b\"") f =
        .ok [⟨.string, units "\"a\\\"", ⟨some f, some 1, some 1⟩⟩,
             ⟨.binding, units "b\"", ⟨some f, some 1, some 5⟩⟩] ∧
      tokenize (units "\"it's\"") f =
        .ok [⟨.binding, units "\"it's\"", ⟨some f, some 1, some 1⟩⟩] :=
  ⟨rfl, rfl⟩

/-- C3 (as stated, refuted). The single top-level expression of `(+ 1 2)` is not
a FunCall of the binding `+` on the list of `1` and `2`, whatever the coordinates. -/
theorem parse_plus_list_not_funcall :
    ¬ ∃ (c1 c2 : Coords) (c3 : Option Coords),
      parse_source (units "(+ 1 2)") (units "f") =
        .ok (program_funcall
          [.funcall (.binding (units "+") c1)
            (.list [.num (Num.ofInt 1), .num (Num.ofInt 2)] c2) c3]) := by
  rintro ⟨c1, c2, c3, h⟩
  have h2 : parse_source (units "(+ 1 2)") (units "f") =
      .ok (program_funcall
        [.list [.binding (units "+") ⟨some (units "f"), some 1, some 2⟩, .num (Num.ofInt 1),
          .num (Num.ofInt 2)] ⟨some (units "f"), some 1, some 1⟩]) := rfl
  rw [h2] at h
  simp [program_funcall] at h

/-- C3 (amended). The single top-level expression of `(+ 1 2)` is a List node
holding the binding `+` and the numeric literals `1` and `2`; the FunCall whose
target is the binding `+` and whose args is the List of `1` and `2` is what the
source `+(1 2)` yields. -/
theorem parse_plus_list (f : Str) :
    parse_source (units "(+ 1 2)") f =
        .ok (program_funcall
          [.list [.binding (units "+") ⟨some f, some 1, some 2⟩, .num (Num.ofInt 1),
            .num (Num.ofInt 2)] ⟨some f, some 1, some 1⟩]) ∧
      parse_source (units "+(1 2)") f =
        .ok (program_funcall
          [.funcall (.binding (units "+") ⟨some f, some 1, some 1⟩)
            (.list [.num (Num.ofInt 1), .num (Num.ofInt 2)] ⟨some f, some 1, some 2⟩)
            (some ⟨some f, some 1, some 2⟩)]) := by
  constructor
  · exact parse_source_eq _ f
      [⟨.parenleft, units "(", ⟨some f, some 1, some 1⟩⟩,
       ⟨.binding, units "+", ⟨some f, some 1, some 2⟩⟩,
       ⟨.whitespace, units " ", ⟨some f, some 1, some 3⟩⟩,
       ⟨.number, units "1", ⟨some f, some 1, some 4⟩⟩,
       ⟨.whitespace, units " ", ⟨some f, some 1, some 5⟩⟩,
       ⟨.number, units "2", ⟨some f, some 1, some 6⟩⟩,
       ⟨.parenright, units ")", ⟨some f, some 1, some 7⟩⟩] _ rfl rfl
  · exact parse_source_eq _ f
      [⟨.binding, units "+", ⟨some f, some 1, some 1⟩⟩,
       ⟨.parenleft, units "(", ⟨some f, some 1, some 2⟩⟩,
       ⟨.number, units "1", ⟨some f, some 1, some 3⟩⟩,
       ⟨.whitespace, units " ", ⟨some f, some 1, some 4⟩⟩,
       ⟨.number, units "2", ⟨some f, some 1, some 5⟩⟩,
       ⟨.parenright, units ")", ⟨some f, some 1, some 6⟩⟩] _ rfl rfl

/-- C4 (as stated, refuted). Parsing `(+ 1(2))` does not fail with a Parse error. -/
theorem parse_adjacent_list_no_error :
    ¬ ∃ e : Error, parse_source (units "(+ 1(2))") (units "f") = .error e ∧ e.kind = .Parse := by
  rintro ⟨e, h, -⟩
  have h2 : parse_source (units "(+ 1(2))") (units "f") =
      .ok (program_funcall
        [.list [.binding (units "+") ⟨some (units "f"), some 1, some 2⟩,
          .funcall (.num (Num.ofInt 1))
            (.list [.num (Num.ofInt 2)] ⟨some (units "f"), some 1, some 5⟩)
            (some ⟨some (units "f"), some 1, some 5⟩)]
          ⟨some (units "f"), some 1, some 1⟩]) := rfl
  rw [h2] at h
  cases h

/-- C4 (amended). The source `(+ 1(2))` parses: the `(2)` that follows `1` without
white space is the argument list of a call of `1`, so the list has the two
elements `+` and `1(2)`. The source `(+ 1 (2))` parses to a list of the three
elements `+`, `1` and the list `(2)`. The separator rule raises its Parse error
when the element that follows without white space does not open a parenthesis,
as the string in `(+ 1"2")`. -/
theorem parse_separator_rule (f : Str) :
    parse_source (units "(+ 1(2))") f =
        .ok (program_funcall
          [.list [.binding (units "+") ⟨some f, some 1, some 2⟩,
            .funcall (.num (Num.ofInt 1)) (.list [.num (Num.ofInt 2)] ⟨some f, some 1, some 5⟩)
              (some ⟨some f, some 1, some 5⟩)]
            ⟨some f, some 1, some 1⟩]) ∧
      parse_source (units "(+ 1 (2))") f =
        .ok (program_funcall
          [.list [.binding (units "+") ⟨some f, some 1, some 2⟩, .num (Num.ofInt 1),
            .list [.num (Num.ofInt 2)] ⟨some f, some 1, some 6⟩]
            ⟨some f, some 1, some 1⟩]) ∧
      parse_source (units "(+ 1\"2\")") f =
        .error (parse_error (units "expected <whitespace>, found <string>")
          ⟨some f, some 1, some 5⟩) := by
  refine ⟨?_, ?_, ?_⟩
  · exact parse_source_eq _ f
      [⟨.parenleft, units "(", ⟨some f, some 1, some 1⟩⟩,
       ⟨.binding, units "+", ⟨some f, some 1, some 2⟩⟩,
       ⟨.whitespace, units " ", ⟨some f, some 1, some 3⟩⟩,
       ⟨.number, units "1", ⟨some f, some 1, some 4⟩⟩,
       ⟨.parenleft, units "(", ⟨some f, some 1, some 5⟩⟩,
       ⟨.number, units "2", ⟨some f, some 1, some 6⟩⟩,
       ⟨.parenright, units ")", ⟨some f, some 1, some 7⟩⟩,
       ⟨.parenright, units ")", ⟨some f, some 1, some 8⟩⟩] _ rfl rfl
  · exact parse_source_eq _ f
      [⟨.parenleft, units "(", ⟨some f, some 1, some 1⟩⟩,
       ⟨.binding, units "+", ⟨some f, some 1, some 2⟩⟩,
       ⟨.whitespace, units " ", ⟨some f, some 1, some 3⟩⟩,
       ⟨.number, units "1", ⟨some f, some 1, some 4⟩⟩,
       ⟨.whitespace, units " ", ⟨some f, some 1, some 5⟩⟩,
       ⟨.parenleft, units "(", ⟨some f, some 1, some 6⟩⟩,
       ⟨.number, units "2", ⟨some f, some 1, some 7⟩⟩,
       ⟨.parenright, units ")", ⟨some f, some 1, some 8⟩⟩,
       ⟨.parenright, units ")", ⟨some f, some 1, some 9⟩⟩] _ rfl rfl
  · exact parse_source_eq _ f
      [⟨.parenleft, units "(", ⟨some f, some 1, some 1⟩⟩,
       ⟨.binding, units "+", ⟨some f, some 1, some 2⟩⟩,
       ⟨.whitespace, units " ", ⟨some f, some 1, some 3⟩⟩,
       ⟨.number, units "1", ⟨some f, some 1, some 4⟩⟩,
       ⟨.string, units "\"2\"", ⟨some f, some 1, some 5⟩⟩,
       ⟨.parenright, units ")", ⟨some f, some 1, some 8⟩⟩] _ rfl rfl

/-- C7 (what the code does on two sources). The tokenizer classifies `01` as a
number token and `"a\"` as a string token, and `parse` then fails on each with
the host's `SyntaxError` raised by `eval`, an error of none of the kinds
Tokenize, Parse and Runtime. -/
theorem literal_decoding_host_error (f : Str) :
    tokenize (units "01") f = .ok [⟨.number, units "01", ⟨some f, some 1, some 1⟩⟩] ∧
      parse_source (units "01") f = .error host_syntax_error ∧
      tokenize (units "\"a\\\"") f =
        .ok [⟨.string, units "\"a\\\"", ⟨some f, some 1, some 1⟩⟩] ∧
      parse_source (units "\"a\\\"") f = .error host_syntax_error ∧
      host_syntax_error.kind = .Host := by
  refine ⟨rfl, ?_, rfl, ?_, rfl⟩
  · exact parse_source_eq _ f [⟨.number, units "01", ⟨some f, some 1, some 1⟩⟩] _ rfl rfl
  · exact parse_source_eq _ f [⟨.string, units "\"a\\\"", ⟨some f, some 1, some 1⟩⟩] _ rfl rfl

/-! ## Facts about the parser -/

theorem Result.bind_mono {α β : Type} {x x' : Result α} {g g' : α → Result β}
    (hx : x ≠ .fuel → x' = x) (hg : ∀ a, g a ≠ .fuel → g' a = g a)
    (h : x.bind g ≠ .fuel) : x'.bind g' = x.bind g := by
  cases x with
  | ok a =>
    rw [hx (by simp)]
    exact hg a h
  | error e => rw [hx (by simp)]; rfl
  | fuel => exact absurd rfl h

/-- One more step of budget does not change a result that was reached. -/
theorem parse_mono_step (f : Nat) :
    (∀ st, parse_expr f st ≠ .fuel → parse_expr (f + 1) st = parse_expr f st) ∧
    (∀ st, parse_list f st ≠ .fuel → parse_list (f + 1) st = parse_list f st) ∧
    (∀ c l nw st, parse_list_loop f c l nw st ≠ .fuel →
      parse_list_loop (f + 1) c l nw st = parse_list_loop f c l nw st) ∧
    (∀ st, parse_expr_or_funcall f st ≠ .fuel →
      parse_expr_or_funcall (f + 1) st = parse_expr_or_funcall f st) ∧
    (∀ fc st, funcall_loop f fc st ≠ .fuel →
      funcall_loop (f + 1) fc st = funcall_loop f fc st) := by
  induction f with
  | zero =>
    refine ⟨?_, ?_, ?_, ?_, ?_⟩ <;> intros <;> simp_all [parse_expr, parse_list, parse_list_loop,
      parse_expr_or_funcall, funcall_loop]
  | succ f ih =>
    obtain ⟨ihe, ihl, ihll, ihef, ihfl⟩ := ih
    refine ⟨?_, ?_, ?_, ?_, ?_⟩
    · intro st h
      rw [parse_expr] at h ⊢
      rw [parse_expr]
      split <;> simp_all
    · intro st h
      rw [parse_list] at h ⊢
      rw [parse_list]
      exact Result.bind_mono (fun _ => rfl) (fun a ha => ihll _ _ _ _ ha) h
    · intro c l nw st h
      rw [parse_list_loop] at h ⊢
      rw [parse_list_loop]
      split
      · rfl
      · simp_all only []
        exact Result.bind_mono (fun _ => rfl) (fun a ha => ihll _ _ _ _ ha) h
      · simp_all only []
        split
        · rfl
        · simp_all only []
          exact Result.bind_mono (fun hx => ihef _ hx) (fun a ha => ihll _ _ _ _ ha) h
    · intro st h
      rw [parse_expr_or_funcall] at h ⊢
      rw [parse_expr_or_funcall]
      refine Result.bind_mono (fun hx => ihe _ hx) (fun a ha => ?_) h
      split
      · rfl
      · simp_all only []
        exact ihfl _ _ ha
    · intro fc st h
      rw [funcall_loop] at h ⊢
      rw [funcall_loop]
      split
      · simp_all only []
        exact Result.bind_mono (fun hx => ihl _ hx) (fun a ha => ihfl _ _ ha) h
      · rfl

/-- More budget does not change a result that was reached. -/
theorem parse_mono (f k : Nat) :
    (∀ st, parse_expr f st ≠ .fuel → parse_expr (f + k) st = parse_expr f st) ∧
    (∀ st, parse_list f st ≠ .fuel → parse_list (f + k) st = parse_list f st) ∧
    (∀ st, parse_expr_or_funcall f st ≠ .fuel →
      parse_expr_or_funcall (f + k) st = parse_expr_or_funcall f st) := by
  induction k with
  | zero => exact ⟨fun _ _ => rfl, fun _ _ => rfl, fun _ _ => rfl⟩
  | succ k ih =>
    obtain ⟨ihe, ihl, ihef⟩ := ih
    obtain ⟨se, sl, -, sef, -⟩ := parse_mono_step (f + k)
    refine ⟨fun st h => ?_, fun st h => ?_, fun st h => ?_⟩
    · have h1 := ihe st h
      rw [← Nat.add_assoc, se st (by rw [h1]; exact h), h1]
    · have h1 := ihl st h
      rw [← Nat.add_assoc, sl st (by rw [h1]; exact h), h1]
    · have h1 := ihef st h
      rw [← Nat.add_assoc, sef st (by rw [h1]; exact h), h1]

theorem parse_expr_mono (f k : Nat) (st : PState) (r : Node × PState)
    (h : parse_expr f st = .ok r) : parse_expr (f + k) st = .ok r := by
  rw [(parse_mono f k).1 st (by rw [h]; simp), h]

theorem parse_list_mono (f k : Nat) (st : PState) (r : Node × PState)
    (h : parse_list f st = .ok r) : parse_list (f + k) st = .ok r := by
  rw [(parse_mono f k).2.1 st (by rw [h]; simp), h]

/-- A successful `consume(type)` found a lookahead of that type and shifted. -/
theorem consume_ok (type : TokKind) (st : PState) (r : Token × PState)
    (h : consume type st = .ok r) : st.next.type = type ∧ r = shift st := by
  unfold consume at h
  split at h
  · cases h
  · split at h
    · next ht => simp only [Result.ok.injEq] at h; exact ⟨ht, h.symm⟩
    · cases h

/-- The function `parse_list` succeeds only on an opening parenthesis. -/
theorem parse_list_ok_parenleft (f : Nat) (st : PState) (r : Node × PState)
    (h : parse_list f st = .ok r) : st.next.type = .parenleft := by
  cases f with
  | zero => simp [parse_list] at h
  | succ f =>
    rw [parse_list] at h
    cases hc : consume .parenleft st with
    | ok a => exact (consume_ok _ _ _ hc).1
    | error e => rw [hc] at h; cases h
    | fuel => rw [hc] at h; cases h

/-- The loop of `parse_expr_or_funcall` builds the left-associated chain. -/
theorem funcall_loop_chain (fuel : Nat) (lists : List Node) :
    ∀ (e : Node) (st st' : PState), parses_lists fuel st lists st' →
      st'.next.type ≠ .parenleft →
      funcall_loop (fuel + lists.length + 1) e st = .ok (funcall_chain e lists, st') := by
  induction lists with
  | nil =>
    intro e st st' hl hend
    simp only [parses_lists] at hl
    subst hl
    rw [funcall_loop]
    simp [hend, funcall_chain]
  | cons l ls ih =>
    intro e st st' hl hend
    obtain ⟨st1, h1, hrest⟩ := hl
    have hp := parse_list_ok_parenleft fuel st _ h1
    have h2 := parse_list_mono fuel (ls.length + 1) st _ h1
    have h3 := ih (.funcall e l l.coords) st1 st' hrest hend
    rw [List.length_cons, show fuel + (ls.length + 1) + 1 = (fuel + (ls.length + 1)) + 1 from rfl,
      funcall_loop]
    simp only [hp, if_true, h2, Result.bind]
    rw [show fuel + (ls.length + 1) = fuel + ls.length + 1 from rfl, h3]
    rfl

/-- C5. If `parse_expr` parses the expression `e` and `parse_list` then parses
the `n` parenthesized lists `L1 ... Ln` that follow it immediately, the token
after them not being an opening parenthesis, then `parse_expr_or_funcall` returns
the left-associated chain `FunCall(...FunCall(FunCall(e, L1), L2)..., Ln)`; for
`n = 0` (`e` followed by anything but an opening parenthesis) that is `e` itself. -/
theorem parse_expr_or_funcall_chain (fuel : Nat) (st st0 st' : PState) (e : Node)
    (lists : List Node) (he : parse_expr fuel st = .ok (e, st0))
    (hl : parses_lists fuel st0 lists st') (hend : st'.next.type ≠ .parenleft) :
    parse_expr_or_funcall (fuel + lists.length + 2) st = .ok (funcall_chain e lists, st') := by
  rw [show fuel + lists.length + 2 = (fuel + (lists.length + 1)) + 1 from rfl,
    parse_expr_or_funcall, parse_expr_mono fuel (lists.length + 1) st _ he]
  simp only [Result.bind]
  by_cases hp : st0.next.type = .parenleft
  · simp only [hp, ne_eq, not_true_eq_false, if_false]
    exact funcall_loop_chain fuel lists e st0 st' hl hend
  · cases lists with
    | nil =>
      simp only [parses_lists] at hl
      subst hl
      simp [hp, funcall_chain]
    | cons l ls =>
      obtain ⟨st1, h1, -⟩ := hl
      exact absurd (parse_list_ok_parenleft fuel st0 _ h1) hp

/-- C5 at the source `f(a)(b)`: the result is `FunCall(FunCall(f,[a]),[b])`. -/
theorem parse_expr_or_funcall_chain_witness :
    parse_expr_or_funcall (4 + 2 + 2) (next_token curried_tokens) =
      .ok (.funcall
            (.funcall (.binding (units "f") ⟨some (units "src"), some 1, some 1⟩)
              (.list [.binding (units "a") ⟨some (units "src"), some 1, some 3⟩]
                ⟨some (units "src"), some 1, some 2⟩)
              (some ⟨some (units "src"), some 1, some 2⟩))
            (.list [.binding (units "b") ⟨some (units "src"), some 1, some 6⟩]
              ⟨some (units "src"), some 1, some 5⟩)
            (some ⟨some (units "src"), some 1, some 5⟩),
          ⟨Token.eof, []⟩) :=
  parse_expr_or_funcall_chain 4 (next_token curried_tokens)
    (next_token (curried_tokens.drop 1)) ⟨Token.eof, []⟩
    (.binding (units "f") ⟨some (units "src"), some 1, some 1⟩)
    [.list [.binding (units "a") ⟨some (units "src"), some 1, some 3⟩]
        ⟨some (units "src"), some 1, some 2⟩,
      .list [.binding (units "b") ⟨some (units "src"), some 1, some 6⟩]
        ⟨some (units "src"), some 1, some 5⟩]
    rfl ⟨next_token (curried_tokens.drop 4), rfl, ⟨Token.eof, []⟩, rfl, rfl⟩ (by decide)

/-! ## The budget of `parse` is enough -/

theorem size_next_token_le (tokens : List Token) : (next_token tokens).size ≤ tokens.length := by
  cases tokens with
  | nil => simp [next_token, PState.size, Token.eof]
  | cons t ts =>
    simp only [next_token, PState.size, List.length_cons]
    split <;> omega

theorem size_shift_lt (st : PState) (h : st.next.type ≠ .eof) : (shift st).2.size < st.size := by
  have := size_next_token_le st.tokens
  simp only [shift, PState.size, h, if_false] at this ⊢
  omega

theorem consume_settled (type : TokKind) (st : PState) (r : Token × PState) (ht : type ≠ .eof)
    (h : consume type st = .ok r) : r.2.size < st.size := by
  obtain ⟨h1, h2⟩ := consume_ok type st r h
  rw [h2]
  exact size_shift_lt st (by rw [h1]; exact ht)

theorem consume_ne_fuel (type : TokKind) (st : PState) : consume type st ≠ .fuel := by
  unfold consume
  split
  · simp
  · split <;> simp

/-- The budget of `eval_string` is enough: every step of the literal decoder
moves past at least one code unit. -/
theorem string_chars_ne_fuel (fuel : Nat) :
    ∀ (text value : Str), text.length < fuel → string_chars fuel text value ≠ .fuel := by
  induction fuel with
  | zero => intro text value h; omega
  | succ fuel ih =>
    intro text value h
    cases text with
    | nil =>
      show (Result.error host_syntax_error : Result Str) ≠ .fuel
      simp
    | cons c cs =>
      have hcs : cs.length < fuel := by simp at h; omega
      unfold string_chars
      by_cases h34 : c = 34
      · rw [if_pos h34]
        by_cases hnil : cs = []
        · rw [if_pos hnil]; simp
        · rw [if_neg hnil]; simp
      rw [if_neg h34]
      by_cases hnl : c = 10 ∨ c = 13
      · rw [if_pos hnl]; simp
      rw [if_neg hnl]
      by_cases h92 : c = 92
      · rw [if_pos h92]
        cases cs with
        | nil => simp
        | cons e rest =>
          have hrest : rest.length < fuel := by simp at hcs; omega
          simp only []
          by_cases hcont : e = 10 ∨ e = 8232 ∨ e = 8233
          · rw [if_pos hcont]; exact ih _ _ hrest
          rw [if_neg hcont]
          by_cases hcr : e = 13
          · rw [if_pos hcr]
            cases rest with
            | nil => exact ih _ _ hrest
            | cons d rest2 =>
              simp only []
              by_cases hd : d = 10
              · rw [if_pos hd]; exact ih _ _ (by simp at hrest; omega)
              · rw [if_neg hd]; exact ih _ _ hrest
          rw [if_neg hcr]
          by_cases hzero : e = 48
          · rw [if_pos hzero]
            cases rest with
            | nil => exact ih _ _ hrest
            | cons d rest2 =>
              simp only []
              by_cases hd : isDigit d = true
              · rw [if_pos hd]; simp
              · rw [if_neg hd]; exact ih _ _ hrest
          rw [if_neg hzero]
          by_cases hdig : isDigit e = true
          · rw [if_pos hdig]; simp
          rw [if_neg hdig]
          by_cases hx : e = 120
          · rw [if_pos hx]
            match rest, hrest with
            | [], _ => simp
            | [_], _ => simp
            | h1 :: h2 :: rest2, hrest =>
              simp only []
              cases hex_value h1 with
              | none => simp
              | some a =>
                cases hex_value h2 with
                | none => simp
                | some b => exact ih _ _ (by simp at hrest; omega)
          rw [if_neg hx]
          by_cases hu : e = 117
          · rw [if_pos hu]
            cases rest with
            | nil => simp
            | cons hh rest2 =>
              simp only []
              by_cases hbrace : hh = 123
              · rw [if_pos hbrace]
                cases hdrop : rest2.dropWhile isHex with
                | nil => simp
                | cons close rest3 =>
                  simp only []
                  by_cases hclose : close = 125 ∧ rest2.takeWhile isHex ≠ [] ∧
                      hex_number (rest2.takeWhile isHex) ≤ 1114111
                  · rw [if_pos hclose]
                    refine ih _ _ ?_
                    have hle : (rest2.dropWhile isHex).length ≤ rest2.length :=
                      (List.dropWhile_sublist _).length_le
                    rw [hdrop] at hle
                    simp at hrest hle
                    omega
                  · rw [if_neg hclose]; simp
              · rw [if_neg hbrace]
                by_cases hfour : ((hh :: rest2).take 4).length = 4 ∧
                    ((hh :: rest2).take 4).all isHex = true
                · rw [if_pos hfour]
                  refine ih _ _ ?_
                  simp only [List.length_drop]
                  omega
                · rw [if_neg hfour]; simp
          rw [if_neg hu]
          cases single_escape e with
          | none => exact ih _ _ hrest
          | some v => exact ih _ _ hrest
      · rw [if_neg h92]; exact ih _ _ hcs

theorem eval_string_ne_fuel (text : Str) : eval_string text ≠ .fuel := by
  cases text with
  | nil => simp [eval_string]
  | cons c cs =>
    simp only [eval_string]
    split
    · exact string_chars_ne_fuel _ _ _ (Nat.lt_succ_self _)
    · simp

theorem eval_number_ne_fuel (text : Str) : eval_number text ≠ .fuel := by
  simp only [eval_number]
  split
  · simp
  split
  · simp
  split
  · simp
  · simp

theorem parse_value_settled (st : PState) : (parse_value st).settled st.size := by
  unfold parse_value
  split
  · cases hc : consume .string st with
    | ok r =>
      cases he : eval_string r.1.text with
      | ok v =>
        simp only [Result.bind, he, Result.settled]
        refine ⟨by simp, fun a ha => ?_⟩
        simp only [Result.ok.injEq] at ha
        rw [← ha]
        exact consume_settled _ _ _ (by decide) hc
      | error e => simp [Result.bind, he, Result.settled]
      | fuel => exact absurd he (eval_string_ne_fuel _)
    | error e => simp [Result.bind, Result.settled]
    | fuel => exact absurd hc (consume_ne_fuel _ _)
  · cases hc : consume .number st with
    | ok r =>
      cases he : eval_number r.1.text with
      | ok v =>
        simp only [Result.bind, he, Result.settled]
        refine ⟨by simp, fun a ha => ?_⟩
        simp only [Result.ok.injEq] at ha
        rw [← ha]
        exact consume_settled _ _ _ (by decide) hc
      | error e => simp [Result.bind, he, Result.settled]
      | fuel => exact absurd he (eval_number_ne_fuel _)
    | error e => simp [Result.bind, Result.settled]
    | fuel => exact absurd hc (consume_ne_fuel _ _)
  · cases hc : consume .atom st with
    | ok r =>
      simp only [Result.bind, Result.settled]
      refine ⟨by simp, fun a ha => ?_⟩
      simp only [Result.ok.injEq] at ha
      rw [← ha]
      exact consume_settled _ _ _ (by decide) hc
    | error e => simp [Result.bind, Result.settled]
    | fuel => exact absurd hc (consume_ne_fuel _ _)
  · simp [Result.settled]

theorem settled_bind {α : Type} (x : Result α) (g : α → Result (Node × PState)) (bound : Nat)
    (hx : x ≠ .fuel) (hg : ∀ a, x = .ok a → (g a).settled bound) :
    (x.bind g).settled bound := by
  cases x with
  | ok a => exact hg a rfl
  | error e => simp [Result.bind, Result.settled]
  | fuel => exact absurd rfl hx

theorem settled_mono (r : Result (Node × PState)) (b b' : Nat) (h : r.settled b) (hb : b ≤ b') :
    r.settled b' :=
  ⟨h.1, fun a ha => Nat.lt_of_lt_of_le (h.2 a ha) hb⟩

theorem parse_binding_settled (st : PState) : (parse_binding st).settled st.size := by
  unfold parse_binding
  refine settled_bind _ _ _ (consume_ne_fuel _ _) fun r hr => ?_
  refine ⟨by simp, fun a ha => ?_⟩
  simp only [Result.ok.injEq] at ha
  rw [← ha]
  exact consume_settled _ _ _ (by decide) hr

/-- With `4 * s + 4` steps of budget the functions of the parser return or raise
on a state that has `s` tokens left, and what they return has fewer tokens left
(no more, for the two loops). -/
theorem parse_budget (s : Nat) :
    ∀ st : PState, st.size ≤ s →
      (∀ f, 4 * s + 1 ≤ f → (parse_list f st).settled st.size) ∧
      (∀ f, 4 * s + 2 ≤ f → (parse_expr f st).settled st.size) ∧
      (∀ f fc, 4 * s + 2 ≤ f → (funcall_loop f fc st).settled (st.size + 1)) ∧
      (∀ f, 4 * s + 3 ≤ f → (parse_expr_or_funcall f st).settled st.size) ∧
      (∀ f c l nw, 4 * s + 4 ≤ f → (parse_list_loop f c l nw st).settled (st.size + 1)) := by
  induction s using Nat.strong_induction_on with
  | _ s ih =>
    intro st hst
    -- the loops on a state with fewer tokens left
    have hLL : ∀ (st1 : PState), st1.size < st.size → ∀ k c l nw, 4 * s ≤ k →
        (parse_list_loop k c l nw st1).settled st.size := by
      intro st1 h1 k c l nw hk
      have := (ih (s - 1) (by omega) st1 (by omega)).2.2.2.2 k c l nw (by omega)
      exact settled_mono _ _ _ this (by omega)
    have hFL : ∀ (st1 : PState), st1.size < st.size → ∀ k fc, 4 * s ≤ k →
        (funcall_loop k fc st1).settled st.size := by
      intro st1 h1 k fc hk
      have := (ih (s - 1) (by omega) st1 (by omega)).2.2.1 k fc (by omega)
      exact settled_mono _ _ _ this (by omega)
    have hL : ∀ f, 4 * s + 1 ≤ f → (parse_list f st).settled st.size := by
      intro f hf
      obtain ⟨k, rfl⟩ : ∃ k, f = k + 1 := ⟨f - 1, by omega⟩
      rw [parse_list]
      refine settled_bind _ _ _ (consume_ne_fuel _ _) fun r hr => ?_
      exact hLL r.2 (consume_settled _ _ _ (by decide) hr) k _ _ _ (by omega)
    have hE : ∀ f, 4 * s + 2 ≤ f → (parse_expr f st).settled st.size := by
      intro f hf
      obtain ⟨k, rfl⟩ : ∃ k, f = k + 1 := ⟨f - 1, by omega⟩
      rw [parse_expr]
      split
      · exact parse_value_settled st
      · exact parse_value_settled st
      · exact parse_value_settled st
      · exact parse_binding_settled st
      · exact hL k (by omega)
      · simp [Result.settled]
    have hEF : ∀ f, 4 * s + 3 ≤ f → (parse_expr_or_funcall f st).settled st.size := by
      intro f hf
      obtain ⟨k, rfl⟩ : ∃ k, f = k + 1 := ⟨f - 1, by omega⟩
      rw [parse_expr_or_funcall]
      refine settled_bind _ _ _ (hE k (by omega)).1 fun r hr => ?_
      have hlt := (hE k (by omega)).2 r hr
      split
      · exact ⟨by simp, fun a ha => by simp only [Result.ok.injEq] at ha; rw [← ha]; exact hlt⟩
      · exact hFL r.2 hlt k r.1 (by omega)
    refine ⟨hL, hE, ?_, hEF, ?_⟩
    · intro f fc hf
      obtain ⟨k, rfl⟩ : ∃ k, f = k + 1 := ⟨f - 1, by omega⟩
      rw [funcall_loop]
      split
      · refine settled_bind _ _ _ (hL k (by omega)).1 fun r hr => ?_
        have hlt := (hL k (by omega)).2 r hr
        exact settled_mono _ _ _ (hFL r.2 hlt k _ (by omega)) (by omega)
      · exact ⟨by simp, fun a ha => by
          simp only [Result.ok.injEq] at ha; rw [← ha]; exact Nat.lt_succ_self _⟩
    · intro f c l nw hf
      obtain ⟨k, rfl⟩ : ∃ k, f = k + 1 := ⟨f - 1, by omega⟩
      rw [parse_list_loop]
      split
      · refine settled_bind _ _ _ (consume_ne_fuel _ _) fun r hr => ?_
        have hlt := consume_settled _ _ _ (by decide) hr
        exact ⟨by simp, fun a ha => by
          simp only [Result.ok.injEq] at ha; rw [← ha]; exact Nat.lt_succ_of_lt hlt⟩
      · refine settled_bind _ _ _ (consume_ne_fuel _ _) fun r hr => ?_
        have hlt := consume_settled _ _ _ (by decide) hr
        exact settled_mono _ _ _ (hLL r.2 hlt k _ _ _ (by omega)) (by omega)
      · split
        · simp [Result.settled]
        · refine settled_bind _ _ _ (hEF k (by omega)).1 fun r hr => ?_
          have hlt := (hEF k (by omega)).2 r hr
          exact settled_mono _ _ _ (hLL r.2 hlt k _ _ _ (by omega)) (by omega)

/-- With `4 * s + 4` steps of budget the loop of `parse_program` returns or raises
on a state that has `s` tokens left. -/
theorem parse_program_loop_ne_fuel (s : Nat) :
    ∀ (st : PState) (f : Nat) (args : List Node) (nw : Bool), st.size ≤ s → 4 * s + 4 ≤ f →
      parse_program_loop f args nw st ≠ .fuel := by
  induction s using Nat.strong_induction_on with
  | _ s ih =>
    intro st f args nw hst hf
    obtain ⟨k, rfl⟩ : ∃ k, f = k + 1 := ⟨f - 1, by omega⟩
    rw [parse_program_loop]
    split
    · cases hc : consume .eof st with
      | ok r => simp [Result.bind]
      | error e => simp [Result.bind]
      | fuel => exact absurd hc (consume_ne_fuel _ _)
    · cases hc : consume .whitespace st with
      | ok r =>
        have hlt := consume_settled _ _ _ (by decide) hc
        simp only [Result.bind]
        exact ih (s - 1) (by omega) r.2 k args false (by omega) (by omega)
      | error e => simp [Result.bind]
      | fuel => exact absurd hc (consume_ne_fuel _ _)
    · split
      · simp
      · have hEF := (parse_budget s st hst).2.2.2.1 k (by omega)
        cases hp : parse_expr_or_funcall k st with
        | ok r =>
          have hlt := hEF.2 r hp
          simp only [Result.bind]
          exact ih (s - 1) (by omega) r.2 k _ true (by omega) (by omega)
        | error e => simp [Result.bind]
        | fuel => exact absurd hp hEF.1

/-- The budget of `parse` is enough: on every token sequence `parse` returns an
AST or raises an error. -/
theorem parse_ne_fuel (tokens : List Token) : parse tokens ≠ .fuel :=
  parse_program_loop_ne_fuel tokens.length (next_token tokens) _ [] false
    (size_next_token_le tokens) (Nat.le_refl _)

/-- On every source text `parse(tokenize(text, filename))` returns an AST or
raises an error. -/
theorem parse_source_ne_fuel (text filename : Str) : parse_source text filename ≠ .fuel := by
  obtain ⟨toks, h, -⟩ := tokenize_loop_spec filename text.length text 1 1 [] (Nat.le_refl _)
  rw [parse_source, tokenize, h]
  exact parse_ne_fuel _

/-- What the loop of `parse_program` returns: the call of `do` on the arguments
it started with, followed by the top-level expressions of the remaining tokens. -/
theorem parse_program_loop_spec (fuel : Nat) :
    ∀ (args : List Node) (nw : Bool) (st : PState) (ast : Node),
      parse_program_loop fuel args nw st = .ok ast →
      ∃ more, ast = program_funcall (args ++ more) ∧ TopLevel st more := by
  induction fuel with
  | zero => intro args nw st ast h; simp [parse_program_loop] at h
  | succ fuel ih =>
    intro args nw st ast h
    rw [parse_program_loop] at h
    split at h
    · next heof =>
      cases hc : consume .eof st with
      | ok r =>
        rw [hc] at h
        simp only [Result.bind, Result.ok.injEq] at h
        exact ⟨[], by simp [← h], TopLevel.eof st heof⟩
      | error e => rw [hc] at h; cases h
      | fuel => rw [hc] at h; cases h
    · next hws =>
      cases hc : consume .whitespace st with
      | ok r =>
        rw [hc] at h
        simp only [Result.bind] at h
        obtain ⟨more, hm, htl⟩ := ih _ _ _ _ h
        rw [(consume_ok _ _ _ hc).2] at htl
        exact ⟨more, hm, TopLevel.whitespace st more hws htl⟩
      | error e => rw [hc] at h; cases h
      | fuel => rw [hc] at h; cases h
    · next hne hnw =>
      split at h
      · cases h
      · cases hp : parse_expr_or_funcall fuel st with
        | ok r =>
          rw [hp] at h
          simp only [Result.bind] at h
          obtain ⟨more, hm, htl⟩ := ih _ _ _ _ h
          refine ⟨r.1 :: more, by simp [hm], ?_⟩
          exact TopLevel.expr st fuel r.1 r.2 more (fun hh => hne hh) (fun hh => hnw hh) hp htl
        | error e => rw [hp] at h; cases h
        | fuel => rw [hp] at h; cases h

/-- On whitespace tokens only, the loop of `parse_program` returns the call built
from the arguments it started with. -/
theorem parse_program_loop_whitespace (tokens : List Token) :
    ∀ (fuel : Nat) (args : List Node) (nw : Bool), tokens.length + 1 ≤ fuel →
      (∀ t ∈ tokens, t.type = .whitespace) →
      parse_program_loop fuel args nw (next_token tokens) = .ok (program_funcall args) := by
  induction tokens with
  | nil =>
    intro fuel args nw hf _
    obtain ⟨k, rfl⟩ : ∃ k, fuel = k + 1 := ⟨fuel - 1, by simp at hf; omega⟩
    rfl
  | cons t ts ih =>
    intro fuel args nw hf hall
    obtain ⟨k, rfl⟩ : ∃ k, fuel = k + 1 := ⟨fuel - 1, by simp at hf; omega⟩
    have ht : t.type = .whitespace := hall t (List.mem_cons_self _ _)
    have hrest := ih k args false (by simp at hf ⊢; omega)
      (fun u hu => hall u (List.mem_cons_of_mem _ hu))
    rw [parse_program_loop]
    simp only [next_token, ht, consume, Result.bind, shift]
    simpa using hrest

/-- C6. Whenever `parse(tokens)` returns, its result is the FunCall whose target
is the binding `do` with the native origin as coordinates and whose args list
holds exactly the top-level expressions of the token sequence, in source order
(whitespace and comment tokens contribute no element); an empty token sequence,
or one made of whitespace and comment tokens only, parses to a call of `do` with
no argument. -/
theorem parse_program_shape (tokens : List Token) :
    (∀ ast, parse tokens = .ok ast →
      ∃ args, TopLevel (next_token tokens) args ∧
        ast = .funcall (.binding (units "do") ⟨some (units "native"), none, none⟩)
          (.list args ⟨some (units "native"), none, none⟩)
          (some ⟨some (units "native"), none, none⟩)) ∧
    ((∀ t ∈ tokens, t.type = .whitespace) →
      parse tokens =
        .ok (.funcall (.binding (units "do") ⟨some (units "native"), none, none⟩)
          (.list [] ⟨some (units "native"), none, none⟩)
          (some ⟨some (units "native"), none, none⟩))) := by
  constructor
  · intro ast h
    obtain ⟨more, hm, htl⟩ := parse_program_loop_spec _ [] false _ ast h
    exact ⟨more, htl, by simpa [program_funcall, Coords.native] using hm⟩
  · intro hall
    exact parse_program_loop_whitespace tokens _ [] false (by omega) hall

/-- C6 on the tokens of `f(a)(b)` and on a lone comment token. -/
theorem parse_program_shape_witness :
    (∃ args, TopLevel (next_token curried_tokens) args ∧
      program_funcall [funcall_chain (.binding (units "f") ⟨some (units "src"), some 1, some 1⟩)
        [.list [.binding (units "a") ⟨some (units "src"), some 1, some 3⟩]
            ⟨some (units "src"), some 1, some 2⟩,
          .list [.binding (units "b") ⟨some (units "src"), some 1, some 6⟩]
            ⟨some (units "src"), some 1, some 5⟩]] =
        .funcall (.binding (units "do") ⟨some (units "native"), none, none⟩)
          (.list args ⟨some (units "native"), none, none⟩)
          (some ⟨some (units "native"), none, none⟩)) ∧
    parse [⟨.whitespace, units "# note", ⟨some (units "src"), some 1, some 1⟩⟩] =
      .ok (.funcall (.binding (units "do") ⟨some (units "native"), none, none⟩)
        (.list [] ⟨some (units "native"), none, none⟩)
        (some ⟨some (units "native"), none, none⟩)) :=
  ⟨(parse_program_shape curried_tokens).1 _ rfl,
    (parse_program_shape [⟨.whitespace, units "# note", ⟨some (units "src"), some 1, some 1⟩⟩]).2
      (by decide)⟩

/-! ## Facts about contexts -/

theorem some_parent_ok (test : Nat → Result Bool) (b : Nat → Bool) (ps : List Nat)
    (h : ∀ p ∈ ps, test p = .ok (b p)) : some_parent test ps = .ok (ps.any b) := by
  induction ps with
  | nil => rfl
  | cons p ps ih =>
    rw [some_parent, h p (List.mem_cons_self _ _)]
    simp only [Result.bind, List.any_cons]
    cases hb : b p with
    | true => simp
    | false =>
      simp only [Bool.false_eq_true, if_false, Bool.false_or]
      exact ih fun q hq => h q (List.mem_cons_of_mem _ hq)

theorem first_parent_ok (test : Nat → Result Bool) (b : Nat → Bool) (ps : List Nat)
    (h : ∀ p ∈ ps, test p = .ok (b p)) : first_parent test ps = .ok (ps.find? b) := by
  induction ps with
  | nil => rfl
  | cons p ps ih =>
    rw [first_parent, h p (List.mem_cons_self _ _)]
    simp only [Result.bind, List.find?_cons]
    cases hb : b p with
    | true => simp
    | false =>
      simp only [Bool.false_eq_true, if_false]
      exact ih fun q hq => h q (List.mem_cons_of_mem _ hq)

theorem any_flatMap_eq (ps : List Nat) (g : Nat → List Nat) (q : Nat → Bool) :
    (ps.flatMap g).any q = ps.any fun p => (g p).any q := by
  induction ps with
  | nil => rfl
  | cons p ps ih => simp [List.flatMap_cons, List.any_append, ih]

theorem find_flatMap_eq (ps : List Nat) (g : Nat → List Nat) (q : Nat → Bool) :
    (ps.flatMap g).find? q =
      match ps.find? (fun p => (g p).any q) with
      | some p => (g p).find? q
      | none => none := by
  induction ps with
  | nil => rfl
  | cons p ps ih =>
    rw [List.flatMap_cons, List.find?_append, List.find?_cons]
    cases hb : (g p).any q with
    | true =>
      obtain ⟨x, hx, hqx⟩ := List.any_eq_true.1 hb
      cases hf : (g p).find? q with
      | none => exact absurd hqx (by simpa using List.find?_eq_none.1 hf x hx)
      | some y => simp [hf]
    | false =>
      have hn : (g p).find? q = none := by
        rw [List.find?_eq_none]
        intro x hx hq
        have := List.any_eq_true.2 ⟨x, hx, hq⟩
        rw [hb] at this; cases this
      rw [hn, ih]
      simp

/-- In a well-formed heap every parent is older than its child. -/
theorem wellFormed_parent_lt {V : Type} (h : Heap V) (hwf : h.wellFormed = true) (c p : Nat)
    (hp : p ∈ (h.at c).parents) : p < c := by
  by_cases hc : c < h.length
  · simp only [Heap.wellFormed, List.all_eq_true, List.mem_range, decide_eq_true_eq] at hwf
    exact hwf c hc p hp
  · have : h.at c = Context.fresh [] false := by
      simp only [Heap.at]
      exact List.getD_eq_default _ _ (by omega)
    rw [this] at hp
    simp [Context.fresh] at hp

/-- In a well-formed heap the walk from `c` has budget enough with any budget
above `c`. -/
theorem preorder_fuel {V : Type} (h : Heap V) (hwf : h.wellFormed = true) (fuel : Nat) :
    ∀ c, c < fuel → preorder fuel h c = ctx_preorder h c := by
  induction fuel using Nat.strong_induction_on with
  | _ fuel ih =>
    intro c hc
    obtain ⟨k, rfl⟩ : ∃ k, fuel = k + 1 := ⟨fuel - 1, by omega⟩
    rw [ctx_preorder, preorder, preorder]
    congr 1
    apply List.flatMap_congr
    intro p hp
    have hlt := wellFormed_parent_lt h hwf c p hp
    rw [ih k (by omega) p (by omega), ih c hc p hlt]

/-- The walk from `c` lists `c`, then the walks from its parents in their order. -/
theorem ctx_preorder_eq {V : Type} (h : Heap V) (hwf : h.wellFormed = true) (c : Nat) :
    ctx_preorder h c = c :: (h.at c).parents.flatMap fun p => ctx_preorder h p := by
  rw [ctx_preorder, preorder]
  congr 1
  apply List.flatMap_congr
  intro p hp
  exact preorder_fuel h hwf c p (wellFormed_parent_lt h hwf c p hp)

/-- In a well-formed heap `contains` returns, with any budget above the address:
it tells whether a context of the walk declares the name. -/
theorem contains_spec {V : Type} (h : Heap V) (hwf : h.wellFormed = true) (name : Str)
    (fuel : Nat) :
    ∀ c, c < fuel →
      contains fuel h c name = .ok ((ctx_preorder h c).any fun d => has h d name) := by
  induction fuel with
  | zero => intro c hc; omega
  | succ fuel ih =>
    intro c hc
    rw [contains, ctx_preorder_eq h hwf c, List.any_cons, any_flatMap_eq]
    cases hh : has h c name with
    | true => simp
    | false =>
      simp only [Bool.false_eq_true, if_false, Bool.false_or]
      exact some_parent_ok _ _ _ fun p hp =>
        ih p (by have := wellFormed_parent_lt h hwf c p hp; omega)

/-- In a well-formed heap `get` returns or raises, with any budget above the
address: it reads the first context of the walk that declares the name. -/
theorem get_spec {V : Type} (h : Heap V) (hwf : h.wellFormed = true) (callstack : List Frame)
    (atom : Key) (fuel : Nat) :
    ∀ c, c < fuel →
      get fuel h c callstack atom =
        match (ctx_preorder h c).find? (fun d => has h d atom.text) with
        | some d => .ok (stored h d atom.text)
        | none =>
          .error (runtime_error (atom.text ++ units " is not declared") atom.coords callstack) := by
  induction fuel with
  | zero => intro c hc; omega
  | succ fuel ih =>
    intro c hc
    rw [get, ctx_preorder_eq h hwf c, List.find?_cons]
    cases hd : (h.at c).dict atom.text with
    | some v => simp [has, hd, stored]
    | none =>
      have hh : has h c atom.text = false := by simp [has, hd]
      simp only [hh, find]
      rw [first_parent_ok _ (fun p => (ctx_preorder h p).any fun d => has h d atom.text) _
        (fun p hp => contains_spec h hwf atom.text fuel p
          (by have := wellFormed_parent_lt h hwf c p hp; omega)),
        find_flatMap_eq]
      cases hf : (h.at c).parents.find?
          (fun p => (ctx_preorder h p).any fun d => has h d atom.text) with
      | none => rfl
      | some p =>
        have hp : p ∈ (h.at c).parents := List.mem_of_find?_eq_some hf
        have hlt := wellFormed_parent_lt h hwf c p hp
        simp only [Result.bind]
        exact ih p (by omega)

/-- C8. In a heap whose parent graph is finite and acyclic, `c.get(n)` returns the
value stored in the first context, in depth-first pre-order over the ordered
parent lists from `c`, that declares `n` locally; it fails, with the Runtime
error `n is not declared`, exactly when no context reachable from `c` declares
`n`, which is exactly when `c.contains(n)` is false. -/
theorem get_first_declared {V : Type} (h : Heap V) (hwf : h.wellFormed = true) (c : Nat)
    (callstack : List Frame) (atom : Key) :
    (ctx_get h c callstack atom =
        match (ctx_preorder h c).find? (fun d => has h d atom.text) with
        | some d => .ok (stored h d atom.text)
        | none =>
          .error (runtime_error (atom.text ++ units " is not declared") atom.coords callstack)) ∧
    ((∃ e, ctx_get h c callstack atom = .error e) ↔
      ∀ d ∈ ctx_preorder h c, has h d atom.text = false) ∧
    ((∀ d ∈ ctx_preorder h c, has h d atom.text = false) ↔
      ctx_contains h c atom.text = .ok false) := by
  have hget := get_spec h hwf callstack atom (c + 1) c (Nat.lt_succ_self c)
  have hcon := contains_spec h hwf atom.text (c + 1) c (Nat.lt_succ_self c)
  refine ⟨hget, ?_, ?_⟩
  · rw [ctx_get, hget]
    cases hf : (ctx_preorder h c).find? (fun d => has h d atom.text) with
    | none =>
      simp only [Result.error.injEq, exists_eq', true_iff]
      intro d hd
      have := List.find?_eq_none.1 hf d hd
      simpa using this
    | some d =>
      have hd := List.find?_some hf
      have hmem := List.mem_of_find?_eq_some hf
      simp only [reduceCtorEq, exists_false, false_iff, not_forall]
      exact ⟨d, hmem, by simp [hd]⟩
  · rw [ctx_contains, hcon]
    simp only [Result.ok.injEq, List.any_eq_false, Bool.not_eq_true]

/-- C8 on `demo_heap`: from context `3` the walk is `3, 2, 0, 1`, so `x` is read in
context `0` although the direct parent `1` declares it too. -/
theorem get_first_declared_witness :
    demo_heap.wellFormed = true ∧ ctx_preorder demo_heap 3 = [3, 2, 0, 1] ∧
      ctx_get demo_heap 3 [] ⟨units "x", none⟩ = .ok (some 10) :=
  ⟨by decide, by decide, (get_first_declared demo_heap (by decide) 3 [] ⟨units "x", none⟩).1⟩

/-! ## Writes and new contexts -/

theorem at_of_ge {V : Type} (h : Heap V) (c : Nat) (hc : h.length ≤ c) :
    h.at c = Context.fresh [] false := by
  simp only [Heap.at]
  exact List.getD_eq_default _ _ hc

theorem length_write {V : Type} (h : Heap V) (c : Nat) (name : Str) (v : Option (Option V)) :
    (h.write c name v).length = h.length := by
  simp [Heap.write]

/-- A write changes the entry `name` of the `dict` at `c` and nothing else there. -/
theorem at_write_self {V : Type} (h : Heap V) (c : Nat) (name : Str) (v : Option (Option V))
    (hc : c < h.length) :
    (h.write c name v).at c =
      ⟨fun k => if k = name then v else (h.at c).dict k, (h.at c).parents, (h.at c).immutable⟩ := by
  simp [Heap.write, Heap.at, List.getD_eq_getElem?_getD, List.getElem?_set, hc]

/-- A write at `c` leaves every other context as it was. -/
theorem at_write_other {V : Type} (h : Heap V) (c d : Nat) (name : Str)
    (v : Option (Option V)) (hd : d ≠ c) : (h.write c name v).at d = h.at d := by
  simp [Heap.write, Heap.at, List.getD_eq_getElem?_getD, List.getElem?_set, Ne.symm hd]

/-- The object `context(parents)` builds sits at the returned address. -/
theorem at_context_new {V : Type} (h : Heap V) (parents : List Nat) :
    (context h parents).1.at (context h parents).2 = Context.fresh parents false := by
  simp [context, Heap.at, List.getD_eq_getElem?_getD]

/-- Building a context leaves the existing ones as they were. -/
theorem at_context_old {V : Type} (h : Heap V) (parents : List Nat) (d : Nat)
    (hd : d < h.length) : (context h parents).1.at d = h.at d := by
  simp [context, Heap.at, List.getD_eq_getElem?_getD, List.getElem?_append_left hd]

/-- A context that declares a name is in the heap. -/
theorem lt_length_of_dict {V : Type} (h : Heap V) (p : Nat) (name : Str) (a : Option V)
    (hx : (h.at p).dict name = some a) : p < h.length := by
  by_contra hp
  rw [at_of_ge h p (by omega)] at hx
  simp [Context.fresh] at hx

/-- C9. Scope shadowing. Let `x` be declared in a parent context with content `a`,
and let a child be built with that parent. After `child.declare(x)` and
`child.set(x, b)`, `child.get(x)` returns `b` and `parent.get(x)` still returns `a`;
after a following `child.undeclare(x)`, `child.get(x)` returns `a` again, and the
parent is untouched throughout. None of the four calls fails. -/
theorem scope_shadowing {V : Type} (h : Heap V) (parent : Nat) (x : Str) (a : Option V) (b : V)
    (callstack : List Frame) (coords : Option Coords)
    (hx : (h.at parent).dict x = some a) :
    let child := (context h [parent]).2
    let h1 := (context h [parent]).1
    let h2 := (declare h1 child callstack ⟨x, coords⟩).1
    let h3 := (ctx_set h2 child callstack ⟨x, coords⟩ b).1
    let h4 := (ctx_undeclare h3 child callstack ⟨x, coords⟩).1
    (declare h1 child callstack ⟨x, coords⟩).2 = .ok () ∧
      (ctx_set h2 child callstack ⟨x, coords⟩ b).2 = .ok () ∧
      ctx_get h3 child callstack ⟨x, coords⟩ = .ok (some b) ∧
      ctx_get h3 parent callstack ⟨x, coords⟩ = .ok a ∧
      (ctx_undeclare h3 child callstack ⟨x, coords⟩).2 = .ok () ∧
      ctx_get h4 child callstack ⟨x, coords⟩ = .ok a ∧
      ctx_get h4 parent callstack ⟨x, coords⟩ = .ok a ∧
      h3.at parent = h.at parent ∧ h4.at parent = h.at parent := by
  intro child h1 h2 h3 h4
  have hp : parent < h.length := lt_length_of_dict h parent x a hx
  have hchild : child = h.length := rfl
  have hne : parent ≠ child := by omega
  have hlen1 : h1.length = h.length + 1 := by simp [h1, context]
  have hc1 : child < h1.length := by omega
  have hat1 : h1.at child = Context.fresh [parent] false := at_context_new h [parent]
  have hp1 : h1.at parent = h.at parent := at_context_old h [parent] parent hp
  -- declare
  have hdec : declare h1 child callstack ⟨x, coords⟩ = (h1.write child x (some none), .ok ()) := by
    simp [declare, has, hat1, Context.fresh]
  have e2 : h2 = h1.write child x (some none) := by simp only [h2, hdec]
  have hat2 : h2.at child =
      ⟨fun k => if k = x then some none else none, [parent], false⟩ := by
    rw [e2, at_write_self h1 child x _ hc1, hat1]; rfl
  have hp2 : h2.at parent = h.at parent := by
    rw [e2, at_write_other h1 child parent x _ hne, hp1]
  have hc2 : child < h2.length := by rw [e2, length_write]; exact hc1
  -- set
  have hset : ctx_set h2 child callstack ⟨x, coords⟩ b =
      (h2.write child x (some (some b)), .ok ()) := by
    simp [ctx_set, set, has, hat2]
  have e3 : h3 = h2.write child x (some (some b)) := by simp only [h3, hset]
  have hat3 : h3.at child =
      ⟨fun k => if k = x then some (some b) else if k = x then some none else none,
        [parent], false⟩ := by
    rw [e3, at_write_self h2 child x _ hc2, hat2]
  have hp3 : h3.at parent = h.at parent := by
    rw [e3, at_write_other h2 child parent x _ hne, hp2]
  have hc3 : child < h3.length := by rw [e3, length_write]; exact hc2
  -- undeclare
  have hund : ctx_undeclare h3 child callstack ⟨x, coords⟩ = (h3.write child x none, .ok ()) := by
    simp [ctx_undeclare, undeclare, has, hat3]
  have e4 : h4 = h3.write child x none := by simp only [h4, hund]
  have hat4 : (h4.at child).dict x = none ∧ (h4.at child).parents = [parent] := by
    rw [e4, at_write_self h3 child x _ hc3, hat3]; simp
  have hp4 : h4.at parent = h.at parent := by
    rw [e4, at_write_other h3 child parent x _ hne, hp3]
  -- reads
  have hgetp : ∀ (g : Heap V), g.at parent = h.at parent →
      ∀ n, get (n + 1) g parent callstack ⟨x, coords⟩ = .ok a := by
    intro g hg n
    simp [get, hg, hx]
  refine ⟨by rw [hdec], by rw [hset], ?_, hgetp h3 hp3 parent, by rw [hund], ?_,
    hgetp h4 hp4 parent, hp3, hp4⟩
  · simp [ctx_get, get, hat3]
  · have hdeep : ∀ n, get (n + 2) h4 child callstack ⟨x, coords⟩ = .ok a := by
      intro n
      have hcon : contains (n + 1) h4 parent x = .ok true := by
        simp [contains, has, hp4, hx]
      rw [get]
      simp only [hat4.1, find, hat4.2, first_parent, hcon, Result.bind, if_true]
      exact hgetp h4 hp4 n
    rw [ctx_get, show child + 1 = (child - 1) + 2 by omega]
    exact hdeep (child - 1)

/-- C9 on `demo_heap`: a child of context `0`, where `x` holds 10, shadows it with 7. -/
theorem scope_shadowing_witness :
    ctx_get (ctx_set (declare (context demo_heap [0]).1 4 [] ⟨units "x", none⟩).1 4 []
        ⟨units "x", none⟩ 7).1 4 [] ⟨units "x", none⟩ = .ok (some 7) ∧
      ctx_get (ctx_undeclare (ctx_set (declare (context demo_heap [0]).1 4 [] ⟨units "x", none⟩).1
        4 [] ⟨units "x", none⟩ 7).1 4 [] ⟨units "x", none⟩).1 4 [] ⟨units "x", none⟩ =
        .ok (some 10) :=
  ⟨(scope_shadowing demo_heap 0 (units "x") (some 10) 7 [] none rfl).2.2.1,
    (scope_shadowing demo_heap 0 (units "x") (some 10) 7 [] none rfl).2.2.2.2.2.1⟩

/-! ## The immutable root -/

theorem first_parent_congr (t t' : Nat → Result Bool) (ps : List Nat)
    (h : ∀ p ∈ ps, t p = t' p) : first_parent t ps = first_parent t' ps := by
  induction ps with
  | nil => rfl
  | cons p ps ih =>
    rw [first_parent, first_parent, h p (List.mem_cons_self _ _),
      ih fun q hq => h q (List.mem_cons_of_mem _ hq)]

/-- In a well-formed heap `contains` gives the same answer with any budget above
the address. -/
theorem contains_fuel {V : Type} (h : Heap V) (hwf : h.wellFormed = true) (name : Str)
    (fuel c : Nat) (hc : c < fuel) : contains fuel h c name = ctx_contains h c name := by
  rw [ctx_contains, contains_spec h hwf name fuel c hc,
    contains_spec h hwf name (c + 1) c (Nat.lt_succ_self c)]

/-- The first step of a hand-over, as `find` computes it. -/
theorem find_of_first_parent {V : Type} (h : Heap V) (hwf : h.wellFormed = true)
    (callstack : List Frame) (atom : Key) (fuel c p : Nat) (hc : c ≤ fuel)
    (hp : first_parent (fun q => ctx_contains h q atom.text) (h.at c).parents = .ok (some p)) :
    find fuel h c callstack atom = .ok p := by
  rw [find, first_parent_congr _ (fun q => ctx_contains h q atom.text) _
    (fun q hq => contains_fuel h hwf atom.text fuel q
      (by have := wellFormed_parent_lt h hwf c q hq; omega)), hp]
  rfl

/-- The first parent found is one of the parents. -/
theorem first_parent_mem (t : Nat → Result Bool) (ps : List Nat) (p : Nat)
    (h : first_parent t ps = .ok (some p)) : p ∈ ps := by
  induction ps with
  | nil => simp [first_parent] at h
  | cons q qs ih =>
    rw [first_parent] at h
    cases ht : t q with
    | ok b =>
      rw [ht] at h
      cases b with
      | true =>
        simp only [Result.bind, if_true, Result.ok.injEq, Option.some.injEq] at h
        rw [← h]; exact List.mem_cons_self _ _
      | false =>
        simp only [Result.bind, Bool.false_eq_true, if_false] at h
        exact List.mem_cons_of_mem _ (ih h)
    | error e => rw [ht] at h; cases h
    | fuel => rw [ht] at h; cases h

/-- A `set` that is handed over to an immutable context fails there and writes
nothing. -/
theorem set_reaches_immutable {V : Type} (h : Heap V) (hwf : h.wellFormed = true)
    (callstack : List Frame) (atom : Key) (v : V) (d r : Nat)
    (hreach : Reaches h atom.text d r) (himm : (h.at r).immutable = true) :
    ∀ fuel, d < fuel →
      set fuel h d callstack atom v =
        (h, .error (runtime_error (units "cannot set binding in an immutable context")
          atom.coords callstack)) := by
  induction hreach with
  | here c =>
    intro fuel hf
    obtain ⟨k, rfl⟩ : ∃ k, fuel = k + 1 := ⟨fuel - 1, by omega⟩
    simp [set, himm]
  | step c p r hhas hfirst _ ih =>
    intro fuel hf
    obtain ⟨k, rfl⟩ : ∃ k, fuel = k + 1 := ⟨fuel - 1, by omega⟩
    have hlt := wellFormed_parent_lt h hwf c p (first_parent_mem _ _ _ hfirst)
    rw [set]
    by_cases hi : (h.at c).immutable = true
    · simp [hi]
    · simp only [hi, hhas, Bool.false_eq_true, if_false,
        find_of_first_parent h hwf callstack atom k c p (by omega) hfirst]
      exact ih himm k (by omega)

/-- An `undeclare` that is handed over to an immutable context fails there and
deletes nothing. -/
theorem undeclare_reaches_immutable {V : Type} (h : Heap V) (hwf : h.wellFormed = true)
    (callstack : List Frame) (atom : Key) (d r : Nat)
    (hreach : Reaches h atom.text d r) (himm : (h.at r).immutable = true) :
    ∀ fuel, d < fuel →
      undeclare fuel h d callstack atom =
        (h, .error (runtime_error (units "cannot undeclare binding in an immutable context")
          atom.coords callstack)) := by
  induction hreach with
  | here c =>
    intro fuel hf
    obtain ⟨k, rfl⟩ : ∃ k, fuel = k + 1 := ⟨fuel - 1, by omega⟩
    simp [undeclare, himm]
  | step c p r hhas hfirst _ ih =>
    intro fuel hf
    obtain ⟨k, rfl⟩ : ∃ k, fuel = k + 1 := ⟨fuel - 1, by omega⟩
    have hlt := wellFormed_parent_lt h hwf c p (first_parent_mem _ _ _ hfirst)
    rw [undeclare]
    by_cases hi : (h.at c).immutable = true
    · simp [hi]
    · simp only [hi, hhas, Bool.false_eq_true, if_false,
        find_of_first_parent h hwf callstack atom k c p (by omega) hfirst]
      exact ih himm k (by omega)

/-- A `get` that is handed over to the root built by `immutable_context([lib])`
reads the library's entry. -/
theorem get_reaches_root {V : Type} (h : Heap V) (hwf : h.wellFormed = true)
    (callstack : List Frame) (atom : Key) (v : Option V) (lib d r : Nat)
    (hreach : Reaches h atom.text d r) (hroot : h.at r = Context.fresh [lib] true)
    (hlib : (h.at lib).dict atom.text = some v) :
    ∀ fuel, d < fuel → get fuel h d callstack atom = .ok v := by
  induction hreach with
  | here c =>
    intro fuel hf
    obtain ⟨k, rfl⟩ : ∃ k, fuel = k + 1 := ⟨fuel - 1, by omega⟩
    have hlt : lib < c := wellFormed_parent_lt h hwf c lib (by simp [hroot, Context.fresh])
    obtain ⟨j, rfl⟩ : ∃ j, k = j + 1 := ⟨k - 1, by omega⟩
    have hcon : contains (j + 1) h lib atom.text = .ok true := by
      simp [contains, has, hlib]
    rw [get]
    simp only [hroot, Context.fresh, find, first_parent, hcon, Result.bind, if_true]
    simp [get, hlib]
  | step c p r hhas hfirst _ ih =>
    intro fuel hf
    obtain ⟨k, rfl⟩ : ∃ k, fuel = k + 1 := ⟨fuel - 1, by omega⟩
    have hlt := wellFormed_parent_lt h hwf c p (first_parent_mem _ _ _ hfirst)
    have hnone : (h.at c).dict atom.text = none := by
      simpa [has] using hhas
    rw [get]
    simp only [hnone, find_of_first_parent h hwf callstack atom k c p (by omega) hfirst,
      Result.bind]
    exact ih hroot k (by omega)

/-- C10. Let `root` be the context built by `immutable_context([lib])`. A `declare`,
`set` or `undeclare` called on `root`, and a `set` or `undeclare` that a descendant
hands over to `root`, fails with a Runtime error and leaves the heap, hence every
binding of `lib`, as it was; a `get` of a name declared in `lib`, called on `root`
or handed over to it by a descendant, returns the library's value. -/
theorem immutable_root {V : Type} (h : Heap V) (hwf : h.wellFormed = true) (lib root : Nat)
    (hroot : h.at root = Context.fresh [lib] true) (callstack : List Frame) (atom : Key) :
    declare h root callstack atom =
        (h, .error ⟨.Runtime, units "cannot declare binding in an immutable context",
          atom.coords, some callstack⟩) ∧
      (∀ d v, Reaches h atom.text d root →
        ctx_set h d callstack atom v =
          (h, .error ⟨.Runtime, units "cannot set binding in an immutable context",
            atom.coords, some callstack⟩)) ∧
      (∀ d, Reaches h atom.text d root →
        ctx_undeclare h d callstack atom =
          (h, .error ⟨.Runtime, units "cannot undeclare binding in an immutable context",
            atom.coords, some callstack⟩)) ∧
      (∀ d v, (h.at lib).dict atom.text = some v → Reaches h atom.text d root →
        ctx_get h d callstack atom = .ok v) := by
  have himm : (h.at root).immutable = true := by rw [hroot]; rfl
  refine ⟨by simp [declare, himm, runtime_error], fun d v hr => ?_, fun d hr => ?_,
    fun d v hlib hr => ?_⟩
  · exact set_reaches_immutable h hwf callstack atom v d root hr himm (d + 1) (Nat.lt_succ_self d)
  · exact undeclare_reaches_immutable h hwf callstack atom d root hr himm (d + 1)
      (Nat.lt_succ_self d)
  · exact get_reaches_root h hwf callstack atom v lib d root hr hroot hlib (d + 1)
      (Nat.lt_succ_self d)

/-- C10 on `demo_rooted`: on the root (address `4`) and on its child (address `5`),
setting `x` fails and reading `x` gives the library's 10. -/
theorem immutable_root_witness :
    (ctx_set demo_rooted 4 [] ⟨units "x", none⟩ 7).2 =
        .error ⟨.Runtime, units "cannot set binding in an immutable context", none, some []⟩ ∧
      ctx_set demo_rooted 5 [] ⟨units "x", none⟩ 7 =
        (demo_rooted,
          .error ⟨.Runtime, units "cannot set binding in an immutable context", none, some []⟩) ∧
      ctx_get demo_rooted 4 [] ⟨units "x", none⟩ = .ok (some 10) ∧
      ctx_get demo_rooted 5 [] ⟨units "x", none⟩ = .ok (some 10) :=
  have hthm := immutable_root demo_rooted (by decide) 0 4 rfl [] ⟨units "x", none⟩
  have hchild : Reaches demo_rooted (units "x") 5 4 :=
    Reaches.step 5 4 4 (by decide) (by decide) (Reaches.here 4)
  ⟨congrArg Prod.snd (hthm.2.1 4 7 (Reaches.here 4)), hthm.2.1 5 7 hchild,
    hthm.2.2.2 4 (some 10) rfl (Reaches.here 4), hthm.2.2.2 5 (some 10) rfl hchild⟩

/-! ## Heaps built by the operations -/

theorem wellFormed_iff {V : Type} (h : Heap V) :
    h.wellFormed = true ↔ ∀ c, c < h.length → ∀ p ∈ (h.at c).parents, p < c := by
  simp [Heap.wellFormed, List.all_eq_true]

/-- A write keeps the parent graph. -/
theorem wellFormed_write {V : Type} (h : Heap V) (hwf : h.wellFormed = true) (c : Nat)
    (name : Str) (v : Option (Option V)) : (h.write c name v).wellFormed = true := by
  rw [wellFormed_iff] at hwf ⊢
  intro d hd p hp
  rw [length_write] at hd
  by_cases hdc : d = c
  · subst hdc
    rw [at_write_self h d name v hd] at hp
    exact hwf d hd p hp
  · rw [at_write_other h c d name v hdc] at hp
    exact hwf d hd p hp

/-- A context built on contexts of the heap keeps the heap well formed. -/
theorem wellFormed_context {V : Type} (h : Heap V) (hwf : h.wellFormed = true)
    (parents : List Nat) (hps : ∀ p ∈ parents, p < h.length) :
    (context h parents).1.wellFormed = true := by
  rw [wellFormed_iff] at hwf ⊢
  intro d hd p hp
  have hlen : (context h parents).1.length = h.length + 1 := by simp [context]
  by_cases hdl : d < h.length
  · rw [at_context_old h parents d hdl] at hp
    exact hwf d hdl p hp
  · have hd2 : d = (context h parents).2 := by simp only [context]; omega
    rw [hd2, at_context_new] at hp
    have := hps p hp
    simp only [context] at hd2
    omega

/-- The operation `declare` keeps the heap well formed and writes to no
immutable context. -/
theorem declare_invariant {V : Type} (h : Heap V) (c : Nat) (callstack : List Frame)
    (atom : Key) :
    (h.wellFormed = true → (declare h c callstack atom).1.wellFormed = true) ∧
      ∀ r, (h.at r).immutable = true → (declare h c callstack atom).1.at r = h.at r := by
  unfold declare
  by_cases hi : (h.at c).immutable = true
  · simp [hi]
  · by_cases hh : has h c atom.text = true
    · simp [hi, hh]
    · simp only [hi, hh, Bool.false_eq_true, if_false]
      refine ⟨fun hwf => wellFormed_write h hwf c _ _, fun r hr => ?_⟩
      exact at_write_other h c r _ _ (fun hrc => hi (hrc ▸ hr))

/-- The operation `set` keeps the heap well formed and writes to no immutable
context. -/
theorem set_invariant {V : Type} (callstack : List Frame) (atom : Key) (v : V) (fuel : Nat) :
    ∀ (h : Heap V) (c : Nat),
      (h.wellFormed = true → (set fuel h c callstack atom v).1.wellFormed = true) ∧
        ∀ r, (h.at r).immutable = true → (set fuel h c callstack atom v).1.at r = h.at r := by
  induction fuel with
  | zero => intro h c; simp [set]
  | succ fuel ih =>
    intro h c
    rw [set]
    by_cases hi : (h.at c).immutable = true
    · simp [hi]
    · by_cases hh : has h c atom.text = true
      · simp only [hi, hh, Bool.false_eq_true, if_false, if_true]
        refine ⟨fun hwf => wellFormed_write h hwf c _ _, fun r hr => ?_⟩
        exact at_write_other h c r _ _ (fun hrc => hi (hrc ▸ hr))
      · simp only [hi, hh, Bool.false_eq_true, if_false]
        cases find fuel h c callstack atom with
        | ok p => exact ih h p
        | error e => simp
        | fuel => simp

/-- The operation `undeclare` keeps the heap well formed and writes to no
immutable context. -/
theorem undeclare_invariant {V : Type} (callstack : List Frame) (atom : Key) (fuel : Nat) :
    ∀ (h : Heap V) (c : Nat),
      (h.wellFormed = true → (undeclare fuel h c callstack atom).1.wellFormed = true) ∧
        ∀ r, (h.at r).immutable = true → (undeclare fuel h c callstack atom).1.at r = h.at r := by
  induction fuel with
  | zero => intro h c; simp [undeclare]
  | succ fuel ih =>
    intro h c
    rw [undeclare]
    by_cases hi : (h.at c).immutable = true
    · simp [hi]
    · by_cases hh : has h c atom.text = true
      · simp only [hi, hh, Bool.false_eq_true, if_false, if_true]
        refine ⟨fun hwf => wellFormed_write h hwf c _ _, fun r hr => ?_⟩
        exact at_write_other h c r _ _ (fun hrc => hi (hrc ▸ hr))
      · simp only [hi, hh, Bool.false_eq_true, if_false]
        cases find fuel h c callstack atom with
        | ok p => exact ih h p
        | error e => simp
        | fuel => simp

/-! ## Totality and coordinates of the tokenizer -/

/-- C19. `tokenize` is total. On a non-empty remaining text the pattern table
matches a non-empty prefix: the whitespace pattern, a parenthesis pattern or
else the fallback `binding` pattern matches there. Hence for every source
`tokenize` returns a token list, and never raises its Tokenize error. -/
theorem tokenize_total :
    (∀ (c : Nat) (cs : Str),
      ((match_space (c :: cs)).isSome ∨ (match_parenleft (c :: cs)).isSome ∨
        (match_parenright (c :: cs)).isSome ∨ (match_binding (c :: cs)).isSome) ∧
      ∃ n kind, first_match patterns (c :: cs) = some (n, kind) ∧ 1 ≤ n) ∧
    (∀ s f : Str, ∃ toks, tokenize s f = .ok toks) ∧
    (∀ (s f : Str) (e : Error), tokenize s f ≠ .error e) := by
  refine ⟨fun c cs => ⟨?_, ?_⟩, fun s f => ?_, fun s f e => ?_⟩
  · by_cases hw : isWord c = true
    · right; right; right
      simp [match_binding, spanLen, hw]
    · by_cases hl : c = 40
      · right; left; simp [match_parenleft, hl]
      · by_cases hr : c = 41
        · right; right; left; simp [match_parenright, hr]
        · left
          have hs : isSpace c = true := by
            simp only [isWord, Bool.not_eq_true', Bool.not_eq_false, Bool.or_eq_true,
              beq_iff_eq] at hw
            rcases hw with (h | h) | h
            · exact absurd h hl
            · exact absurd h hr
            · exact h
          simp [match_space, spanLen, hs]
  · cases hm : first_match patterns (c :: cs) with
    | none => exact absurd hm (first_match_ne_none c cs)
    | some r => exact ⟨r.1, r.2, rfl, first_match_pos (c :: cs) r.1 r.2 hm⟩
  · obtain ⟨toks, h, -⟩ := tokenize_loop_spec f s.length s 1 1 [] (Nat.le_refl _)
    exact ⟨toks, by simpa [tokenize] using h⟩
  · obtain ⟨toks, h, -⟩ := tokenize_loop_spec f s.length s 1 1 [] (Nat.le_refl _)
    rw [tokenize, h]
    simp

theorem takeWhile_append_eq (p : Nat → Bool) (l1 l2 : List Nat) :
    (l1 ++ l2).takeWhile p = if l1.all p then l1 ++ l2.takeWhile p else l1.takeWhile p := by
  induction l1 with
  | nil => simp
  | cons a l ih =>
    simp only [List.cons_append, List.takeWhile_cons, List.all_cons]
    cases hp : p a with
    | true => simp only [Bool.true_and, if_true, ih]; split <;> rfl
    | false => simp

/-- The last line of a text that continues with `m`. -/
theorem lastLineLength_append (p m : Str) :
    lastLineLength (p ++ m) =
      if 10 ∈ m then lastLineLength m else lastLineLength p + m.length := by
  simp only [lastLineLength, List.reverse_append, takeWhile_append_eq]
  by_cases h : 10 ∈ m
  · have hall : (m.reverse.all fun c => c != 10) = false := by
      rw [List.all_eq_false]
      exact ⟨10, by simpa using h, by simp⟩
    simp [h, hall]
  · have hall : (m.reverse.all fun c => c != 10) = true := by
      rw [List.all_eq_true]
      intro x hx
      have hx2 : x ∈ m := by simpa using hx
      simp only [bne_iff_ne, ne_eq]
      rintro rfl
      exact h hx2
    simp [h, hall, Nat.add_comm]

/-- What the coordinate update computes: the newlines of the matched text are
added to the line; the column restarts after the last newline, or grows by the
length of the text when it holds none. -/
theorem advance_eq (m : Str) :
    ∀ line column pending : Nat,
      advance line column pending m =
        (line + m.count 10,
          if 10 ∈ m then 1 + lastLineLength m else column + pending + m.length) := by
  induction m with
  | nil => intro line column pending; simp [advance]
  | cons c cs ih =>
    intro line column pending
    have hl := lastLineLength_append [c] cs
    simp only [List.singleton_append] at hl
    by_cases hc : c = 10
    · subst hc
      rw [advance, if_pos rfl, ih]
      have h1 : lastLineLength [10] = 0 := by simp [lastLineLength]
      by_cases hin : 10 ∈ cs
      · simp [hin, hl, Nat.add_assoc, Nat.add_comm 1]
      · simp [hin, hl, h1, Nat.add_assoc, Nat.add_comm 1]
    · rw [advance, if_neg hc, ih]
      have hne : ¬ (10 = c) := fun h => hc h.symm
      by_cases hin : 10 ∈ cs
      · simp [hin, hl, hne, List.count_cons, hc]
      · simp [hin, hne, List.count_cons, hc]
        omega

/-- The coordinates the loop of `tokenize` gives to the tokens it appends, when
it starts at the coordinates that follow the text `consumed`. -/
theorem tokenize_loop_coords (f : Str) (fuel : Nat) :
    ∀ (text : Str) (line column : Nat) (acc : List Token) (consumed : Str) (res : List Token),
      line = 1 + consumed.count 10 → column = 1 + lastLineLength consumed →
      tokenize_loop f fuel text line column acc = .ok res →
      ∃ new, res = acc ++ new ∧
        ∀ pre t post, new = pre ++ t :: post →
          t.coords = ⟨some f, some (1 + (consumed ++ (pre.map Token.text).flatten).count 10),
            some (1 + lastLineLength (consumed ++ (pre.map Token.text).flatten))⟩ := by
  induction fuel with
  | zero =>
    intro text line column acc consumed res _ _ h
    cases text with
    | nil =>
      simp only [tokenize_loop, Result.ok.injEq] at h
      exact ⟨[], by simp [h], fun pre t post hs => by simp at hs⟩
    | cons c cs => simp [tokenize_loop] at h
  | succ fuel ih =>
    intro text line column acc consumed res hline hcol h
    cases text with
    | nil =>
      simp only [tokenize_loop, Result.ok.injEq] at h
      exact ⟨[], by simp [h], fun pre t post hs => by simp at hs⟩
    | cons c cs =>
      cases hm : first_match patterns (c :: cs) with
      | none => simp [tokenize_loop, hm] at h
      | some r =>
        obtain ⟨n, name⟩ := r
        simp only [tokenize_loop, hm] at h
        have hadv := advance_eq ((c :: cs).take n) line column 0
        obtain ⟨new, hres, hnew⟩ := ih _ _ _ _ (consumed ++ (c :: cs).take n) res
          (by rw [hadv, hline, List.count_append]; omega)
          (by
            rw [hadv, lastLineLength_append]
            split
            · rfl
            · simp only [hcol]; omega)
          h
        refine ⟨⟨name, (c :: cs).take n, ⟨some f, some line, some column⟩⟩ :: new,
          by simp [hres], ?_⟩
        intro pre t post hs
        cases pre with
        | nil =>
          simp only [List.nil_append, List.cons.injEq] at hs
          rw [← hs.1]
          simp [hline, hcol]
        | cons p pre' =>
          simp only [List.cons_append, List.cons.injEq] at hs
          have := hnew pre' t post hs.2
          rw [this, ← hs.1]
          simp [List.append_assoc]

/-- C18. For every token `t` of `tokenize(s, f)`, with `before` the text of `s` that
precedes it (the texts of the tokens before `t`): the line of `t` is 1 plus the
number of newlines of `before`, its column is 1 plus the number of characters of
`before` after its last newline (all of `before` when it holds none), and its
file is `f`. -/
theorem token_coords (s f : Str) (toks : List Token) (h : tokenize s f = .ok toks)
    (pre : List Token) (t : Token) (post : List Token) (hsplit : toks = pre ++ t :: post) :
    (pre.map Token.text).flatten ++ t.text ++ (post.map Token.text).flatten = s ∧
      t.coords = ⟨some f, some (1 + ((pre.map Token.text).flatten).count 10),
        some (1 + lastLineLength ((pre.map Token.text).flatten))⟩ := by
  constructor
  · obtain ⟨toks', h', hcat⟩ := tokenize_loop_spec f s.length s 1 1 [] (Nat.le_refl _)
    rw [tokenize] at h
    rw [h] at h'
    simp only [List.nil_append, Result.ok.injEq] at h'
    rw [← hcat, ← h', hsplit]
    simp [List.append_assoc]
  · obtain ⟨new, hres, hnew⟩ := tokenize_loop_coords f s.length s 1 1 [] [] toks
      (by simp) (by simp [lastLineLength]) h
    have := hnew pre t post (by simpa [hsplit] using hres.symm)
    simpa using this

/-- C18 on the source made of `a`, a newline, a space and `bc`: the token `bc`
starts on line 2, column 2. -/
theorem token_coords_witness :
    tokenize (units "a\n bc") (units "f") =
        .ok [⟨.binding, units "a", ⟨some (units "f"), some 1, some 1⟩⟩,
          ⟨.whitespace, units "\n ", ⟨some (units "f"), some 1, some 2⟩⟩,
          ⟨.binding, units "bc", ⟨some (units "f"), some 2, some 2⟩⟩] ∧
      (⟨some (units "f"), some 2, some 2⟩ : Coords) =
        ⟨some (units "f"), some (1 + (units "a\n ").count 10),
          some (1 + lastLineLength (units "a\n "))⟩ :=
  ⟨rfl,
    (token_coords (units "a\n bc") (units "f") _ rfl
      [⟨.binding, units "a", ⟨some (units "f"), some 1, some 1⟩⟩,
        ⟨.whitespace, units "\n ", ⟨some (units "f"), some 1, some 2⟩⟩]
      ⟨.binding, units "bc", ⟨some (units "f"), some 2, some 2⟩⟩ [] rfl).2⟩

/-! ## `set` on a chain of mutable contexts -/

/-- A write keeps the parents of every context. -/
theorem parents_write {V : Type} (h : Heap V) (c d : Nat) (name : Str)
    (v : Option (Option V)) : ((h.write c name v).at d).parents = (h.at d).parents := by
  by_cases hd : d = c
  · subst hd
    by_cases hlt : d < h.length
    · rw [at_write_self h d name v hlt]
    · have : h.write d name v = h := by
        simp only [Heap.write]
        exact List.set_eq_of_length_le (by omega)
      rw [this]
  · rw [at_write_other h c d name v hd]

/-- A write keeps the walks. -/
theorem preorder_write {V : Type} (h : Heap V) (c : Nat) (name : Str) (v : Option (Option V))
    (fuel : Nat) : ∀ d, preorder fuel (h.write c name v) d = preorder fuel h d := by
  induction fuel with
  | zero => intro d; rfl
  | succ fuel ih =>
    intro d
    rw [preorder, preorder, parents_write]
    congr 1
    exact List.flatMap_congr fun p _ => ih p

/-- Assigning to a name the context at `c` declares keeps what every context
declares. -/
theorem has_write {V : Type} (h : Heap V) (c : Nat) (name : Str) (v : Option V)
    (hc : has h c name = true) (d : Nat) (m : Str) :
    has (h.write c name (some v)) d m = has h d m := by
  by_cases hd : d = c
  · subst hd
    have hlt : d < h.length := by
      by_contra hge
      rw [has, at_of_ge h d (by omega)] at hc
      simp [Context.fresh] at hc
    simp only [has, at_write_self h d name _ hlt]
    by_cases hm : m = name
    · subst hm; simpa [has] using hc
    · simp [hm]
  · simp only [has, at_write_other h c d name _ hd]

/-- The entries after an assignment. -/
theorem stored_write {V : Type} (h : Heap V) (c : Nat) (name : Str) (v : Option V)
    (hc : has h c name = true) (d : Nat) (m : Str) :
    stored (h.write c name (some v)) d m = if d = c ∧ m = name then v else stored h d m := by
  by_cases hd : d = c
  · subst hd
    have hlt : d < h.length := by
      by_contra hge
      rw [has, at_of_ge h d (by omega)] at hc
      simp [Context.fresh] at hc
    simp only [stored, at_write_self h d name _ hlt]
    by_cases hm : m = name
    · simp [hm]
    · simp [hm]
  · simp only [stored, at_write_other h c d name _ hd]
    simp [hd]

/-- The walk from a parent is part of the walk from its child. -/
theorem preorder_parent_subset {V : Type} (h : Heap V) (hwf : h.wellFormed = true) (c p : Nat)
    (hp : p ∈ (h.at c).parents) (d : Nat) (hd : d ∈ ctx_preorder h p) : d ∈ ctx_preorder h c := by
  rw [ctx_preorder_eq h hwf c]
  exact List.mem_cons_of_mem _ (List.mem_flatMap.2 ⟨p, hp, hd⟩)

/-- In a well-formed heap, on a chain of mutable contexts, `set` returns or
raises with any budget above the address: it assigns in the first context of
the walk that declares the name, and fails when there is none. -/
theorem set_spec {V : Type} (h : Heap V) (hwf : h.wellFormed = true) (callstack : List Frame)
    (atom : Key) (v : V) (fuel : Nat) :
    ∀ c, c < fuel → (∀ d ∈ ctx_preorder h c, (h.at d).immutable = false) →
      set fuel h c callstack atom v =
        match (ctx_preorder h c).find? (fun d => has h d atom.text) with
        | some d => (h.write d atom.text (some (some v)), .ok ())
        | none =>
          (h, .error (runtime_error (atom.text ++ units " is not declared") atom.coords
            callstack)) := by
  induction fuel with
  | zero => intro c hc; omega
  | succ fuel ih =>
    intro c hc hmut
    have hself : c ∈ ctx_preorder h c := by
      rw [ctx_preorder_eq h hwf c]; exact List.mem_cons_self _ _
    rw [set, ctx_preorder_eq h hwf c, List.find?_cons]
    simp only [hmut c hself, Bool.false_eq_true, if_false]
    cases hh : has h c atom.text with
    | true => simp
    | false =>
      simp only [Bool.false_eq_true, if_false, find]
      rw [first_parent_ok _ (fun p => (ctx_preorder h p).any fun d => has h d atom.text) _
        (fun p hp => contains_spec h hwf atom.text fuel p
          (by have := wellFormed_parent_lt h hwf c p hp; omega)),
        find_flatMap_eq]
      cases hf : (h.at c).parents.find?
          (fun p => (ctx_preorder h p).any fun d => has h d atom.text) with
      | none => rfl
      | some p =>
        have hp : p ∈ (h.at c).parents := List.mem_of_find?_eq_some hf
        have hlt := wellFormed_parent_lt h hwf c p hp
        simp only [Result.bind]
        exact ih p (by omega) fun d hd => hmut d (preorder_parent_subset h hwf c p hp d hd)

/-- C11. On a chain of mutable contexts reachable from `c`: `c.set(n, v)` succeeds
if and only if `c.contains(n)`; after a successful set, `c.get(n)` returns `v` and
`c.get(m)` is unchanged for every other name `m`; and a set that does not succeed
fails with the Runtime error `n is not declared` and leaves the heap as it was. -/
theorem set_frame {V : Type} (h : Heap V) (hwf : h.wellFormed = true) (c : Nat)
    (hmut : ∀ d ∈ ctx_preorder h c, (h.at d).immutable = false)
    (callstack : List Frame) (atom : Key) (v : V) :
    ((ctx_set h c callstack atom v).2 = .ok () ↔ ctx_contains h c atom.text = .ok true) ∧
    ((ctx_set h c callstack atom v).2 = .ok () →
      (∀ (cs : List Frame) (key : Key), key.text = atom.text →
        ctx_get (ctx_set h c callstack atom v).1 c cs key = .ok (some v)) ∧
      (∀ (cs : List Frame) (key : Key), key.text ≠ atom.text →
        ctx_get (ctx_set h c callstack atom v).1 c cs key = ctx_get h c cs key)) ∧
    ((ctx_set h c callstack atom v).2 ≠ .ok () →
      ctx_set h c callstack atom v =
        (h, .error (runtime_error (atom.text ++ units " is not declared") atom.coords
          callstack))) := by
  have hset := set_spec h hwf callstack atom v (c + 1) c (Nat.lt_succ_self c) hmut
  have hcon := contains_spec h hwf atom.text (c + 1) c (Nat.lt_succ_self c)
  rw [← ctx_set] at hset
  rw [← ctx_contains] at hcon
  cases hf : (ctx_preorder h c).find? (fun d => has h d atom.text) with
  | none =>
    rw [hf] at hset
    simp only [] at hset
    have hany : ((ctx_preorder h c).any fun d => has h d atom.text) = false := by
      rw [List.any_eq_false]
      intro d hd
      simpa using List.find?_eq_none.1 hf d hd
    rw [hset, hcon, hany]
    simp
  | some d =>
    rw [hf] at hset
    simp only [] at hset
    have hd := List.find?_some hf
    have hmem := List.mem_of_find?_eq_some hf
    have hany : ((ctx_preorder h c).any fun d => has h d atom.text) = true :=
      List.any_eq_true.2 ⟨d, hmem, hd⟩
    have hwf' : (h.write d atom.text (some (some v))).wellFormed = true :=
      wellFormed_write h hwf d _ _
    have hpre : ctx_preorder (h.write d atom.text (some (some v))) c = ctx_preorder h c :=
      preorder_write h d _ _ (c + 1) c
    have hhas : (fun e => has (h.write d atom.text (some (some v))) e atom.text) =
        fun e => has h e atom.text := by
      funext e; exact has_write h d atom.text _ hd e atom.text
    rw [hset, hcon, hany]
    refine ⟨by simp, fun _ => ⟨fun cs key hk => ?_, fun cs key hk => ?_⟩, by simp⟩
    · have hg : ctx_get (h.write d atom.text (some (some v))) c cs key = _ :=
        get_spec (h.write d atom.text (some (some v))) hwf' cs key (c + 1) c (Nat.lt_succ_self c)
      rw [hpre, hk, hhas, hf] at hg
      simp only [] at hg
      rw [hg, stored_write h d atom.text _ hd]
      simp
    · have hg : ctx_get (h.write d atom.text (some (some v))) c cs key = _ :=
        get_spec (h.write d atom.text (some (some v))) hwf' cs key (c + 1) c (Nat.lt_succ_self c)
      have hg0 : ctx_get h c cs key = _ := get_spec h hwf cs key (c + 1) c (Nat.lt_succ_self c)
      have hhas2 : (fun e => has (h.write d atom.text (some (some v))) e key.text) =
          fun e => has h e key.text := by
        funext e; exact has_write h d atom.text _ hd e key.text
      rw [hpre, hhas2] at hg
      rw [hg, hg0]
      cases (ctx_preorder h c).find? (fun e => has h e key.text) with
      | none => rfl
      | some e =>
        simp only
        rw [stored_write h d atom.text _ hd]
        simp [hk]

/-- C11 on `demo_heap`: from context `3` the name `x` is contained, `set` succeeds and
the value is read back. -/
theorem set_frame_witness :
    ctx_contains demo_heap 3 (units "x") = .ok true ∧
      (ctx_set demo_heap 3 [] ⟨units "x", none⟩ 99).2 = .ok () ∧
      ctx_get (ctx_set demo_heap 3 [] ⟨units "x", none⟩ 99).1 3 [] ⟨units "x", none⟩ =
        .ok (some 99) :=
  have hthm := set_frame demo_heap (by decide) 3 (by decide) [] ⟨units "x", none⟩ 99
  ⟨by decide, hthm.1.2 (by decide), (hthm.2.1 (hthm.1.2 (by decide))).1 [] _ rfl⟩

/-! ## The call stack -/

theorem Run.balanced_ok {α : Type} (st st1 : State) (a : α) (h : st1.callstack = st.callstack) :
    Run.balanced (st1, Result.ok a) st :=
  ⟨fun _ _ => h, fun _ he => Result.noConfusion he⟩

theorem Run.balanced_error {α : Type} (st st1 : State) (e : Error)
    (h : st.callstack <+: st1.callstack) : Run.balanced ((st1, Result.error e) : Run α) st :=
  ⟨fun _ ha => Result.noConfusion ha, fun _ _ => h⟩

theorem Run.balanced_fuel {α : Type} (st st1 : State) :
    Run.balanced ((st1, Result.fuel) : Run α) st :=
  ⟨fun _ ha => Result.noConfusion ha, fun _ he => Result.noConfusion he⟩

/-- The discipline depends on the call stack of the start state only. -/
theorem Run.balanced_congr {α : Type} (r : Run α) (st st' : State)
    (h : st'.callstack = st.callstack) (hr : r.balanced st') : r.balanced st :=
  ⟨fun a ha => (hr.1 a ha).trans h, fun e he => h ▸ hr.2 e he⟩

/-- Sequencing keeps the discipline. -/
theorem Run.bind_balanced {α β : Type} (r : Run α) (f : State → α → Run β) (st : State)
    (hr : r.balanced st)
    (hf : ∀ st1 a, st1.callstack = st.callstack → (f st1 a).balanced st1) :
    (Run.bind r f).balanced st := by
  obtain ⟨st1, res⟩ := r
  cases res with
  | ok a =>
    have h1 : st1.callstack = st.callstack := hr.1 a rfl
    exact Run.balanced_congr _ st st1 h1 (hf st1 a h1)
  | error e => exact Run.balanced_error st st1 e (hr.2 e rfl)
  | fuel => exact Run.balanced_fuel st st1

theorem eval_elems_balanced (ev : Eval) (hev : Eval.balanced ev) (local_ctx : Nat)
    (es : List Value) : ∀ st, (eval_elems ev local_ctx st es).balanced st := by
  induction es with
  | nil => intro st; exact Run.balanced_ok st st _ rfl
  | cons e es ih =>
    intro st
    rw [eval_elems]
    refine Run.bind_balanced _ _ st (hev st local_ctx e) fun st1 v h1 => ?_
    refine Run.bind_balanced _ _ st1 (ih st1) fun st2 vs h2 => ?_
    exact Run.balanced_ok st2 st2 _ rfl

theorem eval_list_with_balanced (ev : Eval) (hev : Eval.balanced ev) (st : State) (ctx : Nat)
    (list : Value) : (eval_list_with ev st ctx list).balanced st := by
  cases list with
  | list es coords =>
    simp only [eval_list_with]
    refine Run.balanced_congr _ st { st with heap := (context st.heap [ctx]).1 } rfl ?_
    refine Run.bind_balanced _ _ _ (eval_elems_balanced ev hev _ es _) fun st1 vs h1 => ?_
    exact Run.balanced_ok st1 st1 _ rfl
  | _ => exact Run.balanced_error st _ _ (List.prefix_refl _)

theorem dispatch_balanced (w : World) (hw : w.balanced) (budget : Nat) (ev : Eval)
    (hev : Eval.balanced ev) (st : State) (ctx : Nat) (f args : Value) (coords : Option Coords) :
    (dispatch w budget ev st ctx f args coords).balanced st := by
  cases f with
  | mac id => exact hw.1 id budget ev st ctx args hev
  | fn id =>
    simp only [dispatch]
    refine Run.bind_balanced _ _ st (eval_list_with_balanced ev hev st ctx args) fun st1 vs h1 => ?_
    exact hw.2.1 id budget ev st1 vs.elems hev
  | native id =>
    simp only [dispatch]
    refine Run.bind_balanced _ _ st (eval_list_with_balanced ev hev st ctx args) fun st1 vs h1 => ?_
    exact hw.2.2 id st1 vs.elems
  | _ => exact Run.balanced_error st _ _ (List.prefix_refl _)

/-- What `eval_funcall` leaves of the call stack, given an evaluator and callables
that keep the discipline: the stack it was handed when it returns a value, and
at least that stack when it raises an error. -/
theorem eval_funcall_with_balanced (w : World) (hw : w.balanced) (budget : Nat) (ev : Eval)
    (hev : Eval.balanced ev) (st : State) (ctx : Nat) (fn args : Value)
    (coords : Option Coords) :
    (eval_funcall_with w budget ev st ctx fn args coords).balanced st := by
  rw [eval_funcall_with]
  refine Run.bind_balanced _ _ st (hev st ctx fn) fun st1 f h1 => ?_
  cases frame_type f with
  | error e => exact Run.balanced_error st1 st1 e (List.prefix_refl _)
  | fuel => exact Run.balanced_fuel st1 st1
  | ok type =>
    cases pretty_elem fn with
    | error e => exact Run.balanced_error st1 st1 e (List.prefix_refl _)
    | fuel => exact Run.balanced_fuel st1 st1
    | ok funname =>
      simp only
      have hd := dispatch_balanced w hw budget ev hev
        { st1 with callstack := st1.callstack ++ [call_frame coords type funname] } ctx f args
        coords
      generalize dispatch w budget ev
        { st1 with callstack := st1.callstack ++ [call_frame coords type funname] } ctx f args
        coords = r at hd
      obtain ⟨st2, res⟩ := r
      cases res with
      | ok ret =>
        have h2 : st2.callstack = st1.callstack ++ [call_frame coords type funname] := hd.1 ret rfl
        refine Run.balanced_ok st1 _ _ ?_
        simp [h2]
      | error e =>
        refine Run.balanced_error st1 st2 e ?_
        exact List.IsPrefix.trans (List.prefix_append _ _) (hd.2 e rfl)
      | fuel => exact Run.balanced_fuel st1 st2

/-- The evaluator keeps the stack discipline when the callables do. -/
theorem eval_expr_balanced (w : World) (hw : w.balanced) (fuel : Nat) :
    Eval.balanced (eval_expr w fuel) := by
  induction fuel with
  | zero => intro st ctx e; exact Run.balanced_fuel st st
  | succ fuel ih =>
    intro st ctx e
    cases e with
    | undefined => exact Run.balanced_error st st _ (List.prefix_refl _)
    | null => exact Run.balanced_error st st _ (List.prefix_refl _)
    | list es coords => exact eval_list_with_balanced _ ih st ctx _
    | funcall fn args coords => exact eval_funcall_with_balanced w hw fuel _ ih st ctx fn args coords
    | binding name coords =>
      simp only [eval_expr, eval_binding]
      cases ctx_get st.heap ctx st.callstack ⟨name, some coords⟩ with
      | ok v => exact Run.balanced_ok st st _ rfl
      | error e => exact Run.balanced_error st st _ (List.prefix_refl _)
      | fuel => exact Run.balanced_fuel st st
    | _ => exact Run.balanced_ok st st _ rfl

/-- A run that leaves the call stack as it found it keeps the discipline. -/
theorem Run.balanced_of_same {α : Type} (r : Run α) (st : State)
    (h : r.1.callstack = st.callstack) : r.balanced st :=
  ⟨fun _ _ => h, fun _ _ => h ▸ List.prefix_refl _⟩

theorem for_each_balanced (f : State → Value → Run Unit) (hf : ∀ st a, (f st a).balanced st)
    (vs : List Value) : ∀ st, (for_each f st vs).balanced st := by
  induction vs with
  | nil => intro st; exact Run.balanced_ok st st _ rfl
  | cons a rest ih =>
    intro st
    rw [for_each]
    exact Run.bind_balanced _ _ st (hf st a) fun st1 _ _ => ih st1

theorem raise_at_last_frame_balanced (st : State) (msg : Str) :
    (raise_at_last_frame st msg).balanced st := by
  refine Run.balanced_of_same _ st ?_
  simp only [raise_at_last_frame]
  split <;> rfl

theorem dec_entry_balanced (ctx : Nat) (st : State) (a : Value) :
    (dec_entry ctx st a).balanced st := by
  simp only [dec_entry]
  split
  · exact Run.balanced_error st st _ (List.prefix_refl _)
  · exact Run.balanced_fuel st st
  · exact raise_at_last_frame_balanced st _
  · refine Run.bind_balanced _ _ st (Run.balanced_of_same _ st rfl) fun st1 _ _ => ?_
    split
    · exact Run.balanced_of_same _ st1 rfl
    · exact Run.balanced_ok st1 st1 _ rfl

theorem def_entry_balanced (ctx : Nat) (st : State) (a : Value) :
    (def_entry ctx st a).balanced st := by
  simp only [def_entry]
  split
  · exact Run.balanced_error st st _ (List.prefix_refl _)
  · exact Run.balanced_fuel st st
  · exact raise_at_last_frame_balanced st _
  · exact Run.balanced_of_same _ st rfl

theorem state_get_balanced (st : State) (ctx : Nat) (atom : Key) :
    (state_get st ctx atom).balanced st := by
  refine Run.balanced_of_same _ st ?_
  simp only [state_get]
  split <;> rfl

theorem inc_entry_balanced (host : Value → Value) (ctx : Nat) (st : State) (a : Value) :
    (inc_entry host ctx st a).balanced st := by
  simp only [inc_entry]
  exact Run.bind_balanced _ _ st (state_get_balanced st ctx _) fun st1 _ _ =>
    Run.balanced_of_same _ st1 rfl

theorem while_loop_balanced (ev : Eval) (hev : Eval.balanced ev) (ctx : Nat) (body : Value)
    (budget : Nat) : ∀ st, (while_loop ev ctx body budget st).balanced st := by
  induction budget with
  | zero => intro st; exact Run.balanced_fuel st st
  | succ budget ih =>
    intro st
    rw [while_loop]
    exact Run.bind_balanced _ _ st (hev st ctx body) fun st1 _ _ => ih st1

theorem for_loop_balanced (ev : Eval) (hev : Eval.balanced ev) (forctx : Nat)
    (cond body step : Value) (budget : Nat) :
    ∀ st ret, (for_loop ev forctx cond body step budget st ret).balanced st := by
  induction budget with
  | zero => intro st ret; exact Run.balanced_fuel st st
  | succ budget ih =>
    intro st ret
    rw [for_loop]
    refine Run.bind_balanced _ _ st (hev st forctx cond) fun st1 c _ => ?_
    split
    · refine Run.bind_balanced _ _ st1 (hev st1 forctx body) fun st2 r _ => ?_
      exact Run.bind_balanced _ _ st2 (hev st2 forctx step) fun st3 _ _ => ih st3 r
    · exact Run.balanced_ok st1 st1 _ rfl

/-- The library keeps the stack discipline. -/
theorem libjyf_balanced (host : Value → Value) : (libjyf host).balanced := by
  refine ⟨fun id budget ev st ctx args hev => ?_, fun id budget ev st args _ => ?_,
    fun id st args => ?_⟩
  · simp only [libjyf]
    split
    · -- if
      simp only [lib_if]
      refine Run.bind_balanced _ _ st (hev st ctx _) fun st1 c _ => ?_
      split
      · exact hev st1 ctx _
      · split
        · exact hev st1 ctx _
        · exact Run.balanced_ok st1 st1 _ rfl
    · -- while
      simp only [lib_while]
      refine Run.bind_balanced _ _ st (hev st ctx _) fun st1 c _ => ?_
      split
      · exact while_loop_balanced ev hev ctx _ budget st1
      · exact Run.balanced_ok st1 st1 _ rfl
    · -- for
      simp only [lib_for]
      split
      · exact Run.balanced_error st st _ (List.prefix_refl _)
      · exact Run.balanced_fuel st st
      · exact Run.balanced_error st st _ (List.prefix_refl _)
      · refine Run.balanced_congr _ st { st with heap := (context st.heap [ctx]).1 } rfl ?_
        refine Run.bind_balanced _ _ _ (hev _ _ _) fun st1 _ _ => ?_
        exact for_loop_balanced ev hev _ _ _ _ budget st1 _
    · -- dec
      simp only [lib_dec]
      refine Run.bind_balanced _ _ st (eval_list_with_balanced ev hev st ctx args)
        fun st1 vs _ => ?_
      split
      · exact Run.balanced_error st1 st1 _ (List.prefix_refl _)
      · exact Run.balanced_fuel st1 st1
      · exact Run.bind_balanced _ _ st1 (for_each_balanced _ (dec_entry_balanced ctx) _ st1)
          fun st2 _ _ => Run.balanced_ok st2 st2 _ rfl
      · exact Run.bind_balanced _ _ st1 (dec_entry_balanced ctx st1 vs)
          fun st2 _ _ => Run.balanced_ok st2 st2 _ rfl
    · -- def
      simp only [lib_def]
      refine Run.bind_balanced _ _ st (eval_list_with_balanced ev hev st ctx args)
        fun st1 vs _ => ?_
      split
      · exact Run.balanced_error st1 st1 _ (List.prefix_refl _)
      · exact Run.balanced_fuel st1 st1
      · exact Run.bind_balanced _ _ st1 (for_each_balanced _ (def_entry_balanced ctx) _ st1)
          fun st2 _ _ => Run.balanced_ok st2 st2 _ rfl
      · exact Run.bind_balanced _ _ st1 (def_entry_balanced ctx st1 vs)
          fun st2 _ _ => Run.balanced_ok st2 st2 _ rfl
    · -- inc
      simp only [lib_inc]
      refine Run.bind_balanced _ _ st (eval_list_with_balanced ev hev st ctx args)
        fun st1 vs _ => ?_
      split
      · exact Run.balanced_error st1 st1 _ (List.prefix_refl _)
      · exact Run.balanced_fuel st1 st1
      · exact Run.bind_balanced _ _ st1 (raise_at_last_frame_balanced st1 _)
          fun st2 _ _ => Run.balanced_ok st2 st2 _ rfl
      · exact Run.bind_balanced _ _ st1
          (for_each_balanced _ (inc_entry_balanced host ctx) _ st1)
          fun st2 _ _ => Run.balanced_ok st2 st2 _ rfl
    · exact Run.balanced_ok st st _ rfl
  · exact Run.balanced_ok st st _ rfl
  · simp only [libjyf]
    split
    · exact Run.balanced_ok st st _ rfl
    · exact Run.balanced_ok st _ _ rfl
    · exact Run.balanced_ok st st _ rfl

/-- C12 (as stated, refuted). The call `5()` at line 1, column 2 of a file `f`,
evaluated on an empty call stack, fails at the check `cannot call non-function`
and leaves its frame on the call stack: the stack after the call is not the
stack before it. -/
theorem eval_funcall_leaves_frame :
    eval_funcall (libjyf no_host) 1 lib_state 0 (.num (Num.ofInt 5))
        (.list [] ⟨some (units "f"), some 1, some 2⟩) (some ⟨some (units "f"), some 1, some 2⟩) =
      (⟨lib_heap, [⟨⟨some (units "f"), some 1, some 2⟩, units "js-number", units "5"⟩], []⟩,
        .error (runtime_error (units "cannot call non-function")
          (some ⟨some (units "f"), some 1, some 2⟩)
          [⟨⟨some (units "f"), some 1, some 2⟩, units "js-number", units "5"⟩])) ∧
      (eval_funcall (libjyf no_host) 1 lib_state 0 (.num (Num.ofInt 5))
        (.list [] ⟨some (units "f"), some 1, some 2⟩)
        (some ⟨some (units "f"), some 1, some 2⟩)).1.callstack ≠ lib_state.callstack := by
  constructor
  · rfl
  · intro h
    have h2 : (eval_funcall (libjyf no_host) 1 lib_state 0 (.num (Num.ofInt 5))
        (.list [] ⟨some (units "f"), some 1, some 2⟩)
        (some ⟨some (units "f"), some 1, some 2⟩)).1.callstack =
        [⟨⟨some (units "f"), some 1, some 2⟩, units "js-number", units "5"⟩] := rfl
    rw [h2] at h
    cases h

/-- C12 (amended). With callables that keep the stack discipline, the call stack
after `eval_funcall` equals the call stack before the call when the call returns
a value. When an error propagates out of the call the frames are not popped:
the stack before the call is a prefix of the stack after it; once the target was
evaluated and the frame of the call pushed, that frame is still on the stack
(an error from argument evaluation or from the callee), and at the check `cannot
call non-function` the stack after the call is the stack before it followed by
the frame of the call, which is the call stack the error carries. -/
theorem eval_funcall_stack (w : World) (hw : w.balanced) (fuel : Nat) (st : State) (ctx : Nat)
    (fn args : Value) (coords : Option Coords) :
    (∀ v, (eval_funcall w fuel st ctx fn args coords).2 = .ok v →
      (eval_funcall w fuel st ctx fn args coords).1.callstack = st.callstack) ∧
    (∀ e, (eval_funcall w fuel st ctx fn args coords).2 = .error e →
      st.callstack <+: (eval_funcall w fuel st ctx fn args coords).1.callstack) ∧
    (∀ st1 f type funname, eval_expr w fuel st ctx fn = (st1, .ok f) →
      frame_type f = .ok type → pretty_elem fn = .ok funname →
      (∀ e, (eval_funcall w fuel st ctx fn args coords).2 = .error e →
        st.callstack ++ [call_frame coords type funname] <+:
          (eval_funcall w fuel st ctx fn args coords).1.callstack) ∧
      (f.callable = false →
        eval_funcall w fuel st ctx fn args coords =
          ({ st1 with callstack := st.callstack ++ [call_frame coords type funname] },
            .error (runtime_error (units "cannot call non-function") coords
              (st.callstack ++ [call_frame coords type funname]))))) := by
  have hev := eval_expr_balanced w hw fuel
  have hb := eval_funcall_with_balanced w hw fuel _ hev st ctx fn args coords
  refine ⟨hb.1, hb.2, fun st1 f type funname htgt hft hpn => ?_⟩
  have h1 : st1.callstack = st.callstack := by
    have := (hev st ctx fn).1 f (by rw [htgt])
    rw [htgt] at this
    exact this
  have hd := dispatch_balanced w hw fuel _ hev
    { st1 with callstack := st1.callstack ++ [call_frame coords type funname] } ctx f args coords
  have hunf : eval_funcall w fuel st ctx fn args coords =
      Run.bind (dispatch w fuel (eval_expr w fuel)
        { st1 with callstack := st1.callstack ++ [call_frame coords type funname] } ctx f args
        coords)
        fun st2 ret => ({ st2 with callstack := st2.callstack.dropLast }, .ok ret) := by
    rw [eval_funcall, eval_funcall_with, htgt]
    simp only [Run.bind, hft, hpn]
  constructor
  · intro e he
    rw [hunf] at he ⊢
    generalize dispatch w fuel (eval_expr w fuel)
      { st1 with callstack := st1.callstack ++ [call_frame coords type funname] } ctx f args
      coords = r at hd he
    obtain ⟨st2, res⟩ := r
    cases res with
    | ok ret => simp [Run.bind] at he
    | error e2 =>
      have := hd.2 e2 rfl
      simpa [Run.bind, h1] using this
    | fuel => simp [Run.bind] at he
  · intro hnc
    rw [hunf]
    cases f <;> simp [Value.callable] at hnc <;> simp [dispatch, Run.bind, h1]

/-- C12 on the library: the call `do()` returns with the call stack it was handed,
and the failing call `5()` leaves the stack it was handed below its frame. -/
theorem eval_funcall_stack_witness :
    (eval_funcall (libjyf no_host) 2 lib_state 0 (.binding (units "do") Coords.native)
        (.list [] Coords.native) none).1.callstack = [] ∧
      ([] : List Frame) <+:
        (eval_funcall (libjyf no_host) 1 lib_state 0 (.num (Num.ofInt 5))
          (.list [] Coords.native) none).1.callstack :=
  ⟨(eval_funcall_stack (libjyf no_host) (libjyf_balanced no_host) 2 lib_state 0
      (.binding (units "do") Coords.native) (.list [] Coords.native) none).1 .undefined rfl,
    (eval_funcall_stack (libjyf no_host) (libjyf_balanced no_host) 1 lib_state 0
      (.num (Num.ofInt 5)) (.list [] Coords.native) none).2.1 _ rfl⟩

/-- The run of the command line from the AST of the source. -/
theorem run_source_eq (host : Value → Value) (fuel : Nat) (text filename : Str) (ast : Node)
    (r : Run Value) (hparse : parse_source text filename = .ok ast)
    (hrun : run (libjyf host) fuel lib_heap 0 ast.toValue = r) :
    run_source host fuel text filename = r := by
  rw [run_source, hparse]; exact hrun

/-- C13 (as stated, refuted). Running `print(inc(1))`, where the macro `inc` raises
`cannot define non-atom`: the call stack attached to the error lists the frames
in the order of the calls, outermost first (`do` of the program, `print`, `inc`), and
after the reversal of the command line the frame of `inc` is printed before the
frame of `print`. -/
theorem error_stack_outermost_first :
    (run_source no_host 50 (units "print(inc(1))") (units "f")).2 =
        .error ⟨.Runtime, units "cannot define non-atom",
          some ⟨some (units "f"), some 1, some 10⟩,
          some [⟨Coords.native, units "js-function", units "do"⟩,
            ⟨⟨some (units "f"), some 1, some 6⟩, units "js-function", units "print"⟩,
            ⟨⟨some (units "f"), some 1, some 10⟩, units "macro", units "inc"⟩]⟩ ∧
      cli_stack_lines ⟨.Runtime, units "cannot define non-atom",
          some ⟨some (units "f"), some 1, some 10⟩,
          some [⟨Coords.native, units "js-function", units "do"⟩,
            ⟨⟨some (units "f"), some 1, some 6⟩, units "js-function", units "print"⟩,
            ⟨⟨some (units "f"), some 1, some 10⟩, units "macro", units "inc"⟩]⟩ =
        [units "  inc() at f:1:10", units "  print() at f:1:6", units "  do() at native"] := by
  refine ⟨?_, by decide⟩
  rw [run_source_eq no_host 50 (units "print(inc(1))") (units "f")
    (program_funcall
      [.funcall (.binding (units "print") ⟨some (units "f"), some 1, some 1⟩)
        (.list
          [.funcall (.binding (units "inc") ⟨some (units "f"), some 1, some 7⟩)
            (.list [.num (Num.ofInt 1)] ⟨some (units "f"), some 1, some 10⟩)
            (some ⟨some (units "f"), some 1, some 10⟩)]
          ⟨some (units "f"), some 1, some 6⟩)
        (some ⟨some (units "f"), some 1, some 6⟩)]) _ rfl rfl]
  rfl

/-- The lines of the command line for a call stack: one per frame, last frame
first. -/
theorem cli_stack_lines_eq (e : Error) (frames : List Frame) (h : e.callstack = some frames) :
    cli_stack_lines e = frames.reverse.map frame_line := by
  simp only [cli_stack_lines, h]
  rfl

/-- C13 (amended). Let the target of a call evaluate to an eagerly-evaluated
callable `f` (a Function or a native host callable), let its one argument be a
call whose target evaluates to `g`, and let calling `g` raise an error that
carries the call stack `g` was handed. Then the call fails with that error; the
call stack attached to it is in the order of the calls, outermost first: the
stack of the caller, the frame of `f`, the frame of `g`; and the command line,
which prints the reversed stack, lists the frame of `g` before the frame of `f`
(innermost call first). -/
theorem nested_call_error_stack (w : World) (hw : w.balanced) (fuel : Nat)
    (st st1 st2 st3 : State) (ctx : Nat) (ftgt gtgt gargs fv gv : Value)
    (fcoords gcoords : Option Coords) (lcoords : Coords) (ftype fname gtype gname : Str)
    (e : Error)
    (hf : eval_expr w (fuel + 1) st ctx ftgt = (st1, .ok fv))
    (heager : (∃ id, fv = .fn id) ∨ ∃ id, fv = .native id)
    (hft : frame_type fv = .ok ftype) (hfn : pretty_elem ftgt = .ok fname)
    (hg : eval_expr w fuel
        ⟨(context st1.heap [ctx]).1, st.callstack ++ [call_frame fcoords ftype fname],
          st1.console⟩
        (context st1.heap [ctx]).2 gtgt = (st2, .ok gv))
    (hgt : frame_type gv = .ok gtype) (hgn : pretty_elem gtgt = .ok gname)
    (hraise : dispatch w fuel (eval_expr w fuel)
        { st2 with callstack := st.callstack ++
            [call_frame fcoords ftype fname, call_frame gcoords gtype gname] }
        (context st1.heap [ctx]).2 gv gargs gcoords = (st3, .error e))
    (hcap : e.callstack = some (st.callstack ++
        [call_frame fcoords ftype fname, call_frame gcoords gtype gname])) :
    eval_expr w (fuel + 2) st ctx
        (.funcall ftgt (.list [.funcall gtgt gargs gcoords] lcoords) fcoords) =
      (st3, .error e) ∧
    cli_stack_lines e =
      frame_line (call_frame gcoords gtype gname) ::
        frame_line (call_frame fcoords ftype fname) :: st.callstack.reverse.map frame_line := by
  constructor
  · have h1 : st1.callstack = st.callstack := by
      have := (eval_expr_balanced w hw (fuel + 1) st ctx ftgt).1 fv (by rw [hf])
      rw [hf] at this
      exact this
    have h2 : st2.callstack = st.callstack ++ [call_frame fcoords ftype fname] := by
      have := (eval_expr_balanced w hw fuel _ _ gtgt).1 gv (by rw [hg])
      rw [hg] at this
      exact this
    have hinner : eval_expr w (fuel + 1)
        ⟨(context st1.heap [ctx]).1, st.callstack ++ [call_frame fcoords ftype fname],
          st1.console⟩
        (context st1.heap [ctx]).2 (.funcall gtgt gargs gcoords) = (st3, .error e) := by
      rw [eval_expr]
      simp only [eval_funcall_with, hg, Run.bind, hgt, hgn, h2]
      have : st.callstack ++ [call_frame fcoords ftype fname] ++
          [call_frame gcoords gtype gname] =
          st.callstack ++ [call_frame fcoords ftype fname, call_frame gcoords gtype gname] := by
        simp
      rw [this, hraise]
    rw [eval_expr]
    simp only [eval_funcall_with, hf, Run.bind, hft, hfn, h1]
    rcases heager with ⟨id, rfl⟩ | ⟨id, rfl⟩
    · simp only [dispatch, eval_list_with, eval_elems, hinner, Run.bind]
    · simp only [dispatch, eval_list_with, eval_elems, hinner, Run.bind]
  · rw [cli_stack_lines_eq e _ hcap]
    simp

/-- C13 on the library: in `print(inc(1))` the frame of `inc` is printed before the
frame of `print`. -/
theorem nested_call_error_stack_witness :
    cli_stack_lines ⟨.Runtime, units "cannot define non-atom",
        some ⟨some (units "f"), some 1, some 10⟩,
        some [⟨⟨some (units "f"), some 1, some 6⟩, units "js-function", units "print"⟩,
          ⟨⟨some (units "f"), some 1, some 10⟩, units "macro", units "inc"⟩]⟩ =
      [frame_line ⟨⟨some (units "f"), some 1, some 10⟩, units "macro", units "inc"⟩,
        frame_line ⟨⟨some (units "f"), some 1, some 6⟩, units "js-function", units "print"⟩] :=
  (nested_call_error_stack (libjyf no_host) (libjyf_balanced no_host) 2 lib_state lib_state
    ⟨(context lib_heap [0]).1,
      [⟨⟨some (units "f"), some 1, some 6⟩, units "js-function", units "print"⟩], []⟩
    ⟨(context (context lib_heap [0]).1 [1]).1,
      [⟨⟨some (units "f"), some 1, some 6⟩, units "js-function", units "print"⟩,
        ⟨⟨some (units "f"), some 1, some 10⟩, units "macro", units "inc"⟩], []⟩
    0 (.binding (units "print") ⟨some (units "f"), some 1, some 1⟩)
    (.binding (units "inc") ⟨some (units "f"), some 1, some 7⟩)
    (.list [.num (Num.ofInt 1)] ⟨some (units "f"), some 1, some 10⟩)
    (.native 1) (.mac 5)
    (some ⟨some (units "f"), some 1, some 6⟩) (some ⟨some (units "f"), some 1, some 10⟩)
    ⟨some (units "f"), some 1, some 6⟩
    (units "js-function") (units "print") (units "macro") (units "inc") _
    rfl (Or.inr ⟨1, rfl⟩) rfl rfl rfl rfl rfl rfl rfl).2

/-- C14 (failing input `dec('x) x()`). The binding `x` is declared and never set,
so the target of the call `x()` evaluates to the host's `null`; the call does not
fail with the Runtime error `cannot call non-function`: it fails with a host
`TypeError`, which has no coordinates and no call stack. Once `x` is set to a
number, `dec('x 5) x()`, the same call fails as the rule says, with the
coordinates of the call and the call stack. -/
theorem call_of_unset_binding_host_error :
    (run_source no_host 50 (units "dec('x) x()") (units "f")).2 =
        .error ⟨.Host, units "TypeError", none, none⟩ ∧
      (run_source no_host 50 (units "dec('x 5) x()") (units "f")).2 =
        .error ⟨.Runtime, units "cannot call non-function",
          some ⟨some (units "f"), some 1, some 12⟩,
          some [⟨Coords.native, units "js-function", units "do"⟩,
            ⟨⟨some (units "f"), some 1, some 12⟩, units "js-number", units "x"⟩]⟩ := by
  constructor <;> decide!

/-- C16 (as stated, refuted). The text `(do (dec x 5) (inc x) (print x))` is a list
of lists, no call: its evaluation looks up the binding `x` of the inner list
`(dec x 5)` and fails with the Runtime error `x is not declared`, at line 1,
column 10, inside the frame of the `do` of the program; nothing is printed. -/
theorem listed_program_fails :
    (run_source no_host 50 (units "(do (dec x 5) (inc x) (print x))") (units "f")).2 =
        .error ⟨.Runtime, units "x is not declared",
          some ⟨some (units "f"), some 1, some 10⟩,
          some [⟨Coords.native, units "js-function", units "do"⟩]⟩ ∧
      (run_source no_host 50 (units "(do (dec x 5) (inc x) (print x))") (units "f")).1.console =
        [] := by
  constructor <;> decide!

/-- C16 (amended). The program written with calls, `do(dec('x 5) inc('x) print(x))`,
run against the library context: the run returns (the value of `print`, that
is `undefined`) without any error, `print` is called once and receives the number
6, and afterwards `x` holds 6 in the scope of the argument list of `do` (the
context at address 3) and the call stack is empty. The operand of `inc` is a
number, so the host parameter is not consulted. -/
theorem counting_program_prints_six :
    (run_source no_host 50 (units "do(dec('x 5) inc('x) print(x))") (units "f")).2 =
        .ok .undefined ∧
      (run_source no_host 50 (units "do(dec('x 5) inc('x) print(x))") (units "f")).1.console =
        [[.num ⟨6, 0⟩]] ∧
      stored (run_source no_host 50 (units "do(dec('x 5) inc('x) print(x))") (units "f")).1.heap
        3 (units "x") = some (.num ⟨6, 0⟩) ∧
      (run_source no_host 50 (units "do(dec('x 5) inc('x) print(x))") (units "f")).1.callstack =
        [] := by
  refine ⟨?_, ?_, ?_, ?_⟩ <;> decide!

/-- Sequencing is associative. -/
theorem Run.bind_assoc {α β γ : Type} (r : Run α) (f : State → α → Run β)
    (g : State → β → Run γ) :
    Run.bind (Run.bind r f) g = Run.bind r fun st a => Run.bind (f st a) g := by
  rcases r with ⟨st, (a | e | _)⟩ <;> rfl

/-- Sequencing after a returned value. -/
theorem Run.bind_ok {α β : Type} (st : State) (a : α) (f : State → α → Run β) :
    Run.bind (st, .ok a) f = f st a := rfl

/-- The evaluation of a list of three elements, step by step. -/
theorem eval_list_with_three (ev : Eval) (st : State) (ctx : Nat) (c a b : Value) (lc : Coords)
    {β : Type} (k : State → Value → Run β) :
    Run.bind (eval_list_with ev st ctx (.list [c, a, b] lc)) k =
      Run.bind (ev { st with heap := st.heap ++ [Context.fresh [ctx] false] } st.heap.length c)
        fun s1 vc => Run.bind (ev s1 st.heap.length a)
          fun s2 va => Run.bind (ev s2 st.heap.length b)
            fun s3 vb => k s3 (.list [vc, va, vb] lc) := by
  simp only [eval_list_with, eval_elems, context, Run.bind_assoc, Run.bind_ok]

/-- C15. Macro versus function evaluation order. (1) When the callee is a Macro,
the call hands it the unevaluated argument list and the calling context, and
evaluates no argument itself. (2) The library macro `if`, given a condition and
two branches, evaluates the condition and then exactly one branch, in the calling
context: the first branch when the condition is truthy, otherwise the second.
(3), (4) When the callee is a Function or a native host callable given the same
three arguments, the condition and both branches are evaluated, in that order,
in one fresh child context, before the callee is invoked on the three values.
(5) In the program below the `if` increments `a` only (`print` receives 1 and 0),
and the native `do`, given the same arguments, then increments both (`print`
receives 2 and 1). -/
theorem macro_versus_function_order :
    (∀ (w : World) (budget : Nat) (ev : Eval) (st : State) (ctx id : Nat) (args : Value)
        (coords : Option Coords),
        dispatch w budget ev st ctx (.mac id) args coords = w.mac id budget ev st ctx args) ∧
      (∀ (host : Value → Value) (budget : Nat) (ev : Eval) (st : State) (ctx : Nat)
          (c a b : Value) (lc : Coords),
          (libjyf host).mac 0 budget ev st ctx (.list [c, a, b] lc) =
            Run.bind (ev st ctx c) fun st1 v =>
              if truthy v then ev st1 ctx a else ev st1 ctx b) ∧
      (∀ (w : World) (budget : Nat) (ev : Eval) (st : State) (ctx id : Nat) (c a b : Value)
          (lc : Coords) (coords : Option Coords),
          dispatch w budget ev st ctx (.fn id) (.list [c, a, b] lc) coords =
            Run.bind
              (ev { st with heap := st.heap ++ [Context.fresh [ctx] false] } st.heap.length c)
              fun s1 vc => Run.bind (ev s1 st.heap.length a)
                fun s2 va => Run.bind (ev s2 st.heap.length b)
                  fun s3 vb => w.fn id budget ev s3 [vc, va, vb]) ∧
      (∀ (w : World) (budget : Nat) (ev : Eval) (st : State) (ctx id : Nat) (c a b : Value)
          (lc : Coords) (coords : Option Coords),
          dispatch w budget ev st ctx (.native id) (.list [c, a, b] lc) coords =
            Run.bind
              (ev { st with heap := st.heap ++ [Context.fresh [ctx] false] } st.heap.length c)
              fun s1 vc => Run.bind (ev s1 st.heap.length a)
                fun s2 va => Run.bind (ev s2 st.heap.length b)
                  fun s3 vb => w.native id s3 [vc, va, vb]) ∧
      (run_source no_host 50
          (units ("dec('a 0) dec('b 0) if(true inc('a) inc('b)) print(a b) " ++
            "do(true inc('a) inc('b)) print(a b)")) (units "f")).1.console =
        [[.num ⟨1, 0⟩, .num ⟨0, 0⟩], [.num ⟨2, 0⟩, .num ⟨1, 0⟩]] := by
  refine ⟨fun _ _ _ _ _ _ _ _ => rfl, ?_, ?_, ?_, by decide!⟩
  · intro host budget ev st ctx c a b lc
    rfl
  · intro w budget ev st ctx id c a b lc coords
    simp only [dispatch]
    rw [eval_list_with_three]
    rfl
  · intro w budget ev st ctx id c a b lc coords
    simp only [dispatch]
    rw [eval_list_with_three]
    rfl

/-- The loop of `eval_list` returns one value per element, each element evaluated
in the state the one before it left. -/
theorem eval_elems_seq (ev : Eval) (l : Nat) (es : List Value) :
    ∀ (st st' : State) (vs : List Value), eval_elems ev l st es = (st', .ok vs) →
      vs.length = es.length ∧ EvalSeq ev l st es st' vs := by
  induction es with
  | nil =>
    intro st st' vs h
    simp only [eval_elems, Prod.mk.injEq, Result.ok.injEq] at h
    obtain ⟨h1, h2⟩ := h
    subst h1; subst h2
    exact ⟨rfl, EvalSeq.nil st⟩
  | cons e es ih =>
    intro st st' vs h
    simp only [eval_elems] at h
    rcases he : ev st l e with ⟨st1, (v | err | _)⟩
    · rw [he] at h
      simp only [Run.bind] at h
      rcases hes : eval_elems ev l st1 es with ⟨st2, (ws | err | _)⟩
      · rw [hes] at h
        simp only [Prod.mk.injEq, Result.ok.injEq] at h
        obtain ⟨h1, h2⟩ := h
        subst h1; subst h2
        obtain ⟨hl, hs⟩ := ih st1 st2 ws hes
        exact ⟨by simp [hl], EvalSeq.cons st st1 st2 e es v ws he hs⟩
      · rw [hes] at h
        simp at h
      · rw [hes] at h
        simp at h
    · rw [he] at h
      simp [Run.bind] at h
    · rw [he] at h
      simp [Run.bind] at h

/-- C17. When `eval_list` succeeds on a list node with the elements `es`, it returns
a list with the coordinates of the node and as many entries as `es`; the entries
are the values of the elements, evaluated left to right, each in the state the
one before it left, and all against one and the same context: the context built
at the start, at the first free address, which is empty and whose only parent is
`ctx`. -/
theorem eval_list_in_child_scope (w : World) (fuel : Nat) (st st' : State) (ctx : Nat)
    (es : List Value) (coords : Coords) (r : Value)
    (h : eval_list w fuel st ctx (.list es coords) = (st', .ok r)) :
    ∃ vs, r = .list vs coords ∧ vs.length = es.length ∧
      EvalSeq (eval_expr w fuel) st.heap.length
        { st with heap := st.heap ++ [Context.fresh [ctx] false] } es st' vs ∧
      (Heap.at (st.heap ++ [Context.fresh [ctx] false]) st.heap.length).parents = [ctx] ∧
      ∀ name, has (st.heap ++ [Context.fresh [ctx] false]) st.heap.length name = false := by
  simp only [eval_list, eval_list_with, context] at h
  rcases hes : eval_elems (eval_expr w fuel) st.heap.length
      { st with heap := st.heap ++ [Context.fresh [ctx] false] } es with ⟨st2, (vs | err | _)⟩
  · rw [hes] at h
    simp only [Run.bind, Prod.mk.injEq, Result.ok.injEq] at h
    obtain ⟨h1, h2⟩ := h
    subst h1; subst h2
    obtain ⟨hl, hs⟩ := eval_elems_seq _ _ _ _ _ _ hes
    refine ⟨vs, rfl, hl, hs, ?_, ?_⟩
    · simp [Heap.at, Context.fresh]
    · intro name
      simp [has, Heap.at, Context.fresh]
  · rw [hes] at h
    simp [Run.bind] at h
  · rw [hes] at h
    simp [Run.bind] at h

/-- C17 at the list `(dec('x 5) x)`, evaluated against the library context (address
0) of the state in which nothing has run: the list evaluates to the values
`undefined` and 5, the binding `x` declared by the first element being read by the
second; afterwards `x` is declared in the child context (address 1) and not in the
library context. -/
theorem eval_list_in_child_scope_witness :
    (eval_list (libjyf no_host) 9 lib_state 0 scoped_list).2 =
        .ok (.list [.undefined, .num ⟨5, 0⟩] Coords.native) ∧
      (∃ vs, Value.list [.undefined, .num ⟨5, 0⟩] Coords.native = .list vs Coords.native ∧
        vs.length = scoped_elems.length ∧
        EvalSeq (eval_expr (libjyf no_host) 9) lib_state.heap.length
          { lib_state with heap := lib_state.heap ++ [Context.fresh [0] false] } scoped_elems
          (eval_list (libjyf no_host) 9 lib_state 0 scoped_list).1 vs ∧
        (Heap.at (lib_state.heap ++ [Context.fresh [0] false]) lib_state.heap.length).parents =
          [0] ∧
        ∀ name,
          has (lib_state.heap ++ [Context.fresh [0] false]) lib_state.heap.length name = false) ∧
      has (eval_list (libjyf no_host) 9 lib_state 0 scoped_list).1.heap 1 (units "x") = true ∧
      has (eval_list (libjyf no_host) 9 lib_state 0 scoped_list).1.heap 0 (units "x") = false :=
  ⟨by decide!,
    eval_list_in_child_scope (libjyf no_host) 9 lib_state
      (eval_list (libjyf no_host) 9 lib_state 0 scoped_list).1 0 scoped_elems Coords.native
      (.list [.undefined, .num ⟨5, 0⟩] Coords.native)
      (Prod.ext rfl
        (show (eval_list (libjyf no_host) 9 lib_state 0 scoped_list).2 =
          .ok (.list [.undefined, .num ⟨5, 0⟩] Coords.native) by decide!)),
    by decide!, by decide!⟩

/-- The loop of `while` never returns a value: it runs until the body raises an
error, or for ever. -/
theorem while_loop_never_ok (ev : Eval) (ctx : Nat) (body : Value) :
    ∀ (budget : Nat) (st : State) (v : Value), (while_loop ev ctx body budget st).2 ≠ .ok v := by
  intro budget
  induction budget with
  | zero =>
    intro st v h
    simp [while_loop] at h
  | succ n ih =>
    intro st v h
    simp only [while_loop] at h
    rcases he : ev st ctx body with ⟨st1, (x | err | _)⟩
    · rw [he] at h
      exact ih st1 v h
    · rw [he] at h
      simp [Run.bind] at h
    · rw [he] at h
      simp [Run.bind] at h

/-- After `n` evaluations of the body that returned a value, the loop of `while`
goes on from the state they left. -/
theorem while_loop_continues (ev : Eval) (ctx : Nat) (body : Value) (n : Nat) (st s : State)
    (h : BodyRuns ev ctx body n st s) (k : Nat) :
    while_loop ev ctx body (n + k) st = while_loop ev ctx body k s := by
  induction h with
  | zero st => simp
  | succ n st st1 st2 v he _ ih =>
    rw [Nat.add_right_comm, while_loop, he]
    exact ih

/-- C20. The library macro `while` evaluates its condition, `args[0]`, once, in the
calling context; let it return the value `c` and leave the state `st1`. If `c` is
falsy the macro returns `undefined` from `st1`, the body is not evaluated. If `c`
is truthy the macro is the loop that evaluates the body, `args[1]`, again and
again from `st1`, without evaluating the condition again. That loop never returns
a value, whatever the number of iterations it is allowed; and after any number
`n` of evaluations of the body that returned a value, leaving the state `s`, it
goes on with one more evaluation of the body, from `s` (given the budget for
it). -/
theorem while_condition_once (host : Value → Value) (budget : Nat) (ev : Eval)
    (st st1 : State) (ctx : Nat) (args c : Value)
    (hcond : ev st ctx (args.index 0) = (st1, .ok c)) :
    (libjyf host).mac 1 budget ev st ctx args =
        (if truthy c then while_loop ev ctx (args.index 1) budget st1
          else (st1, .ok .undefined)) ∧
      (∀ (b : Nat) (s : State) (v : Value),
        (while_loop ev ctx (args.index 1) b s).2 ≠ .ok v) ∧
      ∀ (n k : Nat) (s : State), BodyRuns ev ctx (args.index 1) n st1 s →
        while_loop ev ctx (args.index 1) (n + (k + 1)) st1 =
          Run.bind (ev s ctx (args.index 1)) fun s1 _ =>
            while_loop ev ctx (args.index 1) k s1 := by
  refine ⟨?_, while_loop_never_ok ev ctx _, ?_⟩
  · show lib_while budget ev st ctx args = _
    rw [lib_while, hcond]
    rfl
  · intro n k s h
    have h1 := while_loop_continues ev ctx _ n st1 s h (k + 1)
    rw [h1, while_loop]

/-- C20 at the call `while(true 1)` in the library context: the condition is
evaluated to `true`, and the macro is the loop on the body `1`; in the program
`dec('go true) while(go def('go false))` the body sets the binding the condition
reads to `false`, and the loop is still running when the budget of the run is
spent. -/
theorem while_condition_once_witness :
    ((libjyf no_host).mac 1 3 (eval_expr (libjyf no_host) 5) lib_state 0 forever_args =
        (if truthy (.bool true) then
          while_loop (eval_expr (libjyf no_host) 5) 0 (forever_args.index 1) 3
            (eval_expr (libjyf no_host) 5 lib_state 0 (forever_args.index 0)).1
          else ((eval_expr (libjyf no_host) 5 lib_state 0 (forever_args.index 0)).1,
            .ok .undefined)) ∧
      (∀ (b : Nat) (s : State) (v : Value),
        (while_loop (eval_expr (libjyf no_host) 5) 0 (forever_args.index 1) b s).2 ≠ .ok v) ∧
      ∀ (n k : Nat) (s : State),
        BodyRuns (eval_expr (libjyf no_host) 5) 0 (forever_args.index 1) n
          (eval_expr (libjyf no_host) 5 lib_state 0 (forever_args.index 0)).1 s →
        while_loop (eval_expr (libjyf no_host) 5) 0 (forever_args.index 1) (n + (k + 1))
            (eval_expr (libjyf no_host) 5 lib_state 0 (forever_args.index 0)).1 =
          Run.bind (eval_expr (libjyf no_host) 5 s 0 (forever_args.index 1)) fun s1 _ =>
            while_loop (eval_expr (libjyf no_host) 5) 0 (forever_args.index 1) k s1) ∧
      (run_source no_host 50 (units "dec('go true) while(go def('go false))") (units "f")).2 =
        .fuel ∧
      stored
        (run_source no_host 50 (units "dec('go true) while(go def('go false))")
          (units "f")).1.heap 2 (units "go") = some (.bool false) :=
  ⟨while_condition_once no_host 3 (eval_expr (libjyf no_host) 5) lib_state
      (eval_expr (libjyf no_host) 5 lib_state 0 (forever_args.index 0)).1 0 forever_args
      (.bool true)
      (Prod.ext rfl
        (show (eval_expr (libjyf no_host) 5 lib_state 0 (forever_args.index 0)).2 =
          .ok (.bool true) by decide!)),
    by decide!, by decide!⟩

end Jyf
